import Mathlib

/-! Threaded AVL tree (`avlt.h`): embedding and verification.

The class `avlt<KeyT, ValueT>` is embedded at `KeyT = ValueT = int`, with
unbounded integers.  Nodes live in a heap (a list of `NODE` records, a node
pointer is `Option Nat`, `none` being `nullptr`).  Every method is a function
into `Option`: the result `none` stands for a run that has no defined result
(a null pointer is dereferenced, or a loop does not stop within the number of
steps allowed by the heap size).
-/

namespace AVLT

/-- The record `struct NODE`. -/
structure NODE where
  Key : Int
  Value : Int
  Left : Option Nat
  Right : Option Nat
  isThreaded : Bool
  Height : Int
  deriving DecidableEq, Repr

/-- Node storage: the address of a node is its index. -/
abbrev Heap := List NODE

/-- The data members of `avlt` (the unused `RangeRoot` is left out), with the
node storage the object owns. -/
structure avlt where
  heap : Heap
  Root : Option Nat
  ogRoot : Option Nat
  Size : Int
  hasBegun : Bool
  deriving DecidableEq, Repr

/-- Read through a node pointer (`p->...`); undefined on `nullptr`. -/
def rd (H : Heap) (p : Option Nat) : Option NODE :=
  match p with
  | none => none
  | some a => H[a]?

/-- Write through a node pointer (`p->field = ...`); undefined on `nullptr`. -/
def wr (H : Heap) (p : Option Nat) (f : NODE → NODE) : Option Heap :=
  match p with
  | none => none
  | some a =>
    match H[a]? with
    | none => none
    | some n => some (H.set a (f n))

/-- The helper `assignHeight`. -/
def assignHeight (H : Heap) (node : Option Nat) : Option Int :=
  match node with
  | none => some (-1 : Int)
  | some a => (H[a]?).map (fun n => n.Height)

/-- The tail of `right_rotate` and `left_rotate` ("update parent"): `top` is the
node that moved up. -/
def updateParent (s : avlt) (H : Heap) (cur par top : Option Nat) : Option avlt :=
  match par with
  | none => some { s with heap := H, Root := top, ogRoot := top }
  | some _ => do
    let p ← rd H par
    let H1 : Heap ← (if p.Left ≠ none ∧ p.Left = cur then wr H par (fun n => { n with Left := top })
              else some H)
    let p1 ← rd H1 par
    let H2 : Heap ← (if p1.Right ≠ none ∧ p1.Right = cur then wr H1 par (fun n => { n with Right := top })
              else some H1)
    some { s with heap := H2 }

/-- The part "Perform rotation" of `right_rotate`: the heap after relinking, and
the local `hclRL`. -/
def right_rotate_link (H : Heap) (cur : Option Nat) : Option (Heap × Int) := do
  let c0 ← rd H cur
  let cl := c0.Left
  let l0 ← rd H cl
  let clR := l0.Right
  -- cl->Right = cur
  let H1 : Heap ← wr H cl (fun n => { n with Right := cur })
  let l1 ← rd H1 cl
  if l1.isThreaded = false then do
    let H2 : Heap ← wr H1 cur (fun n => { n with Left := clR })
    let hclRL : Int ← assignHeight H2 clR
    some (H2, hclRL)
  else do
    let H2 : Heap ← wr H1 cur (fun n => { n with Left := none })
    some (H2, -1)

/-- The part "Update heights" of `right_rotate`. -/
def right_rotate_heights (H2 : Heap) (cur cl : Option Nat) (hclRL : Int) : Option Heap := do
  let l2 ← rd H2 cl
  let clLeft : Int ← assignHeight H2 l2.Left
  let c2 ← rd H2 cur
  let curRightHeight : Int ← (if c2.isThreaded then some (-1 : Int)
                              else assignHeight H2 c2.Right)
  let H3 : Heap ← wr H2 cur (fun n => { n with Height := max hclRL curRightHeight + 1 })
  let l3 ← rd H3 cl
  let (H4, clRight) ← (if l3.isThreaded = false then do
                          let h : Int ← assignHeight H3 l3.Right
                          some (H3, h)
                        else do
                          let H4 : Heap ← wr H3 cl (fun n => { n with isThreaded := false })
                          some (H4, (-1 : Int)))
  wr H4 cl (fun n => { n with Height := max clLeft clRight + 1 })

/-- The method `right_rotate(cur, par)`. -/
def right_rotate (s : avlt) (cur par : Option Nat) : Option avlt := do
  let c0 ← rd s.heap cur
  let cl := c0.Left
  let (H2, hclRL) ← right_rotate_link s.heap cur
  let H5 ← right_rotate_heights H2 cur cl hclRL
  updateParent s H5 cur par cl

/-- The part "Perform rotation" of `left_rotate`: the heap after relinking, and
the local `hcrLR`. -/
def left_rotate_link (H : Heap) (cur : Option Nat) : Option (Heap × Int) := do
  let c0 ← rd H cur
  let cr := c0.Right
  let r0 ← rd H cr
  let crL := r0.Left
  -- cr->Left = cur; cur->Right = crL
  let H1 : Heap ← wr H cr (fun n => { n with Left := cur })
  let H2 : Heap ← wr H1 cur (fun n => { n with Right := crL })
  let c2 ← rd H2 cur
  if c2.Right = none then do
    let H3 : Heap ← wr H2 cur (fun n => { n with Right := cr, isThreaded := true })
    some (H3, -1)
  else do
    let hcrLR : Int ← assignHeight H2 crL
    some (H2, hcrLR)

/-- The part "Update heights" of `left_rotate`. -/
def left_rotate_heights (H3 : Heap) (cur cr : Option Nat) (hcrLR : Int) : Option Heap := do
  let c3 ← rd H3 cur
  let hcurL : Int ← assignHeight H3 c3.Left
  let H4 : Heap ← wr H3 cur (fun n => { n with Height := max hcrLR hcurL + 1 })
  let r4 ← rd H4 cr
  let crLeft : Int ← assignHeight H4 r4.Left
  let c4 ← rd H4 cur
  let crRight : Int ← (if c4.isThreaded then some (-1 : Int) else assignHeight H4 r4.Right)
  wr H4 cr (fun n => { n with Height := max crLeft crRight + 1 })

/-- The method `left_rotate(cur, par)`. -/
def left_rotate (s : avlt) (cur par : Option Nat) : Option avlt := do
  let c0 ← rd s.heap cur
  let cr := c0.Right
  let (H3, hcrLR) ← left_rotate_link s.heap cur
  let H5 ← left_rotate_heights H3 cur cr hcrLR
  updateParent s H5 cur par cr

/-- The top of the remaining stack, `nullptr` when it is empty. -/
def stackTop (nodes : List (Option Nat)) : Option Nat :=
  match nodes with
  | [] => none
  | p :: _ => p

/-- The four-way rotation choice at the end of one round of `checkBalance`
(`&&` evaluates its right operand only when the left one holds). -/
def rebalance (s : avlt) (key : Int) (cur prev : Option Nat) (balance : Int) : Option avlt := do
  let n ← rd s.heap cur
  let c1 ← (if balance ≥ 2 then (rd s.heap n.Left).map (fun l => decide (key < l.Key))
            else some false)
  if c1 then right_rotate s cur prev
  else
    let c2 ← (if balance ≤ -2 then (rd s.heap n.Right).map (fun r => decide (key > r.Key))
              else some false)
    if c2 then left_rotate s cur prev
    else
      let c3 : Bool ← (if balance ≥ 2 then (rd s.heap n.Left).map (fun l => decide (key > l.Key))
                else some false)
      if c3 then do
        let s1 ← left_rotate s n.Left cur
        right_rotate s1 cur prev
      else
        let c4 : Bool ← (if balance ≤ -2 then (rd s.heap n.Right).map (fun r => decide (key < r.Key))
                  else some false)
        if c4 then do
          let s1 ← right_rotate s n.Right cur
          left_rotate s1 cur prev
        else some s

/-- The method `checkBalance(nodes, key)`: the stack is a list, top first. -/
def checkBalance (key : Int) : List (Option Nat) → avlt → Option avlt
  | [], s => some s
  | cur :: rest, s =>
    if cur = none then some s
    else do
      let prev := stackTop rest
      let n ← rd s.heap cur
      let hL : Int ← (if n.Left = none then some (-1 : Int) else (rd s.heap n.Left).map (fun l => l.Height))
      let hR : Int ← (if n.Right = none ∨ n.isThreaded then some (-1 : Int)
                else (rd s.heap n.Right).map (fun r => r.Height))
      let hCur : Int := 1 + max hL hR
      if n.Height = hCur then some s
      else do
        let H1 : Heap ← wr s.heap cur (fun m => { m with Height := hCur })
        let s1 ← rebalance { s with heap := H1 } key cur prev (hL - hR)
        checkBalance key rest s1

/-- Outcome of the descent loop of `insert`. -/
inductive Descent where
  | found
  | fell (prev : Option Nat) (nodes : List (Option Nat)) (goLeft goRight : Bool)
  deriving DecidableEq, Repr

/-- The `while (cur != nullptr)` loop of `insert`. -/
def insertLoop (H : Heap) (key : Int) :
    Nat → Option Nat → Option Nat → List (Option Nat) → Bool → Bool → Option Descent
  | 0, _, _, _, _, _ => none
  | fuel + 1, cur, prev, nodes, goLeft, goRight =>
    match cur with
    | none => some (Descent.fell prev nodes goLeft goRight)
    | some c =>
      match H[c]? with
      | none => none
      | some n =>
        if key = n.Key then some Descent.found
        else if key < n.Key then
          insertLoop H key fuel n.Left cur (cur :: nodes)
            (if n.Left = none then true else goLeft) goRight
        else if n.isThreaded then
          some (Descent.fell cur (cur :: nodes) goLeft true)
        else
          insertLoop H key fuel n.Right cur (cur :: nodes) goLeft
            (if n.Right = none then true else goRight)

/-- The linking part shared by `insert` and `copy_insert` (a new node of the given
height is created and hooked below `prev`); `Size` is incremented. -/
def linkNew (s : avlt) (key value height : Int) (prev : Option Nat) (goLeft goRight : Bool) :
    Option avlt := do
  let newNode : Option Nat := some s.heap.length
  let H0 : Heap := s.heap ++ [{ Key := key, Value := value, Left := none, Right := none,
                                isThreaded := false, Height := height }]
  let s0 : avlt := if prev = none then { s with Root := newNode, ogRoot := newNode } else s
  let H1 : Heap ← (if goLeft then do
              let Ha : Heap ← wr H0 newNode (fun n => { n with Right := prev })
              let Hb : Heap ← wr Ha prev (fun n => { n with Left := newNode })
              wr Hb newNode (fun n => { n with isThreaded := true })
            else some H0)
  let H2 : Heap ← (if goRight then do
              let p ← rd H1 prev
              let Ha : Heap ← wr H1 newNode (fun n => { n with Right := p.Right })
              let Hb : Heap ← wr Ha prev (fun n => { n with Right := newNode })
              let Hc : Heap ← wr Hb prev (fun n => { n with isThreaded := false })
              let m ← rd Hc newNode
              wr Hc newNode (fun n => { n with isThreaded := decide (m.Right ≠ none) })
            else some H1)
  some { s0 with heap := H2, Size := s0.Size + 1 }

/-- The method `insert(key, value)`. -/
def insert (s : avlt) (key value : Int) : Option avlt := do
  let d ← insertLoop s.heap key (s.heap.length + 1) s.ogRoot none [] false false
  match d with
  | Descent.found => some s
  | Descent.fell prev nodes goLeft goRight => do
    let s1 ← linkNew s key value 0 prev goLeft goRight
    checkBalance key nodes s1

/-- The default constructor. -/
def empty : avlt :=
  { heap := [], Root := none, ogRoot := none, Size := 0, hasBegun := false }

/-- The method `size()`. -/
def size (s : avlt) : Int := s.Size

/-- The method `height()`. -/
def height (s : avlt) : Option Int :=
  match s.Root with
  | none => some (-1 : Int)
  | some a => (s.heap[a]?).map (fun n => n.Height)

/-- The `while` loop of `search`: the flag and the (possibly updated) `value`. -/
def searchLoop (H : Heap) (key : Int) (value : Int) : Nat → Option Nat → Option (Bool × Int)
  | 0, _ => none
  | _ + 1, none => some (false, value)
  | fuel + 1, some c =>
    match H[c]? with
    | none => none
    | some n =>
      if key = n.Key then some (true, n.Value)
      else if key < n.Key then searchLoop H key value fuel n.Left
      else if n.isThreaded then some (false, value)
      else if key > n.Key then searchLoop H key value fuel n.Right
      else searchLoop H key value fuel (some c)

/-- The method `search(key, value)`: the returned flag and the content of the
reference parameter `value` afterwards. -/
def search (s : avlt) (key : Int) (value : Int) : Option (Bool × Int) :=
  match s.Root with
  | none => some (false, value)
  | some _ => searchLoop s.heap key value (s.heap.length + 1) s.Root

/-- The inner loop `while (node->Left != nullptr && node->Left->Key > key) node = node->Left`
of `nextRange` and of `next`, started at a non-null node. -/
def leftWhile (H : Heap) (key : Int) : Nat → Nat → Option Nat
  | 0, _ => none
  | fuel + 1, a =>
    match H[a]? with
    | none => none
    | some n =>
      match n.Left with
      | none => some a
      | some l =>
        match H[l]? with
        | none => none
        | some ln => if ln.Key > key then leftWhile H key fuel l else some a

/-- The helper `nextRange(node)`. -/
def nextRange (H : Heap) (node : Option Nat) : Option (Option Nat) :=
  match node with
  | none => some none
  | some a =>
    match H[a]? with
    | none => none
    | some n =>
      match n.Right with
      | none => some none
      | some r => (leftWhile H n.Key (H.length + 1) r).map some

/-- The `while` loop of `findLower`. -/
def findLowerLoop (H : Heap) (key : Int) : Nat → Option Nat → Option (Option Nat)
  | 0, _ => none
  | _ + 1, none => some none
  | fuel + 1, some c =>
    match H[c]? with
    | none => none
    | some n =>
      if key = n.Key then some (some c)
      else if key < n.Key then
        match n.Left with
        | some l =>
          match H[l]? with
          | none => none
          | some ln =>
            if ln.Key ≥ key ∨ ln.isThreaded = false then findLowerLoop H key fuel (some l)
            else some (some c)
        | none => some (some c)
      else if n.isThreaded then
        match rd H n.Right with
        | none => none
        | some r => if r.Key ≥ key then some n.Right else some none
      else
        match n.Right with
        | some r => findLowerLoop H key fuel (some r)
        | none => some none

/-- The method `findLower(key)`. -/
def findLower (s : avlt) (key : Int) : Option (Option Nat) :=
  match s.Root with
  | none => some none
  | some _ => findLowerLoop s.heap key (s.heap.length + 1) s.ogRoot

/-- The loop `while (current != nullptr && current->Key <= upper)` of `range_search`;
`keys` is the vector built so far. -/
def rangeLoop (H : Heap) (upper : Int) : Nat → Option Nat → List Int → Option (List Int)
  | 0, _, _ => none
  | _ + 1, none, keys => some keys
  | fuel + 1, some a, keys =>
    match H[a]? with
    | none => none
    | some n =>
      if n.Key ≤ upper then
        match nextRange H (some a) with
        | none => none
        | some nxt => rangeLoop H upper fuel nxt (keys ++ [n.Key])
      else some keys

/-- The method `range_search(lower, upper)`. -/
def range_search (s : avlt) (lower upper : Int) : Option (List Int) :=
  match s.Root with
  | none => some []
  | some _ =>
    match findLower s lower with
    | none => none
    | some none => some []
    | some (some a) =>
      match s.heap[a]? with
      | none => none
      | some n =>
        if n.Key < lower then some []
        else rangeLoop s.heap upper (s.heap.length + 1) (some a) []

/-- The loop `while (Root->Left != nullptr) Root = Root->Left` of `begin`. -/
def leftmost (H : Heap) : Nat → Nat → Option Nat
  | 0, _ => none
  | fuel + 1, a =>
    match H[a]? with
    | none => none
    | some n =>
      match n.Left with
      | none => some a
      | some l => leftmost H fuel l

/-- The method `begin()`. -/
def begin (s : avlt) : Option avlt :=
  match s.ogRoot with
  | none => some s
  | some a => (leftmost s.heap (s.heap.length + 1) a).map
      (fun r => { s with Root := some r, hasBegun := true })

/-- The method `next(key)`: the new state, the returned flag, and the content of
the reference parameter `key` afterwards. -/
def next (s : avlt) (key : Int) : Option (avlt × Bool × Int) :=
  match s.Root with
  | none => some (s, false, key)
  | some a =>
    if s.hasBegun = false then some (s, false, key)
    else
      match s.heap[a]? with
      | none => none
      | some n =>
        match n.Right with
        | none => some ({ s with Root := none }, true, n.Key)
        | some r => (leftWhile s.heap n.Key (s.heap.length + 1) r).map
            (fun c => ({ s with Root := some c }, true, n.Key))

/-- The method `copy_insert(key, value, height)`: the descent is the loop of
`insert` (whose stack is not used here), the linking is `linkNew` with the given
height, and there is no call of `checkBalance`. -/
def copy_insert (s : avlt) (key value height : Int) : Option avlt := do
  let d ← insertLoop s.heap key (s.heap.length + 1) s.ogRoot none [] false false
  match d with
  | Descent.found => some s
  | Descent.fell prev _ goLeft goRight => linkNew s key value height prev goLeft goRight

/-- The method `insertCopy(orig)`, `orig` pointing into the storage `src` of the
tree that is copied; `d` is the tree being built. -/
def insertCopy (src : Heap) : Nat → Option Nat → avlt → Option avlt
  | 0, _, _ => none
  | _ + 1, none, d => some d
  | fuel + 1, some a, d =>
    match src[a]? with
    | none => none
    | some n => do
      let d1 ← copy_insert d n.Key n.Value n.Height
      let d2 ← insertCopy src fuel n.Left d1
      if n.isThreaded = false then insertCopy src fuel n.Right d2 else some d2

/-- The copy constructor `avlt(const avlt& other)`.  `Size` and `hasBegun` are not
initialised before `insertCopy` runs; they are overwritten at the end. -/
def copy (other : avlt) : Option avlt := do
  let d0 : avlt := { heap := [], Root := none, ogRoot := none, Size := 0, hasBegun := false }
  let d ← insertCopy other.heap (other.heap.length + 1) other.Root d0
  some { d with ogRoot := d.Root, Size := other.Size, hasBegun := other.hasBegun }

/-- The helper `clearTree(node)`: the nodes deleted, in deletion order. -/
def clearTree (H : Heap) : Nat → Option Nat → Option (List Nat)
  | 0, _ => none
  | _ + 1, none => some []
  | fuel + 1, some a =>
    match H[a]? with
    | none => none
    | some n => do
      let dl ← clearTree H fuel n.Left
      let dr ← (if n.isThreaded = false then clearTree H fuel n.Right else some [])
      some (dl ++ dr ++ [a])

/-- The method `clear()`; the deleted storage is dropped. -/
def clear (s : avlt) : Option avlt := do
  let _ ← clearTree s.heap (s.heap.length + 1) s.ogRoot
  some { s with heap := [], Root := none, ogRoot := none, Size := 0 }

/-- The assignment `operator=(other)` applied to `s`.  The parameter `other` is a
reference: `some o` stands for an object `o` other than `s`, and `none` for `s`
itself (`&other == this`, the self-assignment `t = t`; the method has no guard for
it).  In the second case every read of `other` sees the members of `s` as they are
at that point: `other.Root` is the `Root` that was just set to null, and
`other.Size`, `other.hasBegun` are the current members. -/
def assign (s : avlt) (other : Option avlt) : Option avlt := do
  let s1 ← clear s
  let s2 : avlt := { s1 with Root := none }
  match other with
  | some o => do
    let d ← insertCopy o.heap (o.heap.length + 1) o.Root s2
    some { d with ogRoot := d.Root, Size := o.Size, hasBegun := o.hasBegun }
  | none => do
    let d ← insertCopy s2.heap (s2.heap.length + 1) s2.Root s2
    some { d with ogRoot := d.Root, Size := d.Size, hasBegun := d.hasBegun }

/-- The helper `inOrder(cur, output)`: the lines written. -/
def inOrder (H : Heap) : Nat → Option Nat → Option (List String)
  | 0, _ => none
  | _ + 1, none => some []
  | fuel + 1, some a =>
    match H[a]? with
    | none => none
    | some n => do
      let ls ← inOrder H fuel n.Left
      if n.isThreaded then do
        let r ← rd H n.Right
        some (ls ++ ["(" ++ toString n.Key ++ "," ++ toString n.Value ++ "," ++
          toString n.Height ++ "," ++ toString r.Key ++ ")"])
      else do
        let rs ← inOrder H fuel n.Right
        some (ls ++ ["(" ++ toString n.Key ++ "," ++ toString n.Value ++ "," ++
          toString n.Height ++ ")"] ++ rs)

/-- The method `dump(output)`: the lines written to the stream. -/
def dump (s : avlt) : Option (List String) := do
  let h ← height s
  let body ← inOrder s.heap (s.heap.length + 1) s.ogRoot
  some (["**************************************************",
         "********************* AVLT ***********************",
         "** size: " ++ toString (size s),
         "** height: " ++ toString h] ++ body ++
        ["**************************************************"])

/-- A run of `insert` calls on a tree, in order. -/
def insertAll (s : avlt) : List (Int × Int) → Option avlt
  | [] => some s
  | (k, v) :: rest => (insert s k v).bind (fun s1 => insertAll s1 rest)

/-- The tree built from the empty tree by a run of `insert` calls. -/
def build (ops : List (Int × Int)) : Option avlt := insertAll empty ops

/-! ## Abstract view of the node storage -/

/-- The nodes reachable from a pointer, as a binary tree: every node carries its
address and its stored key, value and height. `nil` is an absent subtree. -/
inductive Tree where
  | nil : Tree
  | node (a : Nat) (l : Tree) (k v h : Int) (r : Tree) : Tree
  deriving DecidableEq, Repr

namespace Tree

/-- The pointer to the root node. -/
def ptr : Tree → Option Nat
  | nil => none
  | node a _ _ _ _ _ => some a

/-- The stored height of the root node, `-1` for an absent subtree. -/
def ht : Tree → Int
  | nil => -1
  | node _ _ _ _ h _ => h

/-- The key of the root node. -/
def rootKey : Tree → Option Int
  | nil => none
  | node _ _ k _ _ _ => some k

/-- The height recomputed from the shape (`-1` for an absent subtree). -/
def height : Tree → Int
  | nil => -1
  | node _ l _ _ _ r => 1 + max l.height r.height

/-- Number of nodes. -/
def size : Tree → Nat
  | nil => 0
  | node _ l _ _ _ r => l.size + 1 + r.size

/-- Addresses in inorder. -/
def addrs : Tree → List Nat
  | nil => []
  | node a l _ _ _ r => l.addrs ++ a :: r.addrs

/-- Keys in inorder. -/
def keys : Tree → List Int
  | nil => []
  | node _ l k _ _ r => l.keys ++ k :: r.keys

/-- The (key, value) pairs in inorder. -/
def kvs : Tree → List (Int × Int)
  | nil => []
  | node _ l k v _ r => l.kvs ++ (k, v) :: r.kvs

/-- The nodes (address, key, value) in inorder. -/
def items : Tree → List (Nat × Int × Int)
  | nil => []
  | node a l k v _ r => l.items ++ (a, k, v) :: r.items

/-- The `Right` field of a node with right subtree `r`, when `succ` points to the
inorder successor of the largest key below the node (`none`: there is none). -/
def rlink (r : Tree) (succ : Option Nat) : Option Nat :=
  match r with
  | nil => succ
  | node b _ _ _ _ _ => some b

/-- The `isThreaded` field of a node with right subtree `r`. -/
def rflag (r : Tree) (succ : Option Nat) : Bool :=
  match r with
  | nil => succ.isSome
  | node _ _ _ _ _ _ => false

/-- The record stored for a node. -/
def cell (l : Tree) (k v h : Int) (r : Tree) (succ : Option Nat) : NODE :=
  { Key := k, Value := v, Left := l.ptr, Right := rlink r succ,
    isThreaded := rflag r succ, Height := h }

/-- The heap `H` holds the tree: each node is stored at its address, left
pointers are child pointers, a right pointer is the child pointer, or the
thread to the inorder successor with `isThreaded = true`, or null with
`isThreaded = false` for the node that has no successor. -/
def Rep (H : Heap) : Option Nat → Tree → Prop
  | _, nil => True
  | succ, node a l k v h r =>
    H[a]? = some (cell l k v h r succ) ∧ Rep H (some a) l ∧ Rep H succ r

/-- Stored heights are the recomputed ones and the balance condition holds. -/
def Avl : Tree → Prop
  | nil => True
  | node _ l _ _ h r =>
    Avl l ∧ Avl r ∧ h = 1 + max l.ht r.ht ∧ l.ht - r.ht ≤ 1 ∧ r.ht - l.ht ≤ 1

/-- The local `clRight` of `right_rotate`: `-1` when `cl` is threaded (its right
subtree `lr` is absent), else the new height `hc` of `cur`. -/
def rotRtop (lr : Tree) (hc : Int) : Int :=
  match lr with
  | nil => -1
  | node _ _ _ _ _ _ => hc

/-- The code of `right_rotate` on the abstract tree (the stored heights are
computed as the code computes them). -/
def rotR : Tree → Option Tree
  | node c (node l ll kl vl _ lr) kc vc _ cr =>
    some (node l ll kl vl (max ll.ht (rotRtop lr (max lr.ht cr.ht + 1)) + 1)
      (node c lr kc vc (max lr.ht cr.ht + 1) cr))
  | _ => none

/-- The local `crRight` of `left_rotate`: `-1` when `cur` has become threaded (`rl`
is absent), else what `assignHeight(cr->Right)` returns: the height of the right
child, or `sh` when `cr->Right` is the thread or null. -/
def rotLtop (sh : Int) (rl rr : Tree) : Int :=
  match rl, rr with
  | nil, _ => -1
  | node _ _ _ _ _ _, nil => sh
  | node _ _ _ _ _ _, node _ _ _ _ h _ => h

/-- The code of `left_rotate` on the abstract tree; `sh` is what `assignHeight`
returns for the pointer to the inorder successor of the subtree. -/
def rotL (sh : Int) : Tree → Option Tree
  | node c cl kc vc _ (node r rl kr vr _ rr) =>
    some (node r (node c cl kc vc (max rl.ht cl.ht + 1) rl) kr vr
      (max (max rl.ht cl.ht + 1) (rotLtop sh rl rr) + 1) rr)
  | _ => none

/-- The rotation choice of `checkBalance` on the abstract tree. -/
def rebalT (key : Int) (sh : Int) : Tree → Option Tree
  | nil => none
  | node a l k v h r =>
    let balance : Int := l.ht - r.ht
    (if balance ≥ 2 then l.rootKey.map (fun x => decide (key < x)) else some false).bind
    fun c1 =>
    if c1 then rotR (node a l k v h r)
    else
      (if balance ≤ -2 then r.rootKey.map (fun x => decide (key > x)) else some false).bind
      fun c2 =>
      if c2 then rotL sh (node a l k v h r)
      else
        (if balance ≥ 2 then l.rootKey.map (fun x => decide (key > x)) else some false).bind
        fun c3 =>
        if c3 then (rotL h l).bind (fun l1 => rotR (node a l1 k v h r))
        else
          (if balance ≤ -2 then r.rootKey.map (fun x => decide (key < x))
           else some false).bind
          fun c4 =>
          if c4 then (rotR r).bind (fun r1 => rotL sh (node a l k v h r1))
          else some (node a l k v h r)

/-- Every node satisfies the balance condition on the recomputed heights. -/
def Balanced : Tree → Prop
  | nil => True
  | node _ l _ _ _ r =>
    Balanced l ∧ Balanced r ∧ l.height - r.height ≤ 1 ∧ r.height - l.height ≤ 1

/-- Every stored height is one more than the larger stored height of the children
(`-1` for an absent child) and is the height recomputed from the shape. -/
def HeightsOk : Tree → Prop
  | nil => True
  | node a l k v h r =>
    HeightsOk l ∧ HeightsOk r ∧ h = 1 + max l.ht r.ht ∧
      h = (node a l k v h r).height

end Tree

/-- One step of a root-to-node path: the node passed (address and fields), the
side taken, and the subtree on the other side. -/
structure Frame where
  left : Bool
  a : Nat
  k : Int
  v : Int
  h : Int
  sib : Tree
  deriving DecidableEq, Repr

/-- Put a subtree below a path step. -/
def Frame.plug (f : Frame) (t : Tree) : Tree :=
  if f.left then Tree.node f.a t f.k f.v f.h f.sib else Tree.node f.a f.sib f.k f.v f.h t

/-- Put a subtree at the end of a path (deepest step first). -/
def plugAll : List Frame → Tree → Tree
  | [], t => t
  | f :: ctx, t => plugAll ctx (f.plug t)

/-- The nodes before the end of a path, in inorder. -/
def befI : List Frame → List (Nat × Int × Int)
  | [] => []
  | f :: ctx => befI ctx ++ (if f.left then [] else f.sib.items ++ [(f.a, f.k, f.v)])

/-- The nodes after the end of a path, in inorder. -/
def aftI : List Frame → List (Nat × Int × Int)
  | [] => []
  | f :: ctx => (if f.left then (f.a, f.k, f.v) :: f.sib.items else []) ++ aftI ctx

/-- The pointer to the inorder successor of the subtree at the end of a path. -/
def holeSucc : List Frame → Option Nat
  | [] => none
  | f :: ctx => if f.left then some f.a else holeSucc ctx

/-- The stored height of the node `holeSucc` points to (`-1` when null). -/
def succH : List Frame → Int
  | [] => -1
  | f :: ctx => if f.left then f.h else succH ctx

/-- The addresses on a path, deepest first: the stack built by `insert`. -/
def stackOf (ctx : List Frame) : List (Option Nat) := ctx.map (fun f => some f.a)

/-- The path `insert` walks for `key`, `none` when the key is met. -/
def pathT (key : Int) : Tree → List Frame → Option (List Frame)
  | Tree.nil, ctx => some ctx
  | Tree.node a l k v h r, ctx =>
    if key = k then none
    else if key < k then pathT key l ({ left := true, a := a, k := k, v := v, h := h, sib := r } :: ctx)
    else pathT key r ({ left := false, a := a, k := k, v := v, h := h, sib := l } :: ctx)

/-- The loop of `checkBalance` on the abstract tree. -/
def fixT (key : Int) : List Frame → Tree → Option Tree
  | [], t => some t
  | f :: ctx, t =>
    let hL : Int := if f.left then t.ht else f.sib.ht
    let hR : Int := if f.left then f.sib.ht else t.ht
    let hCur : Int := 1 + max hL hR
    if f.h = hCur then some (plugAll ctx (f.plug t))
    else (Tree.rebalT key (succH ctx) ({ f with h := hCur }.plug t)).bind (fixT key ctx)

/-- The method `insert` on the abstract tree; `a` is the address of the new node. -/
def insT (key value : Int) (a : Nat) (t : Tree) : Option Tree :=
  match pathT key t [] with
  | none => some t
  | some ctx => fixT key ctx (Tree.node a Tree.nil key value 0 Tree.nil)

/-- The record a path step needs from the heap, as a function of the subtree below. -/
def Frame.cellOf (f : Frame) (t : Tree) (s : Option Nat) : NODE :=
  if f.left then Tree.cell t f.k f.v f.h f.sib s else Tree.cell f.sib f.k f.v f.h t s

/-- The flags `goLeft`, `goRight` at the end of the descent along a path. -/
def flagsOf : List Frame → Bool × Bool
  | [] => (false, false)
  | f :: _ => (f.left, !f.left)

/-- The heap with the record at address `a` replaced. -/
def hset (H : Heap) (a : Nat) (n : NODE) : Heap := H.set a n

/-- The heap with a new record at the next free address. -/
def hpush (H : Heap) (n : NODE) : Heap := H ++ [n]

/-- The record of a parent after the child pointer `c` is redirected to `top`. -/
def reparent (pc : NODE) (c top : Nat) : NODE :=
  { pc with Left := if pc.Left = some c then some top else pc.Left,
            Right := if pc.Right = some c then some top else pc.Right }

/-- What a rotation at the subtree `t` with root `c` (below the parent `par`) leaves:
the subtree has become `t1`, the parent points to its root, nothing else moved. -/
structure StepOk (s s1 : avlt) (succ par : Option Nat) (c : Nat) (t t1 : Tree) : Prop where
  rep : Tree.Rep s1.heap succ t1
  len : s1.heap.length = s.heap.length
  size : s1.Size = s.Size
  begun : s1.hasBegun = s.hasBegun
  frame : ∀ b, b ∉ t.addrs → some b ≠ par → s1.heap[b]? = s.heap[b]?
  parent : ∀ p pc, par = some p → s.heap[p]? = some pc →
    ∃ top, t1.ptr = some top ∧ s1.heap[p]? = some (reparent pc c top)
  roots : (s1.Root = s.Root ∧ s1.ogRoot = s.ogRoot ∧ (par = none → t1.ptr = some c)) ∨
    (par = none ∧ s1.Root = t1.ptr ∧ s1.ogRoot = t1.ptr)

/-- The statement of the simulation of `checkBalance` for one path. -/
def CbSim (key : Int) (ctx : List Frame) : Prop :=
  ∀ (t : Tree) (s : avlt) (t1 : Tree),
    Tree.Rep s.heap none (plugAll ctx t) → (plugAll ctx t).addrs.Nodup → (∃ c, t.ptr = some c) →
    s.ogRoot = (plugAll ctx t).ptr → fixT key ctx t = some t1 →
    ∃ s1, checkBalance key (stackOf ctx) s = some s1 ∧ Tree.Rep s1.heap none t1 ∧
      s1.ogRoot = t1.ptr ∧ (s1.Root = s.Root ∨ s1.Root = s1.ogRoot) ∧
      (s.Root = s.ogRoot → s1.Root = s1.ogRoot) ∧
      s1.heap.length = s.heap.length ∧ s1.Size = s.Size ∧ s1.hasBegun = s.hasBegun ∧
      t1.items = (plugAll ctx t).items

/-- The state `s` holds the tree `t`: the records reachable from `ogRoot` are the
nodes of `t`, there is no other record, and `Size` is the number of nodes. -/
structure Holds (s : avlt) (t : Tree) : Prop where
  rep : Tree.Rep s.heap none t
  nodup : t.addrs.Nodup
  og : s.ogRoot = t.ptr
  len : s.heap.length = t.size
  size : s.Size = t.size

/-- After an insertion below that made the subtree one higher: the subtree is the
new leaf, or it is higher on the side of the inserted key. -/
def LeanTo (key : Int) : Tree → Prop
  | Tree.nil => False
  | Tree.node _ l k _ _ r =>
    (l = Tree.nil ∧ r = Tree.nil) ∨ (key < k ∧ l.ht = r.ht + 1) ∨ (k < key ∧ r.ht = l.ht + 1)

/-- The key goes down the path: smaller than the keys where it turns left, larger
than the keys where it turns right. -/
def Routes (key : Int) (ctx : List Frame) : Prop :=
  ∀ f ∈ ctx, if f.left then key < f.k else f.k < key

/-- The invariant of the states built by the methods: the state holds a tree whose
keys are strictly ascending in inorder, with correct stored heights and the
balance condition at every node. -/
structure Inv (s : avlt) (t : Tree) : Prop where
  holds : Holds s t
  avl : Tree.Avl t
  bst : t.keys.Pairwise (fun x y => x < y)

/-- The descent of `search` on the abstract tree. -/
def lookupT (key : Int) : Tree → Option Int
  | Tree.nil => none
  | Tree.node _ l k v _ r =>
    if key = k then some v else if key < k then lookupT key l else lookupT key r

/-- The inner loop of `nextRange` and `next`, started at `b` with the key `k`, stays
at `b`: the left child of `b`, when there is one, has no larger key. -/
def StopAt (H : Heap) (k : Int) (b : Nat) : Prop :=
  ∃ n, H[b]? = some n ∧
    (n.Left = none ∨ ∃ l ln, n.Left = some l ∧ H[l]? = some ln ∧ ¬ (ln.Key > k))

/-- The call `n` times of `next` in a row, each returning `true`: the keys returned,
in order, and the state afterwards (`none` when a call returns `false`). -/
def takeNext : Nat → avlt → Option (List Int × avlt)
  | 0, s => some ([], s)
  | n + 1, s =>
    match next s 0 with
    | some (s1, true, k) => (takeNext n s1).map (fun r => (k :: r.1, r.2))
    | _ => none

/-- A call of one of the methods `insert`, `begin`, `next`. -/
inductive Op where
  | ins (k v : Int)
  | beg
  | nxt
  deriving DecidableEq, Repr

/-- The state after a call. -/
def step (s : avlt) : Op → Option avlt
  | Op.ins k v => insert s k v
  | Op.beg => begin s
  | Op.nxt => (next s 0).map (fun r => r.1)

/-- The state after a run of calls, in order. -/
def run (s : avlt) : List Op → Option avlt
  | [] => some s
  | op :: rest => (step s op).bind (fun s1 => run s1 rest)

/-- The keys passed to `insert` in a run of calls. -/
def insKeys : List Op → List Int
  | [] => []
  | Op.ins k _ :: rest => k :: insKeys rest
  | _ :: rest => insKeys rest

/-- The traversal cursor `Root` is null or points to a node of the tree. -/
def Cursor (s : avlt) (t : Tree) : Prop :=
  s.Root = none ∨ ∃ a ∈ t.addrs, s.Root = some a

/-- The test of `findLower` for going to the left child `l`: its key is not below
`key`, or it is not threaded (it has a right subtree). -/
def goesLeft (key : Int) : Tree → Bool
  | Tree.nil => false
  | Tree.node _ _ lk _ _ lr =>
    decide (lk ≥ key) || (match lr with
      | Tree.nil => false
      | Tree.node _ _ _ _ _ _ => true)

/-- The loop of `findLower` on the abstract tree; `succ` is the address and the key
of the inorder successor of the subtree, when there is one. -/
def lowerT (key : Int) : Tree → Option (Nat × Int) → Option Nat
  | Tree.nil, _ => none
  | Tree.node a l k _ _ r, succ =>
    if key = k then some a
    else if key < k then
      if goesLeft key l then lowerT key l (some (a, k)) else some a
    else
      match r with
      | Tree.nil =>
        (match succ with
         | some (b, bk) => if bk ≥ key then some b else none
         | none => none)
      | Tree.node _ _ _ _ _ _ => lowerT key r succ

/-- The list `range_search` returns, on the keys in ascending order. -/
def rangeOf (lo hi : Int) (L : List Int) : List Int :=
  (L.dropWhile (fun k => decide (k < lo))).takeWhile (fun k => decide (k ≤ hi))

/-- What can be observed of the nodes below a pointer: the shape, and for every node
its key, value, stored height, threaded flag and the key of the node its thread
points to. -/
inductive Shape where
  | leaf : Shape
  | node (l : Shape) (k v h : Int) (threaded : Bool) (target : Option Int) (r : Shape) : Shape
  deriving DecidableEq, Repr

/-- The observation of the nodes below a pointer, read from the storage the way
`inOrder` walks it: left child, then the thread target of a threaded node or the
right child of an unthreaded one. -/
def shapeOf (H : Heap) : Nat → Option Nat → Option Shape
  | 0, _ => none
  | _ + 1, none => some Shape.leaf
  | fuel + 1, some a =>
    match H[a]? with
    | none => none
    | some n => do
      let ls ← shapeOf H fuel n.Left
      if n.isThreaded then do
        let r ← rd H n.Right
        some (Shape.node ls n.Key n.Value n.Height true (some r.Key) Shape.leaf)
      else do
        let rs ← shapeOf H fuel n.Right
        some (Shape.node ls n.Key n.Value n.Height false none rs)

/-- The lines `inOrder` writes for an observed shape. -/
def linesOf : Shape → List String
  | Shape.leaf => []
  | Shape.node l k v h threaded target r =>
    if threaded then
      linesOf l ++ ["(" ++ toString k ++ "," ++ toString v ++ "," ++
          toString h ++ "," ++ toString (target.getD 0) ++ ")"]
    else
      linesOf l ++ ["(" ++ toString k ++ "," ++ toString v ++ "," ++
          toString h ++ ")"] ++ linesOf r

/-- The observation of an abstract tree; `sk` is the key of the inorder successor of
the subtree, when there is one. -/
def Tree.shape : Tree → Option Int → Shape
  | Tree.nil, _ => Shape.leaf
  | Tree.node _ l k v h r, sk =>
    if Tree.rflag r (sk.map (fun _ => 0)) then
      Shape.node (Tree.shape l (some k)) k v h true sk Shape.leaf
    else Shape.node (Tree.shape l (some k)) k v h false none (Tree.shape r sk)

/-- The tree with its nodes at the addresses `n`, `n + 1`, ... in preorder: the
addresses `copy_insert` gives when the nodes are replayed in preorder. -/
def relabel (n : Nat) : Tree → Tree
  | Tree.nil => Tree.nil
  | Tree.node _ l k v h r =>
    Tree.node n (relabel (n + 1) l) k v h (relabel (n + 1 + l.size) r)

/-- The `while` loop of `operator[]`; the default value `ValueT{}` is `0`. -/
def indexLoop (H : Heap) (key : Int) : Nat → Option Nat → Option Int
  | 0, _ => none
  | _ + 1, none => some 0
  | fuel + 1, some c =>
    match H[c]? with
    | none => none
    | some n =>
      if key = n.Key then some n.Value
      else if key < n.Key then indexLoop H key fuel n.Left
      else if n.isThreaded then some 0
      else indexLoop H key fuel n.Right

/-- The method `operator[](key)`. -/
def operatorIndex (s : avlt) (key : Int) : Option Int :=
  indexLoop s.heap key (s.heap.length + 1) s.ogRoot

/-- The call of `next` `n` times in a row, whatever it returns: the flags returned,
in order, the state and the content of the reference parameter afterwards. -/
def nextTimes : Nat → avlt → Int → Option (List Bool × avlt × Int)
  | 0, s, key => some ([], s, key)
  | n + 1, s, key =>
    match next s key with
    | none => none
    | some (s1, b, k1) => (nextTimes n s1 k1).map (fun r => (b :: r.1, r.2))

/-- The `while` loop of `operator()`; the default key `KeyT{}` is `0`. -/
def callLoop (H : Heap) (key : Int) : Nat → Option Nat → Option Int
  | 0, _ => none
  | _ + 1, none => some 0
  | fuel + 1, some c =>
    match H[c]? with
    | none => none
    | some n =>
      if key = n.Key then
        match n.Right with
        | none => some 0
        | some r => (H[r]?).map (fun m => m.Key)
      else if key < n.Key then callLoop H key fuel n.Left
      else if n.isThreaded then some 0
      else callLoop H key fuel n.Right

/-- The method `operator()(key)`. -/
def operatorCall (s : avlt) (key : Int) : Option Int :=
  match s.ogRoot with
  | none => some 0
  | some _ => callLoop s.heap key (s.heap.length + 1) s.ogRoot

/-- The loop of `operator()` on the abstract tree; `sk` is the key of the inorder
successor of the subtree, when there is one. -/
def callT (key : Int) : Tree → Option Int → Int
  | Tree.nil, _ => 0
  | Tree.node _ l k _ _ r, sk =>
    if key = k then
      match r with
      | Tree.nil => sk.getD 0
      | Tree.node _ _ rk _ _ _ => rk
    else if key < k then callT key l (some k)
    else
      match r with
      | Tree.nil => 0
      | Tree.node _ _ _ _ _ _ => callT key r sk

/-- The line `dump` is said to write for a node: key, value and stored height, and
for a threaded node the key `next` its thread points to. -/
def rowLine (x : Int × Int × Int × Bool) (next : Option Int) : String :=
  if x.2.2.2 then
    "(" ++ toString x.1 ++ "," ++ toString x.2.1 ++ "," ++ toString x.2.2.1 ++ "," ++
      toString (next.getD 0) ++ ")"
  else "(" ++ toString x.1 ++ "," ++ toString x.2.1 ++ "," ++ toString x.2.2.1 ++ ")"

/-- The node lines of `dump` as the specification describes them, for the nodes
(key, value, height, threaded flag) listed in ascending key order: one line per
node, the thread key of a node being the key of the node listed next (`sk` after
the last one). -/
def dumpRows : List (Int × Int × Int × Bool) → Option Int → List String
  | [], _ => []
  | x :: rest, sk =>
    rowLine x (match rest with
      | [] => sk
      | y :: _ => some y.1) :: dumpRows rest sk

/-- The nodes of an abstract tree in inorder: key, value, stored height and
threaded flag; `hasSucc` tells whether the subtree has an inorder successor. -/
def Tree.nodes : Tree → Bool → List (Int × Int × Int × Bool)
  | Tree.nil, _ => []
  | Tree.node _ l k v h r, hasSucc =>
    Tree.nodes l true ++
      (k, v, h, (match r with
        | Tree.nil => hasSucc
        | Tree.node _ _ _ _ _ _ => false)) :: Tree.nodes r hasSucc

/-- What a rotation at the subtree `T` below the path `ctx` leaves in the state `s1`:
the structure holds the tree with `T1` in the place of `T`; the node `top` is the
root of `T1` and hangs in the child slot of the parent where the root of `T` was,
or is the structural root when there is no parent; the nodes of the whole tree
(address, key, value) are in the same inorder sequence, and the keys are strictly
ascending in inorder. -/
def Rotated (s1 : avlt) (ctx : List Frame) (T T1 : Tree) (top : Nat) : Prop :=
  Tree.Rep s1.heap none (plugAll ctx T1) ∧ s1.ogRoot = (plugAll ctx T1).ptr ∧
  T1.ptr = some top ∧
  (∀ f rest, ctx = f :: rest → ∃ p, s1.heap[f.a]? = some p ∧
    (if f.left then p.Left = some top else p.Right = some top ∧ p.isThreaded = false)) ∧
  (ctx = [] → s1.ogRoot = some top) ∧
  (plugAll ctx T1).items = (plugAll ctx T).items ∧
  (plugAll ctx T1).kvs = (plugAll ctx T).kvs ∧
  (plugAll ctx T1).keys.Pairwise (fun x y => x < y)

/-- The state after `insert(2, 0)` and `insert(1, 0)`. -/
def stateTwo : avlt :=
  { heap := [{ Key := 2, Value := 0, Left := some 1, Right := none, isThreaded := false,
               Height := 1 },
             { Key := 1, Value := 0, Left := none, Right := some 0, isThreaded := true,
               Height := 0 }],
    Root := some 0, ogRoot := some 0, Size := 2, hasBegun := false }

/-! # Proofs -/

open Tree

/-! ## Heap lemmas -/

theorem get_lt {H : Heap} {a : Nat} {n : NODE} (h : H[a]? = some n) : a < H.length := by
  rcases List.getElem?_eq_some.1 h with ⟨h1, _⟩
  exact h1

theorem wr_some {H : Heap} {a : Nat} {n : NODE} (h : H[a]? = some n) (f : NODE → NODE) :
    wr H (some a) f = some (H.set a (f n)) := by
  simp [wr, h]

theorem get_set_self {H : Heap} {a : Nat} {n m : NODE} (h : H[a]? = some n) :
    (H.set a m)[a]? = some m := by
  simp [get_lt h]

theorem get_set_other {H : Heap} {a b : Nat} (m : NODE) (h : a ≠ b) :
    (H.set a m)[b]? = H[b]? := by
  simp [h]

/-! ## Inorder lists -/

theorem addrs_items (t : Tree) : t.addrs = t.items.map (fun x => x.1) := by
  induction t <;> simp [addrs, items, *]

theorem keys_items (t : Tree) : t.keys = t.items.map (fun x => x.2.1) := by
  induction t <;> simp [keys, items, *]

theorem kvs_items (t : Tree) : t.kvs = t.items.map (fun x => x.2) := by
  induction t <;> simp [kvs, items, *]

theorem size_items (t : Tree) : t.size = t.items.length := by
  induction t with
  | nil => rfl
  | node a l k v h r ihl ihr =>
    simp only [Tree.size, items, List.length_append, List.length_cons, ihl, ihr]; omega

theorem items_plug (f : Frame) (t : Tree) :
    (f.plug t).items = (if f.left then [] else f.sib.items ++ [(f.a, f.k, f.v)]) ++ t.items ++
      (if f.left then (f.a, f.k, f.v) :: f.sib.items else []) := by
  unfold Frame.plug
  split <;> simp [items]

theorem items_plugAll (ctx : List Frame) (t : Tree) :
    (plugAll ctx t).items = befI ctx ++ t.items ++ aftI ctx := by
  induction ctx generalizing t with
  | nil => simp [plugAll, befI, aftI]
  | cons f ctx ih => simp [plugAll, befI, aftI, ih, items_plug]

/-! ## The representation predicate -/

theorem rep_frame {H H1 : Heap} {succ : Option Nat} {t : Tree} (h : Rep H succ t)
    (hf : ∀ b ∈ t.addrs, H1[b]? = H[b]?) : Rep H1 succ t := by
  induction t generalizing succ with
  | nil => trivial
  | node a l k v h0 r ihl ihr =>
    obtain ⟨h1, h2, h3⟩ := h
    refine ⟨?_, ihl h2 ?_, ihr h3 ?_⟩
    · rw [hf a (by simp [addrs]), h1]
    · intro b hb; exact hf b (by simp [addrs, hb])
    · intro b hb; exact hf b (by simp [addrs, hb])

theorem rep_assignHeight {H : Heap} {succ : Option Nat} {t : Tree} (h : Rep H succ t) :
    assignHeight H t.ptr = some t.ht := by
  cases t with
  | nil => rfl
  | node a l k v h0 r => simp [AVLT.assignHeight, ptr, ht, h.1, cell]

theorem rep_lt {H : Heap} {succ : Option Nat} {t : Tree} (h : Rep H succ t) :
    ∀ b ∈ t.addrs, b < H.length := by
  induction t generalizing succ with
  | nil => simp [addrs]
  | node a l k v h0 r ihl ihr =>
    obtain ⟨h1, h2, h3⟩ := h
    intro b hb
    simp only [addrs, List.mem_append, List.mem_cons] at hb
    rcases hb with hb | rfl | hb
    · exact ihl h2 b hb
    · exact get_lt h1
    · exact ihr h3 b hb

theorem rep_hole {H : Heap} (ctx : List Frame) (t : Tree) (h : Rep H none (plugAll ctx t)) :
    Rep H (holeSucc ctx) t := by
  induction ctx generalizing t with
  | nil => exact h
  | cons f ctx ih =>
    have h1 := ih _ h
    unfold Frame.plug at h1
    unfold holeSucc
    split at h1 <;> rename_i hl
    · simp only [hl, if_true]; exact h1.2.1
    · simp only [hl]; exact h1.2.2


theorem addrs_plug (f : Frame) (t : Tree) :
    ∀ b, b ∈ (f.plug t).addrs ↔ b ∈ t.addrs ∨ b = f.a ∨ b ∈ f.sib.addrs := by
  intro b
  unfold Frame.plug
  split
  · simp [addrs]
  · simp [addrs]; tauto

theorem addrs_plugAll_mem (ctx : List Frame) (t : Tree) :
    ∀ b ∈ t.addrs, b ∈ (plugAll ctx t).addrs := by
  intro b hb
  rw [addrs_items, items_plugAll]
  rw [addrs_items] at hb
  simp only [List.map_append, List.mem_append]
  exact Or.inl (Or.inr hb)

theorem nodup_hole (ctx : List Frame) (t : Tree) (h : (plugAll ctx t).addrs.Nodup) :
    t.addrs.Nodup := by
  rw [addrs_items, items_plugAll] at h
  rw [addrs_items]
  simp only [List.map_append] at h
  exact (List.nodup_append.1 (List.nodup_append.1 h).1).2.1

theorem nodup_plug {f : Frame} {t : Tree} (h : (f.plug t).addrs.Nodup) :
    t.addrs.Nodup ∧ f.sib.addrs.Nodup ∧ f.a ∉ t.addrs ∧ f.a ∉ f.sib.addrs ∧
      ∀ b ∈ t.addrs, b ∉ f.sib.addrs := by
  unfold Frame.plug at h
  split at h
  · simp only [addrs] at h
    rw [List.nodup_append] at h
    obtain ⟨h1, h2, h3⟩ := h
    rw [List.nodup_cons] at h2
    refine ⟨h1, h2.2, ?_, h2.1, ?_⟩
    · intro hc; exact h3 hc (List.mem_cons_self _ _)
    · intro b hb hc; exact h3 hb (List.mem_cons_of_mem _ hc)
  · simp only [addrs] at h
    rw [List.nodup_append] at h
    obtain ⟨h1, h2, h3⟩ := h
    rw [List.nodup_cons] at h2
    refine ⟨h2.2, h1, h2.1, ?_, ?_⟩
    · intro hc; exact h3 hc (List.mem_cons_self _ _)
    · intro b hb hc; exact h3 hc (List.mem_cons_of_mem _ hb)

/-- The record of the deepest node of a path when the subtree `t` hangs below. -/
theorem rep_plug_cell {H : Heap} {s : Option Nat} {f : Frame} {t : Tree}
    (h : Rep H s (f.plug t)) :
    H[f.a]? = some (if f.left then cell t f.k f.v f.h f.sib s else cell f.sib f.k f.v f.h t s) := by
  unfold Frame.plug at h
  split at h <;> rename_i hl
  · simp only [hl, if_true]; exact h.1
  · simp only [hl]; exact h.1

theorem rep_plug_sib {H : Heap} {s : Option Nat} {f : Frame} {t : Tree}
    (h : Rep H s (f.plug t)) : Rep H (if f.left then s else some f.a) f.sib := by
  unfold Frame.plug at h
  split at h <;> rename_i hl
  · simp only [hl, if_true]; exact h.2.2
  · simp only [hl]; exact h.2.1

theorem rep_plug_mk {H : Heap} {s : Option Nat} {f : Frame} {t : Tree}
    (hc : H[f.a]? = some (if f.left then cell t f.k f.v f.h f.sib s
      else cell f.sib f.k f.v f.h t s))
    (ht : Rep H (if f.left then some f.a else s) t)
    (hs : Rep H (if f.left then s else some f.a) f.sib) : Rep H s (f.plug t) := by
  unfold Frame.plug
  split <;> rename_i hl
  · simp only [hl, if_true] at hc ht hs; exact ⟨hc, ht, hs⟩
  · simp only [hl] at hc ht hs; exact ⟨hc, hs, ht⟩

theorem cellOf_plug (g f : Frame) (t t1 : Tree) (s : Option Nat) :
    g.cellOf (f.plug t) s = g.cellOf (f.plug t1) s := by
  unfold Frame.cellOf Frame.plug
  split <;> split <;> simp [cell, ptr, rlink, rflag]

theorem rep_replace {H H1 : Heap} (ctx : List Frame) (t t1 : Tree)
    (h : Rep H none (plugAll ctx t)) (h1 : Rep H1 (holeSucc ctx) t1)
    (hpar : ∀ f rest, ctx = f :: rest → H1[f.a]? = some (f.cellOf t1 (holeSucc rest)))
    (hfr : ∀ b ∈ (plugAll ctx t).addrs, b ∉ t.addrs → (∀ f rest, ctx = f :: rest → b ≠ f.a) →
      H1[b]? = H[b]?)
    (hnd : (plugAll ctx t).addrs.Nodup) : Rep H1 none (plugAll ctx t1) := by
  induction ctx generalizing t t1 with
  | nil => exact h1
  | cons f rest ih =>
    have hin : Rep H (holeSucc rest) (f.plug t) := rep_hole rest _ h
    have hnd1 := nodup_plug (nodup_hole rest _ hnd)
    refine ih (f.plug t) (f.plug t1) h ?_ ?_ ?_ hnd
    · refine rep_plug_mk (hpar f rest rfl) ?_ ?_
      · simpa [holeSucc] using h1
      · refine rep_frame (rep_plug_sib hin) ?_
        intro b hb
        refine hfr b (addrs_plugAll_mem rest _ b ((addrs_plug f t b).2 (Or.inr (Or.inr hb)))) ?_ ?_
        · intro hc; exact hnd1.2.2.2.2 b hc hb
        · intro f1 rest1 he
          cases he
          intro hc; subst hc; exact hnd1.2.2.2.1 hb
    · intro g rest1 he
      subst he
      have hg : Rep H (holeSucc rest1) (g.plug (f.plug t)) := rep_hole rest1 _ h
      have hgc := rep_plug_cell hg
      have hmem : g.a ∈ (plugAll rest1 (g.plug (f.plug t))).addrs :=
        addrs_plugAll_mem rest1 _ _ ((addrs_plug g _ _).2 (Or.inr (Or.inl rfl)))
      have hnd2 := nodup_plug (nodup_hole rest1 _ hnd)
      have hga : g.a ∉ (f.plug t).addrs := hnd2.2.2.1
      rw [hfr g.a hmem ?_ ?_, hgc]
      · exact congrArg some (cellOf_plug g f t t1 _)
      · intro hc; exact hga ((addrs_plug f t _).2 (Or.inl hc))
      · intro f1 rest2 he
        cases he
        intro hc; exact hga ((addrs_plug f t _).2 (Or.inr (Or.inl hc)))
    · intro b hb hnb hne
      refine hfr b hb ?_ ?_
      · intro hc; exact hnb ((addrs_plug f t _).2 (Or.inl hc))
      · intro f1 rest1 he
        cases he
        intro hc; exact hnb ((addrs_plug f t _).2 (Or.inr (Or.inl hc)))

/-! ## Reads and writes -/

theorem wr_eq (H : Heap) (a : Nat) (f : NODE → NODE) :
    wr H (some a) f = (H[a]?).map (fun n => hset H a (f n)) := by
  show (match H[a]? with
    | none => none
    | some n => some (H.set a (f n))) = _
  cases H[a]? <;> rfl

theorem rd_eq (H : Heap) (a : Nat) : rd H (some a) = H[a]? := rfl

theorem assignHeight_none (H : Heap) : assignHeight H none = some (-1) := rfl

theorem assignHeight_some (H : Heap) (a : Nat) :
    assignHeight H (some a) = (H[a]?).map (fun n => n.Height) := rfl

theorem get_hset (H : Heap) (a b : Nat) (m : NODE) :
    (hset H a m)[b]? = if a = b then (if a < H.length then some m else none) else H[b]? :=
  List.getElem?_set

theorem len_hset (H : Heap) (a : Nat) (m : NODE) : (hset H a m).length = H.length :=
  List.length_set _ _ _

theorem get_hpush (H : Heap) (b : Nat) (m : NODE) :
    (hpush H m)[b]? = if b = H.length then some m else H[b]? := by
  unfold hpush
  by_cases h : b = H.length
  · subst h; simp
  · simp only [h, if_false]
    by_cases h1 : b < H.length
    · exact List.getElem?_append_left h1
    · rw [List.getElem?_eq_none (by simp; omega), List.getElem?_eq_none (by omega)]

theorem len_hpush (H : Heap) (m : NODE) : (hpush H m).length = H.length + 1 := by
  simp [hpush]

theorem push_eq (H : Heap) (m : NODE) : H ++ [m] = hpush H m := rfl

/-! ## Fields of the stored records -/

@[simp] theorem cell_Key (l : Tree) (k v h : Int) (r : Tree) (s : Option Nat) :
    (cell l k v h r s).Key = k := rfl

@[simp] theorem cell_Value (l : Tree) (k v h : Int) (r : Tree) (s : Option Nat) :
    (cell l k v h r s).Value = v := rfl

@[simp] theorem cell_Left (l : Tree) (k v h : Int) (r : Tree) (s : Option Nat) :
    (cell l k v h r s).Left = l.ptr := rfl

@[simp] theorem cell_Right (l : Tree) (k v h : Int) (r : Tree) (s : Option Nat) :
    (cell l k v h r s).Right = rlink r s := rfl

@[simp] theorem cell_isThreaded (l : Tree) (k v h : Int) (r : Tree) (s : Option Nat) :
    (cell l k v h r s).isThreaded = rflag r s := rfl

@[simp] theorem cell_Height (l : Tree) (k v h : Int) (r : Tree) (s : Option Nat) :
    (cell l k v h r s).Height = h := rfl

@[simp] theorem rlink_nil (s : Option Nat) : rlink nil s = s := rfl

@[simp] theorem rlink_node (a : Nat) (l : Tree) (k v h : Int) (r : Tree) (s : Option Nat) :
    rlink (node a l k v h r) s = some a := rfl

@[simp] theorem rflag_nil (s : Option Nat) : rflag nil s = s.isSome := rfl

@[simp] theorem rflag_node (a : Nat) (l : Tree) (k v h : Int) (r : Tree) (s : Option Nat) :
    rflag (node a l k v h r) s = false := rfl

@[simp] theorem ptr_nil : ptr nil = none := rfl

@[simp] theorem ptr_node (a : Nat) (l : Tree) (k v h : Int) (r : Tree) :
    ptr (node a l k v h r) = some a := rfl

@[simp] theorem ht_nil : ht nil = -1 := rfl

@[simp] theorem ht_node (a : Nat) (l : Tree) (k v h : Int) (r : Tree) :
    ht (node a l k v h r) = h := rfl

@[simp] theorem stackOf_nil : stackOf [] = [] := rfl

@[simp] theorem stackOf_cons (f : Frame) (ctx : List Frame) :
    stackOf (f :: ctx) = some f.a :: stackOf ctx := rfl

@[simp] theorem stackTop_nil : stackTop [] = none := rfl

@[simp] theorem stackTop_cons (p : Option Nat) (st : List (Option Nat)) :
    stackTop (p :: st) = p := rfl

/-! ## The descent of `insert` -/

theorem insertLoop_sim {H : Heap} {key : Int} (t : Tree) :
    ∀ (succ : Option Nat) (ctx : List Frame) (fuel : Nat) (gl gr : Bool),
    Rep H succ t → t.size < fuel →
    (gl, gr) = (if t = nil then flagsOf ctx else (false, false)) →
    insertLoop H key fuel t.ptr (stackTop (stackOf ctx)) (stackOf ctx) gl gr =
      match pathT key t ctx with
      | none => some Descent.found
      | some ctx1 => some (Descent.fell (stackTop (stackOf ctx1)) (stackOf ctx1)
          (flagsOf ctx1).1 (flagsOf ctx1).2) := by
  induction t with
  | nil =>
    intro succ ctx fuel gl gr _ hf hfl
    cases fuel with
    | zero => simp [Tree.size] at hf
    | succ fuel =>
      simp only [if_true] at hfl
      simp [insertLoop, ptr, pathT, ← hfl]
  | node a l k v h r ihl ihr =>
    intro succ ctx fuel gl gr hrep hf hfl
    cases fuel with
    | zero => simp at hf
    | succ fuel =>
      obtain ⟨hc, hl, hr⟩ := hrep
      simp only [Tree.size] at hf
      simp only [if_false, Prod.mk.injEq, reduceCtorEq] at hfl
      obtain ⟨rfl, rfl⟩ := hfl
      simp only [insertLoop, ptr_node, hc, pathT, cell_Key, cell_Left, cell_Right,
        cell_isThreaded]
      by_cases h1 : key = k
      · simp only [h1, if_true]
      · simp only [h1, if_false]
        by_cases h2 : key < k
        · simp only [h2, if_true]
          have := ihl (some a) ({ left := true, a := a, k := k, v := v, h := h, sib := r } :: ctx)
            fuel (if l.ptr = none then true else false) false hl (by omega)
            (by cases l <;> simp [flagsOf])
          simpa only [stackOf_cons, stackTop_cons] using this
        · simp only [h2, if_false]
          cases r with
          | nil =>
            cases succ with
            | none =>
              have := ihr none ({ left := false, a := a, k := k, v := v, h := h, sib := l } :: ctx)
                fuel false true hr (by omega) (by simp [flagsOf])
              simpa using this
            | some b =>
              simp [pathT, flagsOf]
          | node b rl rk rv rh rr =>
            have := ihr succ ({ left := false, a := a, k := k, v := v, h := h, sib := l } :: ctx)
              fuel false false hr (by omega) (by simp)
            simpa using this


/-! ## Linking the new node -/

theorem linkNew_sim (s : avlt) (key value h : Int) (ctx : List Frame)
    (hrep : Rep s.heap none (plugAll ctx nil))
    (hnd : (plugAll ctx nil).addrs.Nodup) :
    ∃ s1, linkNew s key value h (stackTop (stackOf ctx)) (flagsOf ctx).1 (flagsOf ctx).2 = some s1 ∧
      Rep s1.heap none (plugAll ctx (node s.heap.length nil key value h nil)) ∧
      s1.heap.length = s.heap.length + 1 ∧ s1.Size = s.Size + 1 ∧ s1.hasBegun = s.hasBegun ∧
      (ctx = [] → s1.Root = some s.heap.length ∧ s1.ogRoot = some s.heap.length) ∧
      (ctx ≠ [] → s1.Root = s.Root ∧ s1.ogRoot = s.ogRoot) := by
  cases ctx with
  | nil =>
    refine ⟨_, by simp only [linkNew, push_eq]; simp [flagsOf]; rfl, ?_, ?_⟩
    · simp [plugAll, Tree.Rep, cell, get_hpush]
    · simp [len_hpush]
  | cons f rest =>
    have hin : Rep s.heap (holeSucc rest) (f.plug nil) := rep_hole rest _ hrep
    have hc := rep_plug_cell hin
    have hlt : f.a < s.heap.length := get_lt hc
    have hne : f.a ≠ s.heap.length := by omega
    have hlt1 : f.a < s.heap.length + 1 := by omega
    have hall := rep_lt hrep
    by_cases hl : f.left = true
    · simp only [hl, if_true] at hc
      refine ⟨_, by
        simp only [linkNew, push_eq]
        simp [wr_eq, rd_eq, get_hset, len_hset, get_hpush, len_hpush, hc, hne, hne.symm, hlt,
          hlt1, flagsOf, hl, -List.getElem?_eq_getElem]
        rfl, ?_, ?_⟩
      · refine rep_replace (f :: rest) nil _ hrep ?_ ?_ ?_ hnd
        · simp [Tree.Rep, holeSucc, hl, cell, hne, hne.symm, hlt, hlt1, get_hset, len_hset, get_hpush,
            len_hpush, -List.getElem?_eq_getElem]
        · intro f1 rest1 he
          cases he
          simp [Frame.cellOf, hl, cell, hne, hne.symm, hlt, hlt1, get_hset, len_hset, get_hpush,
            len_hpush, -List.getElem?_eq_getElem]
        · intro b hb _ hbf
          have h1 : b < s.heap.length := hall b hb
          have h2 : b ≠ s.heap.length := by omega
          have h3 : b ≠ f.a := hbf f rest rfl
          simp [h2, h2.symm, h3, h3.symm, h1, get_hset, len_hset, get_hpush,
            len_hpush, -List.getElem?_eq_getElem]
      · simp [hne, hne.symm, hlt, len_hset, len_hpush]
    · simp only [hl] at hc
      have hl1 : f.left = false := by simpa using hl
      refine ⟨_, by
        simp only [linkNew, push_eq]
        simp [wr_eq, rd_eq, get_hset, len_hset, get_hpush, len_hpush, hc, hne, hne.symm, hlt,
          hlt1, flagsOf, hl, -List.getElem?_eq_getElem]
        rfl, ?_, ?_⟩
      · refine rep_replace (f :: rest) nil _ hrep ?_ ?_ ?_ hnd
        · simp [Tree.Rep, holeSucc, hl, cell, hne, hne.symm, hlt, hlt1, get_hset, len_hset, get_hpush,
            len_hpush, -List.getElem?_eq_getElem]
          cases holeSucc rest <;> rfl
        · intro f1 rest1 he
          cases he
          simp [Frame.cellOf, hl, cell, hne, hne.symm, hlt, hlt1, get_hset, len_hset, get_hpush,
            len_hpush, -List.getElem?_eq_getElem]
        · intro b hb _ hbf
          have h1 : b < s.heap.length := hall b hb
          have h2 : b ≠ s.heap.length := by omega
          have h3 : b ≠ f.a := hbf f rest rfl
          simp [h2, h2.symm, h3, h3.symm, h1, get_hset, len_hset, get_hpush,
            len_hpush, -List.getElem?_eq_getElem]
      · simp [hne, hne.symm, hlt, len_hset, len_hpush]

/-! ## Rotations on the heap -/

theorem nodup_node {a : Nat} {l : Tree} {k v h : Int} {r : Tree} :
    (node a l k v h r).addrs.Nodup ↔
      l.addrs.Nodup ∧ r.addrs.Nodup ∧ a ∉ l.addrs ∧ a ∉ r.addrs ∧ ∀ b ∈ l.addrs, b ∉ r.addrs := by
  simp only [addrs, List.nodup_append, List.nodup_cons, List.disjoint_cons_right]
  constructor
  · rintro ⟨h1, ⟨h2, h3⟩, h4, h5⟩
    exact ⟨h1, h3, h4, h2, fun b hb hc => h5 hb hc⟩
  · rintro ⟨h1, h2, h3, h4, h5⟩
    exact ⟨h1, ⟨h4, h2⟩, h3, fun b hb hc => h5 b hb hc⟩

theorem mem_addrs_node {a : Nat} {l : Tree} {k v h : Int} {r : Tree} {b : Nat} :
    b ∈ (node a l k v h r).addrs ↔ b ∈ l.addrs ∨ b = a ∨ b ∈ r.addrs := by
  simp [addrs]


theorem ptr_ne_of_not_mem {t : Tree} {a : Nat} (h : a ∉ t.addrs) : t.ptr ≠ some a := by
  cases t with
  | nil => simp
  | node b l k v h0 r =>
    simp only [addrs, List.mem_append, List.mem_cons, not_or] at h
    simp only [ptr_node, ne_eq, Option.some.injEq]
    exact fun hc => h.2.1 hc.symm

theorem assignHeight_hset (H : Heap) (a : Nat) (m : NODE) (p : Option Nat) (h : p ≠ some a) :
    assignHeight (hset H a m) p = assignHeight H p := by
  cases p with
  | none => rfl
  | some b =>
    have : a ≠ b := fun hc => h (by rw [hc])
    simp [assignHeight_some, get_hset, this]

theorem assignHeight_hset_self (H : Heap) (a : Nat) (m : NODE) (h : a < H.length) :
    assignHeight (hset H a m) (some a) = some m.Height := by
  simp [assignHeight_some, get_hset, h]

theorem hset_hset_same (H : Heap) (a : Nat) (m m1 : NODE) :
    hset (hset H a m) a m1 = hset H a m1 := by
  simp [hset]

theorem root_ne {x : Nat} {xl : Tree} {xk xv xh : Int} {xr : Tree} {a : Nat}
    (h : a ∉ (node x xl xk xv xh xr).addrs) : x ≠ a ∧ a ≠ x := by
  rw [mem_addrs_node] at h
  push_neg at h
  exact ⟨fun hc => h.2.1 hc.symm, h.2.1⟩

theorem rr_link (H : Heap) (c l : Nat) (ll lr cr : Tree) (kc vc hc kl vl hl : Int)
    (succ : Option Nat)
    (hcc : H[c]? = some (cell (node l ll kl vl hl lr) kc vc hc cr succ))
    (hlc : H[l]? = some (cell ll kl vl hl lr (some c)))
    (hcl : c ≠ l) (h2 : assignHeight H lr.ptr = some lr.ht)
    (q1 : lr.ptr ≠ some c) (q2 : lr.ptr ≠ some l) :
    right_rotate_link H (some c) =
      some (hset (hset H l { Key := kl, Value := vl, Left := ll.ptr, Right := some c,
                             isThreaded := rflag lr (some c), Height := hl })
              c { Key := kc, Value := vc, Left := lr.ptr, Right := rlink cr succ,
                  isThreaded := rflag cr succ, Height := hc }, lr.ht) := by
  have hltc : c < H.length := get_lt hcc
  have hltl : l < H.length := get_lt hlc
  have hlc' : l ≠ c := Ne.symm hcl
  cases lr with
  | nil =>
    simp [right_rotate_link, rd_eq, wr_eq, get_hset, len_hset, hcc, hlc,
      hcl, hlc', hltc, hltl, -List.getElem?_eq_getElem]
  | node x xl xk xv xh xr =>
    simp only [ptr_node, ht_node] at h2 q1 q2
    simp [right_rotate_link, rd_eq, wr_eq, get_hset, len_hset, hcc, hlc,
      hcl, hlc', hltc, hltl, assignHeight_hset, q1, q2, h2, -List.getElem?_eq_getElem]

set_option maxHeartbeats 1000000 in
theorem rr_core (H : Heap) (c l : Nat) (ll lr cr : Tree) (kc vc hc kl vl hl : Int)
    (succ : Option Nat)
    (hrep : Rep H succ (node c (node l ll kl vl hl lr) kc vc hc cr))
    (hnd : (node c (node l ll kl vl hl lr) kc vc hc cr).addrs.Nodup) :
    ∃ H2 hclRL H5, right_rotate_link H (some c) = some (H2, hclRL) ∧
      right_rotate_heights H2 (some c) (some l) hclRL = some H5 ∧ H5.length = H.length ∧
      ∀ b, H5[b]? =
        if b = l then some (cell ll kl vl
          (max ll.ht (rotRtop lr (max lr.ht cr.ht + 1)) + 1)
          (node c lr kc vc (max lr.ht cr.ht + 1) cr) succ)
        else if b = c then some (cell lr kc vc (max lr.ht cr.ht + 1) cr succ)
        else H[b]? := by
  obtain ⟨hcc, ⟨hlc, hll, hlr⟩, hcr⟩ := hrep
  rw [nodup_node] at hnd
  obtain ⟨hn1, hn2, hn3, hn4, hn5⟩ := hnd
  rw [nodup_node] at hn1
  obtain ⟨hm1, hm2, hm3, hm4, hm5⟩ := hn1
  rw [mem_addrs_node] at hn3
  push_neg at hn3
  obtain ⟨hc_ll, hcl, hc_lr⟩ := hn3
  have hl_cr : l ∉ cr.addrs := hn5 l (mem_addrs_node.2 (Or.inr (Or.inl rfl)))
  have hltc : c < H.length := get_lt hcc
  have hltl : l < H.length := get_lt hlc
  have hlc' : l ≠ c := Ne.symm hcl
  have p1 := ptr_ne_of_not_mem hc_ll
  have p2 := ptr_ne_of_not_mem hm3
  have q1 := ptr_ne_of_not_mem hc_lr
  have q2 := ptr_ne_of_not_mem hm4
  have r1 := ptr_ne_of_not_mem hn4
  have r2 := ptr_ne_of_not_mem hl_cr
  have h1 := rep_assignHeight hll
  have h2 := rep_assignHeight hlr
  have h3 := rep_assignHeight hcr
  cases lr with
  | nil =>
    cases cr with
    | nil =>
      cases succ with
      | none =>
        refine ⟨_, _, _, rr_link H c l ll _ _ kc vc hc kl vl hl _ hcc hlc hcl h2 q1 q2, by
          simp [right_rotate_heights, rd_eq, wr_eq, get_hset, len_hset, hcc, hlc,
            hcl, hlc', hltc, hltl, assignHeight_hset, assignHeight_hset_self, assignHeight_none,
            p1, p2, h1, h2, h3,
            q1, q2, r1, r2, -List.getElem?_eq_getElem]
          rfl, by simp [len_hset], ?_⟩
        intro b
        by_cases hb1 : b = l
        · subst hb1
          simp [get_hset, len_hset, hcl, hlc', hltc, hltl, cell, rotRtop,
            -List.getElem?_eq_getElem]
        · by_cases hb2 : b = c
          · subst hb2
            simp [get_hset, len_hset, hcl, hlc', hltc, hltl, cell, rotRtop,
            -List.getElem?_eq_getElem]
          · simp [get_hset, len_hset, hb1, hb2, Ne.symm hb1, Ne.symm hb2,
              -List.getElem?_eq_getElem]
      | some sa =>
        refine ⟨_, _, _, rr_link H c l ll _ _ kc vc hc kl vl hl _ hcc hlc hcl h2 q1 q2, by
          simp [right_rotate_heights, rd_eq, wr_eq, get_hset, len_hset, hcc, hlc,
            hcl, hlc', hltc, hltl, assignHeight_hset, assignHeight_hset_self, assignHeight_none,
            p1, p2, h1, h2, h3,
            q1, q2, r1, r2, -List.getElem?_eq_getElem]
          rfl, by simp [len_hset], ?_⟩
        intro b
        by_cases hb1 : b = l
        · subst hb1
          simp [get_hset, len_hset, hcl, hlc', hltc, hltl, cell, rotRtop,
            -List.getElem?_eq_getElem]
        · by_cases hb2 : b = c
          · subst hb2
            simp [get_hset, len_hset, hcl, hlc', hltc, hltl, cell, rotRtop,
            -List.getElem?_eq_getElem]
          · simp [get_hset, len_hset, hb1, hb2, Ne.symm hb1, Ne.symm hb2,
              -List.getElem?_eq_getElem]
    | node z zl zk zv zh zr =>
      simp only [ptr_node, ht_node] at h3 r1 r2
      refine ⟨_, _, _, rr_link H c l ll _ _ kc vc hc kl vl hl _ hcc hlc hcl h2 q1 q2, by
        simp [right_rotate_heights, rd_eq, wr_eq, get_hset, len_hset, hcc, hlc,
          hcl, hlc', hltc, hltl, assignHeight_hset, assignHeight_hset_self, assignHeight_none,
            p1, p2, h1, h2, h3,
          q1, q2, r1, r2, -List.getElem?_eq_getElem]
        rfl, by simp [len_hset], ?_⟩
      intro b
      by_cases hb1 : b = l
      · subst hb1
        simp [get_hset, len_hset, hcl, hlc', hltc, hltl, cell, rotRtop,
            -List.getElem?_eq_getElem]
      · by_cases hb2 : b = c
        · subst hb2
          simp [get_hset, len_hset, hcl, hlc', hltc, hltl, cell, rotRtop,
            -List.getElem?_eq_getElem]
        · simp [get_hset, len_hset, hb1, hb2, Ne.symm hb1, Ne.symm hb2,
            -List.getElem?_eq_getElem]
  | node x xl xk xv xh xr =>
    simp only [ptr_node, ht_node] at h2 q1 q2
    cases cr with
    | nil =>
      cases succ with
      | none =>
        refine ⟨_, _, _, rr_link H c l ll _ _ kc vc hc kl vl hl _ hcc hlc hcl h2 q1 q2, by
          simp [right_rotate_heights, rd_eq, wr_eq, get_hset, len_hset, hcc, hlc,
            hcl, hlc', hltc, hltl, assignHeight_hset, assignHeight_hset_self, assignHeight_none,
            p1, p2, h1, h2, h3,
            q1, q2, r1, r2, -List.getElem?_eq_getElem]
          rfl, by simp [len_hset], ?_⟩
        intro b
        by_cases hb1 : b = l
        · subst hb1
          simp [get_hset, len_hset, hcl, hlc', hltc, hltl, cell, rotRtop,
            -List.getElem?_eq_getElem]
        · by_cases hb2 : b = c
          · subst hb2
            simp [get_hset, len_hset, hcl, hlc', hltc, hltl, cell, rotRtop,
            -List.getElem?_eq_getElem]
          · simp [get_hset, len_hset, hb1, hb2, Ne.symm hb1, Ne.symm hb2,
              -List.getElem?_eq_getElem]
      | some sa =>
        refine ⟨_, _, _, rr_link H c l ll _ _ kc vc hc kl vl hl _ hcc hlc hcl h2 q1 q2, by
          simp [right_rotate_heights, rd_eq, wr_eq, get_hset, len_hset, hcc, hlc,
            hcl, hlc', hltc, hltl, assignHeight_hset, assignHeight_hset_self, assignHeight_none,
            p1, p2, h1, h2, h3,
            q1, q2, r1, r2, -List.getElem?_eq_getElem]
          rfl, by simp [len_hset], ?_⟩
        intro b
        by_cases hb1 : b = l
        · subst hb1
          simp [get_hset, len_hset, hcl, hlc', hltc, hltl, cell, rotRtop,
            -List.getElem?_eq_getElem]
        · by_cases hb2 : b = c
          · subst hb2
            simp [get_hset, len_hset, hcl, hlc', hltc, hltl, cell, rotRtop,
            -List.getElem?_eq_getElem]
          · simp [get_hset, len_hset, hb1, hb2, Ne.symm hb1, Ne.symm hb2,
              -List.getElem?_eq_getElem]
    | node z zl zk zv zh zr =>
      simp only [ptr_node, ht_node] at h3 r1 r2
      refine ⟨_, _, _, rr_link H c l ll _ _ kc vc hc kl vl hl _ hcc hlc hcl h2 q1 q2, by
        simp [right_rotate_heights, rd_eq, wr_eq, get_hset, len_hset, hcc, hlc,
          hcl, hlc', hltc, hltl, assignHeight_hset, assignHeight_hset_self, assignHeight_none,
            p1, p2, h1, h2, h3,
          q1, q2, r1, r2, -List.getElem?_eq_getElem]
        rfl, by simp [len_hset], ?_⟩
      intro b
      by_cases hb1 : b = l
      · subst hb1
        simp [get_hset, len_hset, hcl, hlc', hltc, hltl, cell, rotRtop,
            -List.getElem?_eq_getElem]
      · by_cases hb2 : b = c
        · subst hb2
          simp [get_hset, len_hset, hcl, hlc', hltc, hltl, cell, rotRtop,
            -List.getElem?_eq_getElem]
        · simp [get_hset, len_hset, hb1, hb2, Ne.symm hb1, Ne.symm hb2,
            -List.getElem?_eq_getElem]

theorem lr_link (H : Heap) (c r : Nat) (cl rl rr : Tree) (kc vc hc kr vr hr : Int)
    (succ : Option Nat)
    (hcc : H[c]? = some (cell cl kc vc hc (node r rl kr vr hr rr) succ))
    (hrc : H[r]? = some (cell rl kr vr hr rr succ))
    (hcr : c ≠ r) (h2 : assignHeight H rl.ptr = some rl.ht)
    (q1 : rl.ptr ≠ some c) (q2 : rl.ptr ≠ some r) :
    left_rotate_link H (some c) =
      some (hset (hset H r { Key := kr, Value := vr, Left := some c, Right := rlink rr succ,
                             isThreaded := rflag rr succ, Height := hr })
              c { Key := kc, Value := vc, Left := cl.ptr, Right := rlink rl (some r),
                  isThreaded := rflag rl (some r), Height := hc }, rl.ht) := by
  have hltc : c < H.length := get_lt hcc
  have hltr : r < H.length := get_lt hrc
  have hrc' : r ≠ c := Ne.symm hcr
  cases rl with
  | nil =>
    simp [left_rotate_link, rd_eq, wr_eq, get_hset, len_hset, hcc, hrc,
      hcr, hrc', hltc, hltr, hset_hset_same, -List.getElem?_eq_getElem]
  | node x xl xk xv xh xr =>
    simp only [ptr_node, ht_node] at h2 q1 q2
    simp [left_rotate_link, rd_eq, wr_eq, get_hset, len_hset, hcc, hrc,
      hcr, hrc', hltc, hltr, assignHeight_hset, q1, q2, h2, -List.getElem?_eq_getElem]

set_option maxHeartbeats 1000000 in
theorem lr_core (H : Heap) (c r : Nat) (cl rl rr : Tree) (kc vc hc kr vr hr : Int)
    (succ : Option Nat) (sh : Int)
    (hrep : Rep H succ (node c cl kc vc hc (node r rl kr vr hr rr)))
    (hnd : (node c cl kc vc hc (node r rl kr vr hr rr)).addrs.Nodup)
    (hsh : assignHeight H succ = some sh) (hs1 : succ ≠ some c) (hs2 : succ ≠ some r) :
    ∃ H3 hcrLR H5, left_rotate_link H (some c) = some (H3, hcrLR) ∧
      left_rotate_heights H3 (some c) (some r) hcrLR = some H5 ∧ H5.length = H.length ∧
      ∀ b, H5[b]? =
        if b = r then some (cell (node c cl kc vc (max rl.ht cl.ht + 1) rl) kr vr
          (max (max rl.ht cl.ht + 1) (rotLtop sh rl rr) + 1) rr succ)
        else if b = c then some (cell cl kc vc (max rl.ht cl.ht + 1) rl (some r))
        else H[b]? := by
  obtain ⟨hcc, hcl, hrc, hrl, hrr⟩ := hrep
  rw [nodup_node] at hnd
  obtain ⟨hn1, hn2, hn3, hn4, hn5⟩ := hnd
  rw [nodup_node] at hn2
  obtain ⟨hm1, hm2, hm3, hm4, hm5⟩ := hn2
  rw [mem_addrs_node] at hn4
  push_neg at hn4
  obtain ⟨hc_rl, hcr, hc_rr⟩ := hn4
  have hr_cl : r ∉ cl.addrs := fun hc0 => hn5 r hc0 (mem_addrs_node.2 (Or.inr (Or.inl rfl)))
  have hltc : c < H.length := get_lt hcc
  have hltr : r < H.length := get_lt hrc
  have hrc' : r ≠ c := Ne.symm hcr
  have p1 := ptr_ne_of_not_mem hn3
  have p2 := ptr_ne_of_not_mem hr_cl
  have q1 := ptr_ne_of_not_mem hc_rl
  have q2 := ptr_ne_of_not_mem hm3
  have r1 := ptr_ne_of_not_mem hc_rr
  have r2 := ptr_ne_of_not_mem hm4
  have h1 := rep_assignHeight hcl
  have h2 := rep_assignHeight hrl
  have h3 := rep_assignHeight hrr
  cases rl with
  | nil =>
    cases rr with
    | nil =>
      cases succ with
      | none =>
        obtain rfl : sh = -1 := by simpa [assignHeight_none] using hsh.symm
        refine ⟨_, _, _, lr_link H c r cl _ _ kc vc hc kr vr hr _ hcc hrc hcr h2 q1 q2, by
          simp [left_rotate_heights, rd_eq, wr_eq, get_hset, len_hset, hcc, hrc,
            hcr, hrc', hltc, hltr, assignHeight_hset, assignHeight_hset_self, assignHeight_none,
            p1, p2, h1, h2, h3, q1, q2, r1, r2, hsh, hs1, hs2, -List.getElem?_eq_getElem]
          rfl, by simp [len_hset], ?_⟩
        intro b
        by_cases hb1 : b = r
        · subst hb1
          simp [get_hset, len_hset, hcr, hrc', hltc, hltr, cell, rotLtop,
            -List.getElem?_eq_getElem]
        · by_cases hb2 : b = c
          · subst hb2
            simp [get_hset, len_hset, hcr, hrc', hltc, hltr, cell, rotLtop,
            -List.getElem?_eq_getElem]
          · simp [get_hset, len_hset, hb1, hb2, Ne.symm hb1, Ne.symm hb2,
              -List.getElem?_eq_getElem]
      | some sa =>
        refine ⟨_, _, _, lr_link H c r cl _ _ kc vc hc kr vr hr _ hcc hrc hcr h2 q1 q2, by
          simp [left_rotate_heights, rd_eq, wr_eq, get_hset, len_hset, hcc, hrc,
            hcr, hrc', hltc, hltr, assignHeight_hset, assignHeight_hset_self, assignHeight_none,
            p1, p2, h1, h2, h3, q1, q2, r1, r2, hsh, hs1, hs2, -List.getElem?_eq_getElem]
          rfl, by simp [len_hset], ?_⟩
        intro b
        by_cases hb1 : b = r
        · subst hb1
          simp [get_hset, len_hset, hcr, hrc', hltc, hltr, cell, rotLtop,
            -List.getElem?_eq_getElem]
        · by_cases hb2 : b = c
          · subst hb2
            simp [get_hset, len_hset, hcr, hrc', hltc, hltr, cell, rotLtop,
            -List.getElem?_eq_getElem]
          · simp [get_hset, len_hset, hb1, hb2, Ne.symm hb1, Ne.symm hb2,
              -List.getElem?_eq_getElem]
    | node z zl zk zv zh zr =>
      simp only [ptr_node, ht_node] at h3 r1 r2
      refine ⟨_, _, _, lr_link H c r cl _ _ kc vc hc kr vr hr _ hcc hrc hcr h2 q1 q2, by
        simp [left_rotate_heights, rd_eq, wr_eq, get_hset, len_hset, hcc, hrc,
          hcr, hrc', hltc, hltr, assignHeight_hset, assignHeight_hset_self, assignHeight_none,
          p1, p2, h1, h2, h3, q1, q2, r1, r2, hsh, hs1, hs2, -List.getElem?_eq_getElem]
        rfl, by simp [len_hset], ?_⟩
      intro b
      by_cases hb1 : b = r
      · subst hb1
        simp [get_hset, len_hset, hcr, hrc', hltc, hltr, cell, rotLtop,
            -List.getElem?_eq_getElem]
      · by_cases hb2 : b = c
        · subst hb2
          simp [get_hset, len_hset, hcr, hrc', hltc, hltr, cell, rotLtop,
            -List.getElem?_eq_getElem]
        · simp [get_hset, len_hset, hb1, hb2, Ne.symm hb1, Ne.symm hb2,
            -List.getElem?_eq_getElem]
  | node x xl xk xv xh xr =>
    simp only [ptr_node, ht_node] at h2 q1 q2
    cases rr with
    | nil =>
      cases succ with
      | none =>
        obtain rfl : sh = -1 := by simpa [assignHeight_none] using hsh.symm
        refine ⟨_, _, _, lr_link H c r cl _ _ kc vc hc kr vr hr _ hcc hrc hcr h2 q1 q2, by
          simp [left_rotate_heights, rd_eq, wr_eq, get_hset, len_hset, hcc, hrc,
            hcr, hrc', hltc, hltr, assignHeight_hset, assignHeight_hset_self, assignHeight_none,
            p1, p2, h1, h2, h3, q1, q2, r1, r2, hsh, hs1, hs2, -List.getElem?_eq_getElem]
          rfl, by simp [len_hset], ?_⟩
        intro b
        by_cases hb1 : b = r
        · subst hb1
          simp [get_hset, len_hset, hcr, hrc', hltc, hltr, cell, rotLtop,
            -List.getElem?_eq_getElem]
        · by_cases hb2 : b = c
          · subst hb2
            simp [get_hset, len_hset, hcr, hrc', hltc, hltr, cell, rotLtop,
            -List.getElem?_eq_getElem]
          · simp [get_hset, len_hset, hb1, hb2, Ne.symm hb1, Ne.symm hb2,
              -List.getElem?_eq_getElem]
      | some sa =>
        refine ⟨_, _, _, lr_link H c r cl _ _ kc vc hc kr vr hr _ hcc hrc hcr h2 q1 q2, by
          simp [left_rotate_heights, rd_eq, wr_eq, get_hset, len_hset, hcc, hrc,
            hcr, hrc', hltc, hltr, assignHeight_hset, assignHeight_hset_self, assignHeight_none,
            p1, p2, h1, h2, h3, q1, q2, r1, r2, hsh, hs1, hs2, -List.getElem?_eq_getElem]
          rfl, by simp [len_hset], ?_⟩
        intro b
        by_cases hb1 : b = r
        · subst hb1
          simp [get_hset, len_hset, hcr, hrc', hltc, hltr, cell, rotLtop,
            -List.getElem?_eq_getElem]
        · by_cases hb2 : b = c
          · subst hb2
            simp [get_hset, len_hset, hcr, hrc', hltc, hltr, cell, rotLtop,
            -List.getElem?_eq_getElem]
          · simp [get_hset, len_hset, hb1, hb2, Ne.symm hb1, Ne.symm hb2,
              -List.getElem?_eq_getElem]
    | node z zl zk zv zh zr =>
      simp only [ptr_node, ht_node] at h3 r1 r2
      refine ⟨_, _, _, lr_link H c r cl _ _ kc vc hc kr vr hr _ hcc hrc hcr h2 q1 q2, by
        simp [left_rotate_heights, rd_eq, wr_eq, get_hset, len_hset, hcc, hrc,
          hcr, hrc', hltc, hltr, assignHeight_hset, assignHeight_hset_self, assignHeight_none,
          p1, p2, h1, h2, h3, q1, q2, r1, r2, hsh, hs1, hs2, -List.getElem?_eq_getElem]
        rfl, by simp [len_hset], ?_⟩
      intro b
      by_cases hb1 : b = r
      · subst hb1
        simp [get_hset, len_hset, hcr, hrc', hltc, hltr, cell, rotLtop,
            -List.getElem?_eq_getElem]
      · by_cases hb2 : b = c
        · subst hb2
          simp [get_hset, len_hset, hcr, hrc', hltc, hltr, cell, rotLtop,
            -List.getElem?_eq_getElem]
        · simp [get_hset, len_hset, hb1, hb2, Ne.symm hb1, Ne.symm hb2,
            -List.getElem?_eq_getElem]

theorem updateParent_sim (s : avlt) (H : Heap) (c top : Nat) (par : Option Nat)
    (hpar : ∀ p, par = some p → ∃ pc, H[p]? = some pc) :
    ∃ s1, updateParent s H (some c) par (some top) = some s1 ∧ s1.heap.length = H.length ∧
      s1.Size = s.Size ∧ s1.hasBegun = s.hasBegun ∧
      (∀ b, some b ≠ par → s1.heap[b]? = H[b]?) ∧
      (∀ p pc, par = some p → H[p]? = some pc → s1.heap[p]? = some (reparent pc c top)) ∧
      (par = none → s1.Root = some top ∧ s1.ogRoot = some top) ∧
      (par ≠ none → s1.Root = s.Root ∧ s1.ogRoot = s.ogRoot) := by
  cases par with
  | none =>
    refine ⟨_, rfl, rfl, rfl, rfl, fun _ _ => rfl, ?_, fun _ => ⟨rfl, rfl⟩, fun h => absurd rfl h⟩
    intro p pc h; cases h
  | some p =>
    obtain ⟨pc, hpc⟩ := hpar p rfl
    have hlt : p < H.length := get_lt hpc
    by_cases h1 : pc.Left = some c <;> by_cases h2 : pc.Right = some c
    all_goals
      have hex : ∃ H1, updateParent s H (some c) (some p) (some top) = some { s with heap := H1 } ∧
          H1.length = H.length ∧ ∀ b, H1[b]? = if b = p then some (reparent pc c top) else H[b]? := by
        refine ⟨_, by
          simp [updateParent, rd_eq, wr_eq, get_hset, len_hset, hpc, h1, h2, hlt,
            -List.getElem?_eq_getElem]
          rfl, by simp [len_hset], ?_⟩
        intro b
        by_cases hb : b = p
        · subst hb
          simp [get_hset, len_hset, hlt, reparent, h1, h2, hpc, -List.getElem?_eq_getElem]
        · simp [get_hset, len_hset, hlt, hb, Ne.symm hb, -List.getElem?_eq_getElem]
      obtain ⟨H1, he, hlen, hlook⟩ := hex
      refine ⟨_, he, hlen, rfl, rfl, ?_, ?_, ?_, fun _ => ⟨rfl, rfl⟩⟩
      · intro b hb
        have : b ≠ p := fun hc => hb (by rw [hc])
        simp [hlook, this]
      · intro p1 pc1 he1 hpc1
        cases he1
        rw [hpc] at hpc1
        cases hpc1
        simp [hlook]
      · intro hc; cases hc

theorem mem_ne_of_not_mem {t : Tree} {a b : Nat} (ha : a ∉ t.addrs) (hb : b ∈ t.addrs) : b ≠ a :=
  fun h => ha (h ▸ hb)

theorem right_rotate_sim (s : avlt) (c l : Nat) (ll lr cr : Tree) (kc vc hc kl vl hl : Int)
    (succ par : Option Nat)
    (hrep : Rep s.heap succ (node c (node l ll kl vl hl lr) kc vc hc cr))
    (hnd : (node c (node l ll kl vl hl lr) kc vc hc cr).addrs.Nodup)
    (hpar : ∀ p, par = some p → p ∉ (node c (node l ll kl vl hl lr) kc vc hc cr).addrs ∧
      ∃ pc, s.heap[p]? = some pc) :
    ∃ s1 t1, rotR (node c (node l ll kl vl hl lr) kc vc hc cr) = some t1 ∧
      right_rotate s (some c) par = some s1 ∧
      StepOk s s1 succ par c (node c (node l ll kl vl hl lr) kc vc hc cr) t1 := by
  obtain ⟨H2, hclRL, H5, e1, e2, hlen, hlook⟩ := rr_core s.heap c l ll lr cr kc vc hc kl vl hl succ hrep hnd
  obtain ⟨hcc, ⟨hlc, hll, hlr⟩, hcr⟩ := hrep
  have hnd0 := hnd
  rw [nodup_node] at hnd
  obtain ⟨hn1, hn2, hn3, hn4, hn5⟩ := hnd
  rw [nodup_node] at hn1
  obtain ⟨hm1, hm2, hm3, hm4, hm5⟩ := hn1
  rw [mem_addrs_node] at hn3
  push_neg at hn3
  obtain ⟨hc_ll, hcl, hc_lr⟩ := hn3
  have hl_cr : l ∉ cr.addrs := hn5 l (mem_addrs_node.2 (Or.inr (Or.inl rfl)))
  have hpar5 : ∀ p, par = some p → ∃ pc, H5[p]? = some pc := by
    intro p hp
    obtain ⟨hp1, pc, hpc⟩ := hpar p hp
    simp only [mem_addrs_node] at hp1
    push_neg at hp1
    refine ⟨pc, ?_⟩
    rw [hlook, if_neg hp1.1.2.1, if_neg hp1.2.1, hpc]
  obtain ⟨s1, e3, hlen1, hsz, hbg, hfr, hpa, hrn, hrs⟩ := updateParent_sim s H5 c l par hpar5
  have hrun : right_rotate s (some c) par = some s1 := by
    simp [right_rotate, rd_eq, hcc, e1, e2, e3]
  have hpc : some c ≠ par := by
    intro h
    exact (hpar c h.symm).1 (mem_addrs_node.2 (Or.inr (Or.inl rfl)))
  have hpl : some l ≠ par := by
    intro h
    exact (hpar l h.symm).1 (mem_addrs_node.2 (Or.inl (mem_addrs_node.2 (Or.inr (Or.inl rfl)))))
  have hout : ∀ b, b ≠ c → b ≠ l → some b ≠ par → s1.heap[b]? = s.heap[b]? := by
    intro b h1 h2 h3
    rw [hfr b h3, hlook, if_neg h2, if_neg h1]
  have hin : ∀ x : Tree, (∀ b ∈ x.addrs, b ∈ (node c (node l ll kl vl hl lr) kc vc hc cr).addrs) →
      c ∉ x.addrs → l ∉ x.addrs → ∀ b ∈ x.addrs, s1.heap[b]? = s.heap[b]? := by
    intro x hx h1 h2 b hb
    refine hout b (mem_ne_of_not_mem h1 hb) (mem_ne_of_not_mem h2 hb) ?_
    intro h
    exact (hpar b h.symm).1 (hx b hb)
  refine ⟨s1, _, rfl, hrun, ?_⟩
  refine ⟨⟨?_, ?_, ?_, ?_, ?_⟩, by rw [hlen1, hlen], hsz, hbg, ?_, ?_, ?_⟩
  · rw [hfr l hpl, hlook, if_pos rfl]
  · exact rep_frame hll (hin ll (by intro b hb; simp [addrs, hb]) hc_ll hm3)
  · rw [hfr c hpc, hlook, if_neg hcl, if_pos rfl]
  · exact rep_frame hlr (hin lr (by intro b hb; simp [addrs, hb]) hc_lr hm4)
  · exact rep_frame hcr (hin cr (by intro b hb; simp [addrs, hb]) hn4 hl_cr)
  · intro b hb hbp
    simp only [mem_addrs_node] at hb
    push_neg at hb
    exact hout b hb.2.1 hb.1.2.1 hbp
  · intro p pc hp hpc0
    refine ⟨l, rfl, hpa p pc hp ?_⟩
    have hp1 := (hpar p hp).1
    simp only [mem_addrs_node] at hp1
    push_neg at hp1
    rw [hlook, if_neg hp1.1.2.1, if_neg hp1.2.1, hpc0]
  · cases par with
    | none => exact Or.inr ⟨rfl, hrn rfl⟩
    | some p =>
      refine Or.inl ⟨(hrs (by simp)).1, (hrs (by simp)).2, ?_⟩
      intro h; cases h

theorem left_rotate_sim (s : avlt) (c r : Nat) (cl rl rr : Tree) (kc vc hc kr vr hr : Int)
    (succ par : Option Nat) (sh : Int)
    (hrep : Rep s.heap succ (node c cl kc vc hc (node r rl kr vr hr rr)))
    (hnd : (node c cl kc vc hc (node r rl kr vr hr rr)).addrs.Nodup)
    (hsh : assignHeight s.heap succ = some sh)
    (hs : ∀ a, succ = some a → a ∉ (node c cl kc vc hc (node r rl kr vr hr rr)).addrs)
    (hpar : ∀ p, par = some p → p ∉ (node c cl kc vc hc (node r rl kr vr hr rr)).addrs ∧
      ∃ pc, s.heap[p]? = some pc) :
    ∃ s1 t1, rotL sh (node c cl kc vc hc (node r rl kr vr hr rr)) = some t1 ∧
      left_rotate s (some c) par = some s1 ∧
      StepOk s s1 succ par c (node c cl kc vc hc (node r rl kr vr hr rr)) t1 := by
  have hs1 : succ ≠ some c := by
    intro h
    exact hs c h (mem_addrs_node.2 (Or.inr (Or.inl rfl)))
  have hs2 : succ ≠ some r := by
    intro h
    exact hs r h (mem_addrs_node.2 (Or.inr (Or.inr (mem_addrs_node.2 (Or.inr (Or.inl rfl))))))
  obtain ⟨H3, hcrLR, H5, e1, e2, hlen, hlook⟩ :=
    lr_core s.heap c r cl rl rr kc vc hc kr vr hr succ sh hrep hnd hsh hs1 hs2
  obtain ⟨hcc, hcl, hrc, hrl, hrr⟩ := hrep
  have hnd0 := hnd
  rw [nodup_node] at hnd
  obtain ⟨hn1, hn2, hn3, hn4, hn5⟩ := hnd
  rw [nodup_node] at hn2
  obtain ⟨hm1, hm2, hm3, hm4, hm5⟩ := hn2
  rw [mem_addrs_node] at hn4
  push_neg at hn4
  obtain ⟨hc_rl, hcr, hc_rr⟩ := hn4
  have hr_cl : r ∉ cl.addrs := fun hc0 => hn5 r hc0 (mem_addrs_node.2 (Or.inr (Or.inl rfl)))
  have hpar5 : ∀ p, par = some p → ∃ pc, H5[p]? = some pc := by
    intro p hp
    obtain ⟨hp1, pc, hpc⟩ := hpar p hp
    simp only [mem_addrs_node] at hp1
    push_neg at hp1
    refine ⟨pc, ?_⟩
    rw [hlook, if_neg hp1.2.2.2.1, if_neg hp1.2.1, hpc]
  obtain ⟨s1, e3, hlen1, hsz, hbg, hfr, hpa, hrn, hrs⟩ := updateParent_sim s H5 c r par hpar5
  have hrun : left_rotate s (some c) par = some s1 := by
    simp [left_rotate, rd_eq, hcc, e1, e2, e3]
  have hpc : some c ≠ par := by
    intro h
    exact (hpar c h.symm).1 (mem_addrs_node.2 (Or.inr (Or.inl rfl)))
  have hpr : some r ≠ par := by
    intro h
    exact (hpar r h.symm).1 (mem_addrs_node.2 (Or.inr (Or.inr (mem_addrs_node.2 (Or.inr (Or.inl rfl))))))
  have hout : ∀ b, b ≠ c → b ≠ r → some b ≠ par → s1.heap[b]? = s.heap[b]? := by
    intro b h1 h2 h3
    rw [hfr b h3, hlook, if_neg h2, if_neg h1]
  have hin : ∀ x : Tree, (∀ b ∈ x.addrs, b ∈ (node c cl kc vc hc (node r rl kr vr hr rr)).addrs) →
      c ∉ x.addrs → r ∉ x.addrs → ∀ b ∈ x.addrs, s1.heap[b]? = s.heap[b]? := by
    intro x hx h1 h2 b hb
    refine hout b (mem_ne_of_not_mem h1 hb) (mem_ne_of_not_mem h2 hb) ?_
    intro h
    exact (hpar b h.symm).1 (hx b hb)
  refine ⟨s1, _, rfl, hrun, ?_⟩
  refine ⟨⟨?_, ⟨?_, ?_, ?_⟩, ?_⟩, by rw [hlen1, hlen], hsz, hbg, ?_, ?_, ?_⟩
  · rw [hfr r hpr, hlook, if_pos rfl]
  · rw [hfr c hpc, hlook, if_neg hcr, if_pos rfl]
  · exact rep_frame hcl (hin cl (by intro b hb; simp [addrs, hb]) hn3 hr_cl)
  · exact rep_frame hrl (hin rl (by intro b hb; simp [addrs, hb]) hc_rl hm3)
  · exact rep_frame hrr (hin rr (by intro b hb; simp [addrs, hb]) hc_rr hm4)
  · intro b hb hbp
    simp only [mem_addrs_node] at hb
    push_neg at hb
    exact hout b hb.2.1 hb.2.2.2.1 hbp
  · intro p pc hp hpc0
    refine ⟨r, rfl, hpa p pc hp ?_⟩
    have hp1 := (hpar p hp).1
    simp only [mem_addrs_node] at hp1
    push_neg at hp1
    rw [hlook, if_neg hp1.2.2.2.1, if_neg hp1.2.1, hpc0]
  · cases par with
    | none => exact Or.inr ⟨rfl, hrn rfl⟩
    | some p =>
      refine Or.inl ⟨(hrs (by simp)).1, (hrs (by simp)).2, ?_⟩
      intro h; cases h

/-! ## The rotation choice -/

theorem rotR_items {t t1 : Tree} (h : rotR t = some t1) : t1.items = t.items := by
  unfold rotR at h
  split at h
  · cases h; simp [items]
  · cases h

theorem rotL_items {sh : Int} {t t1 : Tree} (h : rotL sh t = some t1) : t1.items = t.items := by
  unfold rotL at h
  split at h
  · cases h; simp [items]
  · cases h

theorem addrs_of_items {t t1 : Tree} (h : t1.items = t.items) : t1.addrs = t.addrs := by
  rw [addrs_items, addrs_items, h]

theorem reparent_self (pc : NODE) (c : Nat) : reparent pc c c = pc := by
  cases pc
  simp only [reparent]
  congr 1
  · split <;> simp_all
  · split <;> simp_all

theorem StepOk.refl (s : avlt) (succ par : Option Nat) (c : Nat) (l : Tree) (k v h : Int) (r : Tree)
    (hrep : Rep s.heap succ (node c l k v h r)) :
    StepOk s s succ par c (node c l k v h r) (node c l k v h r) := by
  refine ⟨hrep, rfl, rfl, rfl, fun _ _ _ => rfl, ?_, Or.inl ⟨rfl, rfl, fun _ => rfl⟩⟩
  intro p pc _ hpc
  exact ⟨c, rfl, by rw [reparent_self, hpc]⟩

theorem ptr_some_cases {t : Tree} {a : Nat} (h : t.ptr = some a) :
    ∃ l k v h0 r, t = node a l k v h0 r := by
  cases t with
  | nil => cases h
  | node b l k v h0 r => cases h; exact ⟨l, k, v, h0, r, rfl⟩

/-- A rotation at the left child, seen from the node above. -/
theorem inner_left {s s1 : avlt} {succ par : Option Nat} {a la : Nat} {l l1 : Tree} {k v h : Int}
    {r : Tree}
    (hrep : Rep s.heap succ (node a l k v h r)) (hnd : (node a l k v h r).addrs.Nodup)
    (hla : l.ptr = some la)
    (hs : ∀ b, succ = some b → b ∉ (node a l k v h r).addrs)
    (hpar : ∀ p, par = some p → p ∉ (node a l k v h r).addrs ∧ ∃ pc, s.heap[p]? = some pc)
    (st : StepOk s s1 (some a) (some a) la l l1) (hit : l1.items = l.items) :
    Rep s1.heap succ (node a l1 k v h r) ∧ (node a l1 k v h r).addrs.Nodup ∧
      (∀ b, succ = some b → b ∉ (node a l1 k v h r).addrs) ∧
      (∀ p, par = some p → p ∉ (node a l1 k v h r).addrs ∧ ∃ pc, s1.heap[p]? = some pc) ∧
      (∀ b, b ∉ (node a l k v h r).addrs → s1.heap[b]? = s.heap[b]?) ∧
      (∀ b, b ∈ (node a l1 k v h r).addrs ↔ b ∈ (node a l k v h r).addrs) := by
  have had : l1.addrs = l.addrs := addrs_of_items hit
  have hmem : ∀ b, b ∈ (node a l1 k v h r).addrs ↔ b ∈ (node a l k v h r).addrs := by
    intro b; simp only [mem_addrs_node, had]
  obtain ⟨hc, hl, hr⟩ := hrep
  have hnd1 := hnd
  rw [nodup_node] at hnd1
  obtain ⟨n1, n2, n3, n4, n5⟩ := hnd1
  have hout : ∀ b, b ∉ (node a l k v h r).addrs → s1.heap[b]? = s.heap[b]? := by
    intro b hb
    simp only [mem_addrs_node] at hb
    push_neg at hb
    exact st.frame b hb.1 (by intro hc0; cases hc0; exact hb.2.1 rfl)
  obtain ⟨top, htop, hcell⟩ := st.parent a _ rfl hc
  obtain ⟨tl, tk, tv, th, tr, rfl⟩ := ptr_some_cases htop
  have hla_r : la ∉ r.addrs := by
    obtain ⟨ll, lk, lv, lh, lr, rfl⟩ := ptr_some_cases hla
    exact n5 la (mem_addrs_node.2 (Or.inr (Or.inl rfl)))
  have hla_a : la ≠ a := by
    obtain ⟨ll, lk, lv, lh, lr, rfl⟩ := ptr_some_cases hla
    intro h0; subst h0
    exact n3 (mem_addrs_node.2 (Or.inr (Or.inl rfl)))
  have hrl : rlink r succ ≠ some la := by
    cases r with
    | nil =>
      intro h0
      obtain ⟨ll, lk, lv, lh, lr, rfl⟩ := ptr_some_cases hla
      exact hs la h0 (mem_addrs_node.2 (Or.inl (mem_addrs_node.2 (Or.inr (Or.inl rfl)))))
    | node rb rl rk rv rh rr =>
      exact (root_ne hla_r).1 ∘ Option.some.inj
  refine ⟨⟨?_, st.rep, ?_⟩, ?_, ?_, ?_, hout, hmem⟩
  · rw [hcell]
    simp [reparent, cell, hla, hrl]
  · refine rep_frame hr ?_
    intro b hb
    refine st.frame b (fun hc0 => n5 b hc0 hb) ?_
    intro hc0; cases hc0; exact n4 hb
  · rw [nodup_node, had]
    exact ⟨n1, n2, n3, n4, n5⟩
  · intro b hb; rw [hmem]; exact hs b hb
  · intro p hp
    obtain ⟨h1, pc, hpc⟩ := hpar p hp
    refine ⟨by rw [hmem]; exact h1, pc, ?_⟩
    rw [hout p h1, hpc]

/-- A rotation at the right child, seen from the node above. -/
theorem inner_right {s s1 : avlt} {succ par : Option Nat} {a ra : Nat} {l r r1 : Tree}
    {k v h : Int}
    (hrep : Rep s.heap succ (node a l k v h r)) (hnd : (node a l k v h r).addrs.Nodup)
    (hra : r.ptr = some ra)
    (hs : ∀ b, succ = some b → b ∉ (node a l k v h r).addrs)
    (hpar : ∀ p, par = some p → p ∉ (node a l k v h r).addrs ∧ ∃ pc, s.heap[p]? = some pc)
    (st : StepOk s s1 succ (some a) ra r r1) (hit : r1.items = r.items) :
    Rep s1.heap succ (node a l k v h r1) ∧ (node a l k v h r1).addrs.Nodup ∧
      (∀ b, succ = some b → b ∉ (node a l k v h r1).addrs) ∧
      (∀ p, par = some p → p ∉ (node a l k v h r1).addrs ∧ ∃ pc, s1.heap[p]? = some pc) ∧
      (∀ b, b ∉ (node a l k v h r).addrs → s1.heap[b]? = s.heap[b]?) ∧
      (∀ b, b ∈ (node a l k v h r1).addrs ↔ b ∈ (node a l k v h r).addrs) := by
  have had : r1.addrs = r.addrs := addrs_of_items hit
  have hmem : ∀ b, b ∈ (node a l k v h r1).addrs ↔ b ∈ (node a l k v h r).addrs := by
    intro b; simp only [mem_addrs_node, had]
  obtain ⟨hc, hl, hr⟩ := hrep
  have hnd1 := hnd
  rw [nodup_node] at hnd1
  obtain ⟨n1, n2, n3, n4, n5⟩ := hnd1
  have hout : ∀ b, b ∉ (node a l k v h r).addrs → s1.heap[b]? = s.heap[b]? := by
    intro b hb
    simp only [mem_addrs_node] at hb
    push_neg at hb
    exact st.frame b hb.2.2 (by intro hc0; cases hc0; exact hb.2.1 rfl)
  obtain ⟨top, htop, hcell⟩ := st.parent a _ rfl hc
  obtain ⟨tl, tk, tv, th, tr, rfl⟩ := ptr_some_cases htop
  obtain ⟨rl, rk, rv, rh, rr, rfl⟩ := ptr_some_cases hra
  have hra_l : ra ∉ l.addrs := fun h0 => n5 ra h0 (mem_addrs_node.2 (Or.inr (Or.inl rfl)))
  have hlp : l.ptr ≠ some ra := ptr_ne_of_not_mem hra_l
  refine ⟨⟨?_, ?_, st.rep⟩, ?_, ?_, ?_, hout, hmem⟩
  · rw [hcell]
    simp [reparent, cell, hlp]
  · refine rep_frame hl ?_
    intro b hb
    refine st.frame b (fun hc0 => n5 b hb hc0) ?_
    intro hc0; cases hc0; exact n3 hb
  · rw [nodup_node, had]
    exact ⟨n1, n2, n3, n4, n5⟩
  · intro b hb; rw [hmem]; exact hs b hb
  · intro p hp
    obtain ⟨h1, pc, hpc⟩ := hpar p hp
    refine ⟨by rw [hmem]; exact h1, pc, ?_⟩
    rw [hout p h1, hpc]

/-- A rotation at a child followed by a rotation at the node. -/
theorem StepOk.comp {s s1 s2 : avlt} {succ par : Option Nat} {a : Nat} {t tm t2 : Tree}
    (hmem : ∀ b, b ∈ tm.addrs ↔ b ∈ t.addrs)
    (hout : ∀ b, b ∉ t.addrs → s1.heap[b]? = s.heap[b]?)
    (hpar : ∀ p, par = some p → p ∉ t.addrs)
    (h1 : s1.heap.length = s.heap.length ∧ s1.Size = s.Size ∧ s1.hasBegun = s.hasBegun ∧
      s1.Root = s.Root ∧ s1.ogRoot = s.ogRoot)
    (st : StepOk s1 s2 succ par a tm t2) : StepOk s s2 succ par a t t2 := by
  obtain ⟨e1, e2, e3, e4, e5⟩ := h1
  refine ⟨st.rep, by rw [st.len, e1], by rw [st.size, e2], by rw [st.begun, e3], ?_, ?_, ?_⟩
  · intro b hb hbp
    rw [st.frame b (by rw [hmem]; exact hb) hbp, hout b hb]
  · intro p pc hp hpc
    exact st.parent p pc hp (by rw [hout p (hpar p hp), hpc])
  · rw [← e4, ← e5]; exact st.roots

theorem assignHeight_congr {H H1 : Heap} {p : Option Nat}
    (h : ∀ b, p = some b → H1[b]? = H[b]?) : assignHeight H1 p = assignHeight H p := by
  cases p with
  | none => rfl
  | some b => simp only [assignHeight_some, h b rfl]

theorem rebalance_sim (s : avlt) (key : Int) (succ par : Option Nat) (sh : Int)
    (a : Nat) (l : Tree) (k v h : Int) (r : Tree)
    (hrep : Rep s.heap succ (node a l k v h r)) (hnd : (node a l k v h r).addrs.Nodup)
    (hsh : assignHeight s.heap succ = some sh)
    (hs : ∀ b, succ = some b → b ∉ (node a l k v h r).addrs)
    (hpar : ∀ p, par = some p → p ∉ (node a l k v h r).addrs ∧ ∃ pc, s.heap[p]? = some pc)
    (t1 : Tree) (hT : rebalT key sh (node a l k v h r) = some t1) :
    ∃ s1, rebalance s key (some a) par (l.ht - r.ht) = some s1 ∧
      StepOk s s1 succ par a (node a l k v h r) t1 ∧ t1.items = (node a l k v h r).items := by
  have hrep0 := hrep
  obtain ⟨hc, hl, hr⟩ := hrep
  have hnd1 := hnd
  rw [nodup_node] at hnd1
  obtain ⟨n1, n2, n3, n4, n5⟩ := hnd1
  unfold rebalT at hT
  simp only [] at hT
  generalize l.ht - r.ht = bal at hT ⊢
  by_cases hb : bal ≥ 2
  · have hb' : ¬ bal ≤ -2 := by omega
    simp only [hb, hb', if_true, if_false, Option.some_bind, Bool.false_eq_true] at hT
    cases l with
    | nil => simp [rootKey] at hT
    | node la ll lk lv lh lr =>
      have hlc := hl.1
      simp only [rootKey, Option.map_some', Option.some_bind] at hT
      by_cases h1 : key < lk
      · simp only [h1, decide_True, if_true] at hT
        obtain ⟨s1, t1', e1, e2, st⟩ := right_rotate_sim s a la ll lr r k v h lk lv lh succ par hrep0 hnd hpar
        rw [hT] at e1
        cases e1
        refine ⟨s1, ?_, st, rotR_items hT⟩
        simp [rebalance, rd_eq, hc, hlc, hb, h1, e2]
      · simp only [h1, decide_False, if_false, Bool.false_eq_true] at hT
        by_cases h3 : key > lk
        · simp only [h3, decide_True, if_true] at hT
          cases hq : rotL h (node la ll lk lv lh lr) with
          | none => rw [hq] at hT; cases hT
          | some l1 =>
            rw [hq] at hT
            simp only [Option.some_bind] at hT
            cases lr with
            | nil => simp [rotL] at hq
            | node x xl xk xv xh xr =>
              have hah : assignHeight s.heap (some a) = some h := by
                simp [assignHeight_some, hc]
              obtain ⟨s1, l1', e1, e2, st1⟩ := left_rotate_sim s la x ll xl xr lk lv lh xk xv xh
                (some a) (some a) h hl n1 hah
                (by intro b hb0; cases hb0; exact n3)
                (by intro p hp; cases hp; exact ⟨n3, _, hc⟩)
              rw [hq] at e1
              cases e1
              have hit1 := rotL_items hq
              obtain ⟨g1, g2, g3, g4, g5, g6⟩ := inner_left hrep0 hnd rfl hs hpar st1 hit1
              simp only [rotL, Option.some.injEq] at hq
              subst hq
              obtain ⟨s2, t2, f1, f2, st2⟩ := right_rotate_sim s1 a x _ _ r k v h _ _ _ succ par g1 g2 g4
              rw [hT] at f1
              cases f1
              refine ⟨s2, ?_, ?_, ?_⟩
              · simp [rebalance, rd_eq, hc, hlc, hb, hb', h1, h3, e2, f2]
              · refine StepOk.comp g6 g5 (fun p hp => (hpar p hp).1) ⟨st1.len, st1.size, st1.begun, ?_⟩ st2
                rcases st1.roots with h0 | h0
                · exact ⟨h0.1, h0.2.1⟩
                · cases h0.1
              · rw [rotR_items hT]
                simp [items]
        · simp only [h3, decide_False, if_false, Bool.false_eq_true, Option.some.injEq] at hT
          subst hT
          refine ⟨s, ?_, StepOk.refl s succ par a _ k v h r hrep0, rfl⟩
          simp [rebalance, rd_eq, hc, hlc, hb, hb', h1, h3]
  · by_cases hb' : bal ≤ -2
    · simp only [hb, hb', if_true, if_false, Option.some_bind, Bool.false_eq_true] at hT
      cases r with
      | nil => simp [rootKey] at hT
      | node ra rl rk rv rh rr =>
        have hrc := hr.1
        simp only [rootKey, Option.map_some', Option.some_bind] at hT
        by_cases h2 : key > rk
        · simp only [h2, decide_True, if_true] at hT
          obtain ⟨s1, t1', e1, e2, st⟩ := left_rotate_sim s a ra l rl rr k v h rk rv rh succ par sh hrep0 hnd hsh hs hpar
          rw [hT] at e1
          cases e1
          refine ⟨s1, ?_, st, rotL_items hT⟩
          simp [rebalance, rd_eq, hc, hrc, hb, hb', h2, e2]
        · simp only [h2, decide_False, if_false, Bool.false_eq_true] at hT
          by_cases h4 : key < rk
          · simp only [h4, decide_True, if_true] at hT
            cases hq : rotR (node ra rl rk rv rh rr) with
            | none => rw [hq] at hT; cases hT
            | some r1 =>
              rw [hq] at hT
              simp only [Option.some_bind] at hT
              cases rl with
              | nil => simp [rotR] at hq
              | node x xl xk xv xh xr =>
                obtain ⟨s1, r1', e1, e2, st1⟩ := right_rotate_sim s ra x xl xr rr rk rv rh xk xv xh
                  succ (some a) hr n2
                  (by intro p hp; cases hp; exact ⟨n4, _, hc⟩)
                rw [hq] at e1
                cases e1
                have hit1 := rotR_items hq
                obtain ⟨g1, g2, g3, g4, g5, g6⟩ := inner_right hrep0 hnd rfl hs hpar st1 hit1
                simp only [rotR, Option.some.injEq] at hq
                subst hq
                have hsh1 : assignHeight s1.heap succ = some sh := by
                  rw [assignHeight_congr (fun b hb0 => g5 b (hs b hb0)), hsh]
                obtain ⟨s2, t2, f1, f2, st2⟩ := left_rotate_sim s1 a x l _ _ k v h _ _ _ succ par sh
                  g1 g2 hsh1 g3 g4
                rw [hT] at f1
                cases f1
                refine ⟨s2, ?_, ?_, ?_⟩
                · simp [rebalance, rd_eq, hc, hrc, hb, hb', h2, h4, e2, f2]
                · refine StepOk.comp g6 g5 (fun p hp => (hpar p hp).1) ⟨st1.len, st1.size, st1.begun, ?_⟩ st2
                  rcases st1.roots with h0 | h0
                  · exact ⟨h0.1, h0.2.1⟩
                  · cases h0.1
                · rw [rotL_items hT]
                  simp [items]
          · simp only [h4, decide_False, if_false, Bool.false_eq_true, Option.some.injEq] at hT
            subst hT
            refine ⟨s, ?_, StepOk.refl s succ par a l k v h _ hrep0, rfl⟩
            simp [rebalance, rd_eq, hc, hrc, hb, hb', h2, h4]
    · simp only [hb, hb', if_false, Option.some_bind, Bool.false_eq_true, Option.some.injEq] at hT
      subst hT
      refine ⟨s, ?_, StepOk.refl s succ par a l k v h r hrep0, rfl⟩
      simp [rebalance, rd_eq, hc, hb, hb']

/-! ## The loop of `checkBalance` -/

theorem holeSucc_aft {ctx : List Frame} {a : Nat} (h : holeSucc ctx = some a) :
    a ∈ (aftI ctx).map (fun x => x.1) := by
  induction ctx with
  | nil => cases h
  | cons f rest ih =>
    unfold holeSucc at h
    unfold aftI
    split at h <;> rename_i hl
    · cases h; simp [hl]
    · simp [hl, ih h]

theorem holeSucc_not_mem {ctx : List Frame} {t : Tree} {a : Nat}
    (hnd : (plugAll ctx t).addrs.Nodup) (h : holeSucc ctx = some a) : a ∉ t.addrs := by
  rw [addrs_items, items_plugAll] at hnd
  simp only [List.map_append, List.append_assoc] at hnd
  have h1 := (List.nodup_append.1 hnd).2.1
  have h2 := (List.nodup_append.1 h1).2.2
  intro hc
  rw [addrs_items] at hc
  exact h2 hc (holeSucc_aft h)

theorem succH_spec {H : Heap} (ctx : List Frame) (t : Tree) (h : Rep H none (plugAll ctx t)) :
    assignHeight H (holeSucc ctx) = some (succH ctx) := by
  induction ctx generalizing t with
  | nil => rfl
  | cons f rest ih =>
    unfold holeSucc succH
    by_cases hl : f.left = true
    · have h1 := rep_plug_cell (rep_hole rest _ h)
      simp only [hl, if_true] at h1 ⊢
      simp [assignHeight_some, h1]
    · simp only [hl, if_false, Bool.false_eq_true]
      exact ih _ h

theorem ptr_plugAll_cons (f : Frame) (rest : List Frame) (t t1 : Tree) :
    (plugAll (f :: rest) t).ptr = (plugAll (f :: rest) t1).ptr := by
  induction rest generalizing f t t1 with
  | nil => unfold plugAll plugAll Frame.plug; split <;> rfl
  | cons g rest ih =>
    have := ih g (f.plug t) (f.plug t1)
    simpa [plugAll] using this

theorem plug_eq_node (f : Frame) (t : Tree) :
    f.plug t = node f.a (if f.left then t else f.sib) f.k f.v f.h (if f.left then f.sib else t) := by
  unfold Frame.plug
  split <;> simp_all

theorem cb_step (key : Int) (s : avlt) (a : Nat) (l : Tree) (k v h : Int) (r : Tree)
    (succ : Option Nat) (st : List (Option Nat))
    (hrep : Rep s.heap succ (node a l k v h r)) :
    checkBalance key (some a :: st) s =
      if h = 1 + max l.ht r.ht then some s
      else (rebalance { s with heap := hset s.heap a (cell l k v (1 + max l.ht r.ht) r succ) }
        key (some a) (stackTop st) (l.ht - r.ht)).bind (checkBalance key st) := by
  obtain ⟨hc, hl, hr⟩ := hrep
  have h1 := rep_assignHeight hl
  have h2 := rep_assignHeight hr
  have hL : (if l.ptr = none then some (-1 : Int)
      else (rd s.heap l.ptr).map (fun x => x.Height)) = some l.ht := by
    cases l with
    | nil => rfl
    | node la ll lk lv lh lr => simpa [assignHeight_some, rd_eq] using h1
  have hR : (if rlink r succ = none ∨ rflag r succ = true then some (-1 : Int)
      else (rd s.heap (rlink r succ)).map (fun x => x.Height)) = some r.ht := by
    cases r with
    | nil => cases succ <;> simp
    | node ra rl rk rv rh rr => simpa [assignHeight_some, rd_eq] using h2
  simp only [checkBalance, rd_eq, hc, cell_Left, cell_Right, cell_isThreaded, cell_Height, hL, hR,
    wr_eq, reduceCtorEq, if_false, Option.map_some', bind, Option.bind]
  split <;> rfl

theorem nodup_replace {ctx : List Frame} {t t1 : Tree} (hit : t1.items = t.items)
    (hnd : (plugAll ctx t).addrs.Nodup) : (plugAll ctx t1).addrs.Nodup := by
  rw [addrs_items, items_plugAll] at hnd ⊢
  rw [hit]; exact hnd

theorem ptr_of_items {t t1 : Tree} (hit : t1.items = t.items) (h : ∃ c, t.ptr = some c) :
    ∃ c, t1.ptr = some c := by
  obtain ⟨c, hc⟩ := h
  obtain ⟨l, k, v, h0, r, rfl⟩ := ptr_some_cases hc
  cases t1 with
  | nil => simp [items] at hit
  | node a1 l1 k1 v1 h1 r1 => exact ⟨a1, rfl⟩

theorem reparent_cellOf (g : Frame) (a top : Nat) (l : Tree) (k v h : Int) (r : Tree)
    (t2 : Tree) (s0 : Option Nat) (ht2 : t2.ptr = some top)
    (h1 : g.sib.ptr ≠ some a) (h2 : rlink g.sib s0 ≠ some a) :
    reparent (g.cellOf (node a l k v h r) s0) a top = g.cellOf t2 s0 := by
  obtain ⟨tl, tk, tv, th, tr, rfl⟩ := ptr_some_cases ht2
  unfold Frame.cellOf
  split
  · simp [reparent, cell, h2]
  · simp [reparent, cell, h1]

theorem items_height (a : Nat) (l : Tree) (k v h h1 : Int) (r : Tree) :
    (node a l k v h1 r).items = (node a l k v h r).items := rfl

theorem cb_node (key : Int) (rest : List Frame) (ih : CbSim key rest)
    (a : Nat) (l : Tree) (k v h : Int) (r : Tree) (s : avlt) (t1 : Tree)
    (hrep : Rep s.heap none (plugAll rest (node a l k v h r)))
    (hnd : (plugAll rest (node a l k v h r)).addrs.Nodup)
    (hog : s.ogRoot = (plugAll rest (node a l k v h r)).ptr)
    (hfix : (if h = 1 + max l.ht r.ht then some (plugAll rest (node a l k v h r))
      else (rebalT key (succH rest) (node a l k v (1 + max l.ht r.ht) r)).bind (fixT key rest)) =
        some t1) :
    ∃ s1, checkBalance key (some a :: stackOf rest) s = some s1 ∧ Rep s1.heap none t1 ∧
      s1.ogRoot = t1.ptr ∧ (s1.Root = s.Root ∨ s1.Root = s1.ogRoot) ∧
      (s.Root = s.ogRoot → s1.Root = s1.ogRoot) ∧
      s1.heap.length = s.heap.length ∧ s1.Size = s.Size ∧ s1.hasBegun = s.hasBegun ∧
      t1.items = (plugAll rest (node a l k v h r)).items := by
  have hin : Rep s.heap (holeSucc rest) (node a l k v h r) := rep_hole rest _ hrep
  have hndn : (node a l k v h r).addrs.Nodup := nodup_hole rest _ hnd
  rw [cb_step key s a l k v h r (holeSucc rest) (stackOf rest) hin]
  by_cases hh : h = 1 + max l.ht r.ht
  · simp only [hh, if_true, Option.some.injEq] at hfix ⊢
    subst hfix
    rw [← hh]
    exact ⟨s, rfl, hrep, hog, Or.inl rfl, fun h => h, rfl, rfl, rfl, rfl⟩
  · simp only [hh, if_false] at hfix ⊢
    cases hq : rebalT key (succH rest) (node a l k v (1 + max l.ht r.ht) r) with
    | none => rw [hq] at hfix; cases hfix
    | some t2 =>
      rw [hq] at hfix
      simp only [Option.some_bind] at hfix
      obtain ⟨hc, hl, hr⟩ := hin
      have hlt : a < s.heap.length := get_lt hc
      have hndn1 := hndn
      rw [nodup_node] at hndn1
      obtain ⟨n1, n2, n3, n4, n5⟩ := hndn1
      -- the heap after the height write
      have hrep1 : Rep (hset s.heap a (cell l k v (1 + max l.ht r.ht) r (holeSucc rest)))
          (holeSucc rest) (node a l k v (1 + max l.ht r.ht) r) := by
        refine ⟨by simp [get_hset, hlt, -List.getElem?_eq_getElem], rep_frame hl ?_, rep_frame hr ?_⟩
        · intro b hb
          have : a ≠ b := fun h0 => n3 (h0 ▸ hb)
          simp [get_hset, this, -List.getElem?_eq_getElem]
        · intro b hb
          have : a ≠ b := fun h0 => n4 (h0 ▸ hb)
          simp [get_hset, this, -List.getElem?_eq_getElem]
      have hw : ∀ b, b ≠ a → (hset s.heap a (cell l k v (1 + max l.ht r.ht) r (holeSucc rest)))[b]? =
          s.heap[b]? := by
        intro b hb
        simp [get_hset, Ne.symm hb, -List.getElem?_eq_getElem]
      have hsucc : ∀ b, holeSucc rest = some b → b ∉ (node a l k v h r).addrs :=
        fun b hb => holeSucc_not_mem hnd hb
      have hsh : assignHeight (hset s.heap a (cell l k v (1 + max l.ht r.ht) r (holeSucc rest)))
          (holeSucc rest) = some (succH rest) := by
        rw [assignHeight_congr (H := s.heap), succH_spec rest _ hrep]
        intro b hb
        exact hw b (fun h0 => hsucc b hb (h0 ▸ mem_addrs_node.2 (Or.inr (Or.inl rfl))))
      have hparc : ∀ g rest1, rest = g :: rest1 → g.a ∉ (node a l k v h r).addrs ∧
          s.heap[g.a]? = some (g.cellOf (node a l k v h r) (holeSucc rest1)) ∧
          g.sib.ptr ≠ some a ∧ rlink g.sib (holeSucc rest1) ≠ some a := by
        intro g rest1 he
        subst he
        have hg : Rep s.heap (holeSucc rest1) (g.plug (node a l k v h r)) := rep_hole rest1 _ hrep
        have hng := nodup_plug (nodup_hole rest1 _ hnd)
        have ha : a ∈ (node a l k v h r).addrs := mem_addrs_node.2 (Or.inr (Or.inl rfl))
        have hsa : a ∉ g.sib.addrs := hng.2.2.2.2 a ha
        refine ⟨hng.2.2.1, rep_plug_cell hg, ptr_ne_of_not_mem hsa, ?_⟩
        cases hsib : g.sib with
        | nil =>
          intro h0
          simp only [rlink_nil] at h0
          exact holeSucc_not_mem (t := g.plug (node a l k v h r)) hnd h0
            ((addrs_plug g _ a).2 (Or.inl ha))
        | node sa sl sk sv sh0 sr =>
          rw [hsib] at hsa
          simp only [rlink_node, ne_eq, Option.some.injEq]
          exact (root_ne hsa).1
      have hpar : ∀ p, stackTop (stackOf rest) = some p →
          p ∉ (node a l k v (1 + max l.ht r.ht) r).addrs ∧
          ∃ pc, (hset s.heap a (cell l k v (1 + max l.ht r.ht) r (holeSucc rest)))[p]? = some pc := by
        intro p hp
        cases rest with
        | nil => cases hp
        | cons g rest1 =>
          simp only [stackOf_cons, stackTop_cons, Option.some.injEq] at hp
          subst hp
          obtain ⟨g1, g2, _, _⟩ := hparc g rest1 rfl
          refine ⟨g1, g.cellOf (node a l k v h r) (holeSucc rest1), ?_⟩
          rw [hw g.a (fun h0 => g1 (h0 ▸ mem_addrs_node.2 (Or.inr (Or.inl rfl)))), g2]
      obtain ⟨s2, er, st, hit⟩ := rebalance_sim
        { s with heap := hset s.heap a (cell l k v (1 + max l.ht r.ht) r (holeSucc rest)) }
        key (holeSucc rest) (stackTop (stackOf rest)) (succH rest) a l k v (1 + max l.ht r.ht) r
        hrep1 hndn hsh hsucc hpar t2 hq
      rw [items_height] at hit
      have hrep2 : Rep s2.heap none (plugAll rest t2) := by
        refine rep_replace rest (node a l k v h r) t2 hrep st.rep ?_ ?_ hnd
        · intro g rest1 he
          obtain ⟨g1, g2, g3, g4⟩ := hparc g rest1 he
          subst he
          obtain ⟨top, htop, hcell⟩ := st.parent g.a _ rfl
            (by rw [hw g.a (fun h0 => g1 (h0 ▸ mem_addrs_node.2 (Or.inr (Or.inl rfl)))), g2])
          rw [hcell, reparent_cellOf g a top l k v h r t2 _ htop g3 g4]
        · intro b _ hb2 hb3
          have hba : b ≠ a := fun h0 => hb2 (h0 ▸ mem_addrs_node.2 (Or.inr (Or.inl rfl)))
          rw [st.frame b hb2 ?_]
          · exact hw b hba
          · cases rest with
            | nil => simp
            | cons g rest1 =>
              simp only [stackOf_cons, stackTop_cons, ne_eq, Option.some.injEq]
              exact hb3 g rest1 rfl
      have hnd2 : (plugAll rest t2).addrs.Nodup := nodup_replace hit hnd
      have hne2 : ∃ c, t2.ptr = some c := ptr_of_items hit ⟨a, rfl⟩
      have hog2 : s2.ogRoot = (plugAll rest t2).ptr := by
        cases rest with
        | nil =>
          rcases st.roots with h0 | h0
          · rw [h0.2.1]
            simp only [plugAll] at hog ⊢
            rw [hog, h0.2.2 rfl]; rfl
          · exact h0.2.2
        | cons g rest1 =>
          rcases st.roots with h0 | h0
          · rw [h0.2.1]
            simp only []
            rw [hog]
            exact ptr_plugAll_cons g rest1 _ _
          · cases h0.1
      obtain ⟨s1, c1, c2, c3, c4, c5, c6, c7, c8, c9⟩ := ih t2 s2 t1 hrep2 hnd2 hne2 hog2 hfix
      refine ⟨s1, by rw [er]; exact c1, c2, c3, ?_, ?_, by rw [c6, st.len]; simp [len_hset],
        by rw [c7, st.size], by rw [c8, st.begun], ?_⟩
      · rcases st.roots with h0 | h0
        · rcases c4 with h4 | h4
          · left; rw [h4, h0.1]
          · right; exact h4
        · right
          exact c5 (by rw [h0.2.1, h0.2.2])
      · intro hroot
        refine c5 ?_
        rcases st.roots with h0 | h0
        · rw [h0.1, h0.2.1]; exact hroot
        · rw [h0.2.1, h0.2.2]
      · rw [c9, items_plugAll, items_plugAll, hit]

theorem checkBalance_sim (key : Int) (ctx : List Frame) : CbSim key ctx := by
  induction ctx with
  | nil =>
    intro t s t1 hrep _ _ hog hfix
    simp only [fixT, Option.some.injEq] at hfix
    subst hfix
    exact ⟨s, rfl, hrep, hog, Or.inl rfl, fun h => h, rfl, rfl, rfl, rfl⟩
  | cons f rest ih =>
    intro t s t1 hrep hnd hne hog hfix
    obtain ⟨fl, fa, fk, fv, fh, fsib⟩ := f
    cases fl with
    | true =>
      exact cb_node key rest ih fa t fk fv fh fsib s t1 hrep hnd hog
        (by simpa [fixT, Frame.plug] using hfix)
    | false =>
      exact cb_node key rest ih fa fsib fk fv fh t s t1 hrep hnd hog
        (by simpa [fixT, Frame.plug] using hfix)

/-! ## The method `insert` -/

theorem pathT_plug {key : Int} (t : Tree) :
    ∀ (ctx0 ctx : List Frame), pathT key t ctx0 = some ctx → plugAll ctx nil = plugAll ctx0 t := by
  induction t with
  | nil =>
    intro ctx0 ctx h
    simp only [pathT, Option.some.injEq] at h
    rw [h]
  | node a l k v h0 r ihl ihr =>
    intro ctx0 ctx h
    unfold pathT at h
    by_cases h1 : key = k
    · simp [h1] at h
    · simp only [h1, if_false] at h
      by_cases h2 : key < k
      · simp only [h2, if_true] at h
        rw [ihl _ _ h]; rfl
      · simp only [h2, if_false] at h
        rw [ihr _ _ h]; rfl

theorem insert_sim (s : avlt) (t : Tree) (key value : Int) (t1 : Tree) (h : Holds s t)
    (hT : insT key value s.heap.length t = some t1) :
    ∃ s1, insert s key value = some s1 ∧ Rep s1.heap none t1 ∧ s1.ogRoot = t1.ptr ∧
      s1.hasBegun = s.hasBegun ∧ (s1.Root = s.Root ∨ s1.Root = s1.ogRoot) ∧
      (s.Root = s.ogRoot → s1.Root = s1.ogRoot) ∧
      ((pathT key t [] = none ∧ s1 = s ∧ t1 = t) ∨
       (∃ ctx, pathT key t [] = some ctx ∧
          t1.items = (plugAll ctx (node s.heap.length nil key value 0 nil)).items ∧
          (plugAll ctx (node s.heap.length nil key value 0 nil)).addrs.Nodup ∧
          s1.heap.length = s.heap.length + 1 ∧ s1.Size = s.Size + 1)) := by
  obtain ⟨hrep, hnd, hog, hlen, hsz⟩ := h
  have hloop := @insertLoop_sim s.heap key t none [] (s.heap.length + 1) false false
    hrep (by omega) (by cases t <;> simp [flagsOf])
  rw [← hog] at hloop
  simp only [stackOf_nil, stackTop_nil] at hloop
  unfold insT at hT
  cases hp : pathT key t [] with
  | none =>
    rw [hp] at hT hloop
    simp only [Option.some.injEq] at hT
    subst hT
    refine ⟨s, ?_, hrep, hog, rfl, Or.inl rfl, fun h => h, Or.inl ⟨rfl, rfl, rfl⟩⟩
    simp [insert, hloop]
  | some ctx =>
    rw [hp] at hT hloop
    simp only [] at hT hloop
    have hpl : plugAll ctx nil = t := by
      have := pathT_plug t [] ctx hp
      simpa [plugAll] using this
    obtain ⟨s1, e1, r1, l1, z1, b1, o1, o2⟩ := linkNew_sim s key value 0 ctx (hpl ▸ hrep) (hpl ▸ hnd)
    have hnew : s.heap.length ∉ t.addrs := fun hc => Nat.lt_irrefl _ (rep_lt hrep _ hc)
    have hnd1 : (plugAll ctx (node s.heap.length nil key value 0 nil)).addrs.Nodup := by
      rw [← hpl, addrs_items, items_plugAll] at hnd hnew
      rw [addrs_items, items_plugAll]
      simp only [items, List.nil_append, List.append_nil, List.map_append, List.map_cons,
        List.map_nil, List.append_assoc, List.singleton_append] at hnd hnew ⊢
      rw [List.nodup_middle]
      exact List.nodup_cons.2 ⟨hnew, hnd⟩
    have hog1 : s1.ogRoot = (plugAll ctx (node s.heap.length nil key value 0 nil)).ptr := by
      cases ctx with
      | nil => exact (o1 rfl).2
      | cons f rest =>
        rw [(o2 (by simp)).2, hog, ← hpl]
        exact ptr_plugAll_cons f rest _ _
    obtain ⟨s2, c1, c2, c3, c4, c5, c6, c7, c8, c9⟩ :=
      checkBalance_sim key ctx _ s1 t1 r1 hnd1 ⟨_, rfl⟩ hog1 hT
    refine ⟨s2, ?_, c2, c3, by rw [c8, b1], ?_, ?_, Or.inr ⟨ctx, rfl, c9, hnd1, by rw [c6, l1],
      by rw [c7, z1]⟩⟩
    · simp [insert, hloop, e1, c1]
    · cases ctx with
      | nil =>
        right
        exact c5 (by rw [(o1 rfl).1, (o1 rfl).2])
      | cons f rest =>
        rcases c4 with h4 | h4
        · left; rw [h4, (o2 (by simp)).1]
        · right; exact h4
    · intro hroot
      refine c5 ?_
      cases ctx with
      | nil => rw [(o1 rfl).1, (o1 rfl).2]
      | cons f rest => rw [(o2 (by simp)).1, (o2 (by simp)).2, hroot]

/-! ## The balance invariant on the abstract tree -/

theorem avl_ht_ge {t : Tree} (h : Avl t) : -1 ≤ t.ht := by
  induction t with
  | nil => simp
  | node a l k v h0 r ihl _ =>
    obtain ⟨h1, _, h3, _, _⟩ := h
    have := ihl h1
    simp only [ht_node]
    omega

theorem avl_hole (ctx : List Frame) (t : Tree) (h : Avl (plugAll ctx t)) : Avl t := by
  induction ctx generalizing t with
  | nil => exact h
  | cons f rest ih =>
    have h1 := ih _ h
    unfold Frame.plug at h1
    split at h1
    · exact h1.1
    · exact h1.2.1

theorem avl_plug_iff (f : Frame) (t : Tree) :
    Avl (f.plug t) ↔ Avl t ∧ Avl f.sib ∧ f.h = 1 + max t.ht f.sib.ht ∧
      t.ht - f.sib.ht ≤ 1 ∧ f.sib.ht - t.ht ≤ 1 := by
  unfold Frame.plug
  split
  · simp only [Avl]
  · simp only [Avl]
    constructor
    · rintro ⟨h1, h2, h3, h4, h5⟩
      exact ⟨h2, h1, by omega, h5, h4⟩
    · rintro ⟨h1, h2, h3, h4, h5⟩
      exact ⟨h2, h1, by omega, h5, h4⟩

theorem ht_plug (f : Frame) (t : Tree) : (f.plug t).ht = f.h := by
  unfold Frame.plug
  split <;> rfl

theorem avl_replace (ctx : List Frame) (t t1 : Tree) (h : Avl (plugAll ctx t)) (h1 : Avl t1)
    (he : t1.ht = t.ht) : Avl (plugAll ctx t1) := by
  induction ctx generalizing t t1 with
  | nil => exact h1
  | cons f rest ih =>
    refine ih (f.plug t) (f.plug t1) h ?_ (by rw [ht_plug, ht_plug])
    have h2 := (avl_plug_iff f t).1 (avl_hole rest _ h)
    rw [avl_plug_iff, he]
    exact ⟨h1, h2.2⟩

theorem rebalT_items {key sh : Int} {t t1 : Tree} (h : rebalT key sh t = some t1) :
    t1.items = t.items := by
  cases t with
  | nil => cases h
  | node a l k v h0 r =>
    unfold rebalT at h
    simp only [] at h
    generalize l.ht - r.ht = bal at h
    cases hc1 : (if bal ≥ 2 then l.rootKey.map (fun x => decide (key < x)) else some false) with
    | none => rw [hc1] at h; cases h
    | some c1 =>
      rw [hc1] at h
      simp only [Option.some_bind] at h
      cases c1 with
      | true => simp only [if_true] at h; exact rotR_items h
      | false =>
        simp only [Bool.false_eq_true, if_false] at h
        cases hc2 : (if bal ≤ -2 then r.rootKey.map (fun x => decide (key > x)) else some false) with
        | none => rw [hc2] at h; cases h
        | some c2 =>
          rw [hc2] at h
          simp only [Option.some_bind] at h
          cases c2 with
          | true => simp only [if_true] at h; exact rotL_items h
          | false =>
            simp only [Bool.false_eq_true, if_false] at h
            cases hc3 : (if bal ≥ 2 then l.rootKey.map (fun x => decide (key > x)) else some false) with
            | none => rw [hc3] at h; cases h
            | some c3 =>
              rw [hc3] at h
              simp only [Option.some_bind] at h
              cases c3 with
              | true =>
                simp only [if_true] at h
                cases hq : rotL h0 l with
                | none => rw [hq] at h; cases h
                | some l1 =>
                  rw [hq] at h
                  simp only [Option.some_bind] at h
                  rw [rotR_items h]
                  simp only [items, rotL_items hq]
              | false =>
                simp only [Bool.false_eq_true, if_false] at h
                cases hc4 : (if bal ≤ -2 then r.rootKey.map (fun x => decide (key < x))
                    else some false) with
                | none => rw [hc4] at h; cases h
                | some c4 =>
                  rw [hc4] at h
                  simp only [Option.some_bind] at h
                  cases c4 with
                  | true =>
                    simp only [if_true] at h
                    cases hq : rotR r with
                    | none => rw [hq] at h; cases h
                    | some r1 =>
                      rw [hq] at h
                      simp only [Option.some_bind] at h
                      rw [rotL_items h]
                      simp only [items, rotR_items hq]
                  | false =>
                    simp only [Bool.false_eq_true, if_false, Option.some.injEq] at h
                    rw [← h]

theorem rotRtop_cases (lr : Tree) (hc : Int) : rotRtop lr hc = -1 ∨ rotRtop lr hc = hc := by
  cases lr with
  | nil => exact Or.inl rfl
  | node _ _ _ _ _ _ => exact Or.inr rfl

theorem node_step_left (key sh : Int) (a : Nat) (new : Tree) (k v h : Int) (sib old : Tree)
    (hn : Avl new) (hs : Avl sib) (hh : h = 1 + max old.ht sib.ht)
    (hb1 : old.ht - sib.ht ≤ 1) (hb2 : sib.ht - old.ht ≤ 1)
    (hg : new.ht = old.ht + 1) (hlean : LeanTo key new) (hk : key < k)
    (hne : h ≠ 1 + max new.ht sib.ht) :
    ∃ t2, rebalT key sh (node a new k v (1 + max new.ht sib.ht) sib) = some t2 ∧ Avl t2 ∧
      (t2.ht = h ∨ (t2.ht = h + 1 ∧ LeanTo key t2)) := by
  have hsg := avl_ht_ge hs
  by_cases hA : sib.ht = old.ht
  · have e1 : ¬ (new.ht - sib.ht ≥ 2) := by omega
    have e2 : ¬ (new.ht - sib.ht ≤ -2) := by omega
    apply Exists.intro
    refine ⟨?_, ?_, ?_⟩
    · simp [rebalT, e1, e2]; rfl
    · exact ⟨hn, hs, rfl, by omega, by omega⟩
    · refine Or.inr ⟨?_, Or.inr (Or.inl ⟨hk, by omega⟩)⟩
      simp only [ht_node]; omega
  · have hB : sib.ht = old.ht - 1 := by omega
    cases new with
    | nil => exact absurd hlean (by simp [LeanTo])
    | node la ll lk lv lh lr =>
      obtain ⟨a1, a2, a3, a4, a5⟩ := hn
      have g1 := avl_ht_ge a1
      have g2 := avl_ht_ge a2
      simp only [ht_node] at hg hne ⊢
      have e1 : lh - sib.ht ≥ 2 := by omega
      have e2 : ¬ (lh - sib.ht ≤ -2) := by omega
      rcases hlean with ⟨rfl, rfl⟩ | ⟨hl1, hl2⟩ | ⟨hl1, hl2⟩
      · simp only [ht_nil] at a3; omega
      · have hr := rotRtop_cases lr (max lr.ht sib.ht + 1)
        apply Exists.intro
        refine ⟨?_, ?_, ?_⟩
        · simp [rebalT, e1, rootKey, hl1, rotR]; rfl
        · refine ⟨a1, ⟨a2, hs, ?_, ?_, ?_⟩, ?_, ?_, ?_⟩ <;>
            first | omega | (simp only [ht_node]; omega)
        · left; simp only [ht_node]; omega
      · have e3 : ¬ key < lk := by omega
        cases lr with
        | nil => simp only [ht_nil] at hl2; omega
        | node x xl xk xv xh xr =>
          obtain ⟨b1, b2, b3, b4, b5⟩ := a2
          have g3 := avl_ht_ge b1
          have g4 := avl_ht_ge b2
          simp only [ht_node] at hl2 a3 a4 a5
          have hr := rotRtop_cases xr (max xr.ht sib.ht + 1)
          apply Exists.intro
          refine ⟨?_, ?_, ?_⟩
          · simp [rebalT, e1, e2, rootKey, e3, hl1, rotR, rotL]; rfl
          · refine ⟨⟨a1, b1, ?_, ?_, ?_⟩, ⟨b2, hs, ?_, ?_, ?_⟩, ?_, ?_, ?_⟩ <;>
              first | omega | (simp only [ht_node]; omega)
          · left; simp only [ht_node]; omega

theorem rotLtop_node (sh : Int) (rl : Tree) (b : Nat) (l : Tree) (k v h : Int) (r : Tree) :
    rotLtop sh rl (node b l k v h r) = -1 ∨ rotLtop sh rl (node b l k v h r) = h := by
  cases rl with
  | nil => exact Or.inl rfl
  | node _ _ _ _ _ _ => exact Or.inr rfl

theorem node_step_right (key sh : Int) (a : Nat) (new : Tree) (k v h : Int) (sib old : Tree)
    (hn : Avl new) (hs : Avl sib) (hh : h = 1 + max sib.ht old.ht)
    (hb1 : old.ht - sib.ht ≤ 1) (hb2 : sib.ht - old.ht ≤ 1)
    (hg : new.ht = old.ht + 1) (hlean : LeanTo key new) (hk : k < key)
    (hne : h ≠ 1 + max sib.ht new.ht) :
    ∃ t2, rebalT key sh (node a sib k v (1 + max sib.ht new.ht) new) = some t2 ∧ Avl t2 ∧
      (t2.ht = h ∨ (t2.ht = h + 1 ∧ LeanTo key t2)) := by
  have hsg := avl_ht_ge hs
  by_cases hA : sib.ht = old.ht
  · have e1 : ¬ (sib.ht - new.ht ≥ 2) := by omega
    have e2 : ¬ (sib.ht - new.ht ≤ -2) := by omega
    apply Exists.intro
    refine ⟨?_, ?_, ?_⟩
    · simp [rebalT, e1, e2]; rfl
    · exact ⟨hs, hn, rfl, by omega, by omega⟩
    · refine Or.inr ⟨?_, Or.inr (Or.inr ⟨hk, by omega⟩)⟩
      simp only [ht_node]; omega
  · have hB : sib.ht = old.ht - 1 := by omega
    cases new with
    | nil => exact absurd hlean (by simp [LeanTo])
    | node ra rl rk rv rh rr =>
      obtain ⟨a1, a2, a3, a4, a5⟩ := hn
      have g1 := avl_ht_ge a1
      have g2 := avl_ht_ge a2
      simp only [ht_node] at hg hne ⊢
      have e1 : ¬ (sib.ht - rh ≥ 2) := by omega
      have e2 : sib.ht - rh ≤ -2 := by omega
      rcases hlean with ⟨rfl, rfl⟩ | ⟨hl1, hl2⟩ | ⟨hl1, hl2⟩
      · simp only [ht_nil] at a3; omega
      · have e3 : ¬ key > rk := by omega
        cases rl with
        | nil => simp only [ht_nil] at hl2; omega
        | node x xl xk xv xh xr =>
          obtain ⟨b1, b2, b3, b4, b5⟩ := a1
          have g3 := avl_ht_ge b1
          have g4 := avl_ht_ge b2
          simp only [ht_node] at hl2 a3 a4 a5
          have hr := rotLtop_node sh xl ra xr rk rv (max xr.ht rr.ht + 1) rr
          apply Exists.intro
          refine ⟨?_, ?_, ?_⟩
          · simp [rebalT, e1, e2, rootKey, e3, hl1, rotR, rotL]; rfl
          · refine ⟨⟨hs, b1, ?_, ?_, ?_⟩, ⟨b2, a2, ?_, ?_, ?_⟩, ?_, ?_, ?_⟩ <;>
              first | omega | (simp only [ht_node]; omega)
          · left; simp only [ht_node]; omega
      · cases rr with
        | nil => simp only [ht_nil] at hl2; omega
        | node y yl yk yv yh yr =>
          simp only [ht_node] at hl2 a3 a4 a5
          have hr := rotLtop_node sh rl y yl yk yv yh yr
          apply Exists.intro
          refine ⟨?_, ?_, ?_⟩
          · simp [rebalT, e1, e2, rootKey, hl1, rotL]; rfl
          · refine ⟨⟨hs, a1, ?_, ?_, ?_⟩, a2, ?_, ?_, ?_⟩ <;>
              first | omega | (simp only [ht_node]; omega)
          · left; simp only [ht_node]; omega

theorem fixT_avl (key : Int) : ∀ (ctx : List Frame) (old new : Tree),
    Avl (plugAll ctx old) → Avl new → Routes key ctx →
    (new.ht = old.ht ∨ (new.ht = old.ht + 1 ∧ LeanTo key new)) →
    ∃ t1, fixT key ctx new = some t1 ∧ Avl t1 ∧ t1.items = (plugAll ctx new).items := by
  intro ctx
  induction ctx with
  | nil =>
    intro old new _ hn _ _
    exact ⟨new, rfl, hn, rfl⟩
  | cons f rest ih =>
    intro old new h hn hroute hrel
    have hf := (avl_plug_iff f old).1 (avl_hole rest _ h)
    obtain ⟨ho, hs, hfh, hb1, hb2⟩ := hf
    have hog := avl_ht_ge ho
    have hrest : Routes key rest := fun g hg => hroute g (List.mem_cons_of_mem _ hg)
    have hkf := hroute f (List.mem_cons_self _ _)
    obtain ⟨fl, fa, fk, fv, fh, fsib⟩ := f
    simp only [] at hs hfh hb1 hb2 hkf
    cases fl with
    | true =>
      simp only [if_true] at hkf
      by_cases hh : fh = 1 + max new.ht fsib.ht
      · refine ⟨_, by simp [fixT, hh]; rfl, ?_, rfl⟩
        refine avl_replace rest _ _ h ?_ (by rw [ht_plug, ht_plug])
        rw [avl_plug_iff]
        refine ⟨hn, hs, hh, ?_, ?_⟩ <;> simp only [] <;> omega
      · have hgrew : new.ht = old.ht + 1 ∧ LeanTo key new := by
          rcases hrel with h0 | h0
          · exact absurd (by rw [h0]; exact hfh) hh
          · exact h0
        obtain ⟨t2, e1, e2, e3⟩ := node_step_left key (succH rest) fa new fk fv fh fsib old hn hs
          hfh hb1 hb2 hgrew.1 hgrew.2 hkf hh
        obtain ⟨t1, c1, c2, c3⟩ := ih (Frame.plug ⟨true, fa, fk, fv, fh, fsib⟩ old) t2 h e2 hrest
          (by rw [ht_plug]; exact e3)
        refine ⟨t1, ?_, c2, ?_⟩
        · simp [fixT, hh, Frame.plug, e1, c1]
        · rw [c3, items_plugAll, rebalT_items e1]
          simp [plugAll, items_plugAll, Frame.plug, items]
    | false =>
      simp only [Bool.false_eq_true, if_false] at hkf
      by_cases hh : fh = 1 + max fsib.ht new.ht
      · refine ⟨_, by simp [fixT, hh]; rfl, ?_, rfl⟩
        refine avl_replace rest _ _ h ?_ (by rw [ht_plug, ht_plug])
        rw [avl_plug_iff]
        refine ⟨hn, hs, ?_, ?_, ?_⟩ <;> simp only [] <;> omega
      · have hgrew : new.ht = old.ht + 1 ∧ LeanTo key new := by
          rcases hrel with h0 | h0
          · refine absurd ?_ hh
            rw [h0, hfh, max_comm]
          · exact h0
        obtain ⟨t2, e1, e2, e3⟩ := node_step_right key (succH rest) fa new fk fv fh fsib old hn hs
          (by rw [hfh, max_comm]) hb1 hb2 hgrew.1 hgrew.2 hkf hh
        obtain ⟨t1, c1, c2, c3⟩ := ih (Frame.plug ⟨false, fa, fk, fv, fh, fsib⟩ old) t2 h e2 hrest
          (by rw [ht_plug]; exact e3)
        refine ⟨t1, ?_, c2, ?_⟩
        · simp [fixT, hh, Frame.plug, e1, c1]
        · rw [c3, items_plugAll, rebalT_items e1]
          simp [plugAll, items_plugAll, Frame.plug, items]

/-! ## Search-tree order -/

theorem pathT_routes {key : Int} (t : Tree) :
    ∀ (ctx0 ctx : List Frame), pathT key t ctx0 = some ctx → Routes key ctx0 → Routes key ctx := by
  induction t with
  | nil =>
    intro ctx0 ctx h hr
    simp only [pathT, Option.some.injEq] at h
    rw [← h]; exact hr
  | node a l k v h0 r ihl ihr =>
    intro ctx0 ctx h hr
    unfold pathT at h
    by_cases h1 : key = k
    · simp [h1] at h
    · simp only [h1, if_false] at h
      by_cases h2 : key < k
      · simp only [h2, if_true] at h
        refine ihl _ _ h ?_
        intro f hf
        rcases List.mem_cons.1 hf with rfl | hf
        · simpa using h2
        · exact hr f hf
      · simp only [h2, if_false] at h
        refine ihr _ _ h ?_
        intro f hf
        rcases List.mem_cons.1 hf with rfl | hf
        · simp only [Bool.false_eq_true, if_false]; omega
        · exact hr f hf

theorem pathT_none_mem {key : Int} (t : Tree) :
    ∀ (ctx0 : List Frame), pathT key t ctx0 = none → key ∈ t.keys := by
  induction t with
  | nil => intro ctx0 h; simp [pathT] at h
  | node a l k v h0 r ihl ihr =>
    intro ctx0 h
    unfold pathT at h
    by_cases h1 : key = k
    · simp [keys, h1]
    · simp only [h1, if_false] at h
      by_cases h2 : key < k
      · simp only [h2, if_true] at h
        simp [keys, ihl _ h]
      · simp only [h2, if_false] at h
        simp [keys, ihr _ h]

theorem routes_bounds {key : Int} (ctx : List Frame) (hr : Routes key ctx)
    (hs : ((befI ctx ++ aftI ctx).map (fun x => x.2.1)).Pairwise (fun x y => x < y)) :
    (∀ x ∈ befI ctx, x.2.1 < key) ∧ (∀ x ∈ aftI ctx, key < x.2.1) := by
  induction ctx with
  | nil => simp [befI, aftI]
  | cons f rest ih =>
    have hrest : Routes key rest := fun g hg => hr g (List.mem_cons_of_mem _ hg)
    have hkf := hr f (List.mem_cons_self _ _)
    by_cases hl : f.left = true
    · simp only [hl, if_true] at hkf
      simp only [befI, aftI, hl, if_true, List.append_nil, List.cons_append, List.map_append,
        List.map_cons, List.pairwise_append, List.pairwise_cons, List.mem_map, List.mem_cons,
        List.mem_append] at hs ⊢
      obtain ⟨h1, ⟨h2, h3⟩, h4⟩ := hs
      have hih := ih hrest (by
        simp only [List.map_append, List.pairwise_append, List.mem_map]
        exact ⟨h1, h3.2.1, fun a ha b hb => h4 a ha b (Or.inr (Or.inr hb))⟩)
      refine ⟨hih.1, ?_⟩
      rintro x (rfl | hx | hx)
      · exact hkf
      · exact lt_trans hkf (h2 _ (Or.inl ⟨x, hx, rfl⟩))
      · exact hih.2 x hx
    · simp only [hl, if_false, Bool.false_eq_true] at hkf
      simp only [befI, aftI, hl, if_false, Bool.false_eq_true, List.nil_append, List.map_append,
        List.map_cons, List.map_nil, List.pairwise_append, List.pairwise_cons, List.mem_map,
        List.mem_cons, List.mem_append, List.append_assoc] at hs ⊢
      obtain ⟨h1, ⟨h2, ⟨_, h3, h4⟩, h5⟩, h6⟩ := hs
      have hih := ih hrest (by
        simp only [List.map_append, List.pairwise_append, List.mem_map]
        exact ⟨h1, h3, fun a ha b hb => h6 a ha b (Or.inr (Or.inr hb))⟩)
      refine ⟨?_, hih.2⟩
      rintro x (hx | hx | rfl | hx)
      · exact hih.1 x hx
      · exact lt_trans (h5 _ ⟨x, hx, rfl⟩ _ (Or.inl (Or.inl rfl))) hkf
      · exact hkf
      · cases hx

theorem mem_keys_items {t : Tree} {k : Int} : k ∈ t.keys ↔ ∃ x ∈ t.items, x.2.1 = k := by
  rw [keys_items]; simp

theorem mem_kvs_items {t : Tree} {y : Int × Int} : y ∈ t.kvs ↔ ∃ x ∈ t.items, x.2 = y := by
  rw [kvs_items]; simp

/-- The method `insert` on the abstract tree keeps the invariants. -/
theorem insT_spec (t : Tree) (key value : Int) (a : Nat) (hA : Avl t)
    (hB : t.keys.Pairwise (fun x y => x < y)) :
    ∃ t1, insT key value a t = some t1 ∧ Avl t1 ∧ t1.keys.Pairwise (fun x y => x < y) ∧
      ((key ∈ t.keys ∧ t1 = t ∧ pathT key t [] = none) ∨
       (key ∉ t.keys ∧ ∃ ctx, pathT key t [] = some ctx ∧ t.items = befI ctx ++ aftI ctx ∧
          t1.items = befI ctx ++ (a, key, value) :: aftI ctx)) := by
  unfold insT
  cases hp : pathT key t [] with
  | none =>
    exact ⟨t, rfl, hA, hB, Or.inl ⟨pathT_none_mem t [] hp, rfl, rfl⟩⟩
  | some ctx =>
    simp only []
    have hpl : plugAll ctx nil = t := by
      have := pathT_plug t [] ctx hp
      simpa [plugAll] using this
    have hroute : Routes key ctx := pathT_routes t [] ctx hp (by intro f hf; cases hf)
    have hit : t.items = befI ctx ++ aftI ctx := by
      rw [← hpl, items_plugAll]; simp [items]
    have hbd := routes_bounds ctx hroute (by rw [← hit, ← keys_items]; exact hB)
    obtain ⟨t1, e1, e2, e3⟩ := fixT_avl key ctx nil (node a nil key value 0 nil) (hpl ▸ hA)
      ⟨trivial, trivial, by simp, by simp, by simp⟩ hroute
      (Or.inr ⟨by simp, Or.inl ⟨rfl, rfl⟩⟩)
    have hit1 : t1.items = befI ctx ++ (a, key, value) :: aftI ctx := by
      rw [e3, items_plugAll]; simp [items]
    refine ⟨t1, e1, e2, ?_, Or.inr ⟨?_, ctx, rfl, hit, hit1⟩⟩
    · rw [keys_items, hit1]
      rw [keys_items, hit] at hB
      simp only [List.map_append, List.map_cons, List.pairwise_append, List.pairwise_cons,
        List.mem_map, List.mem_cons] at hB ⊢
      refine ⟨hB.1, ⟨?_, hB.2.1⟩, ?_⟩
      · rintro x ⟨y, hy, rfl⟩
        exact hbd.2 y hy
      · rintro x ⟨y, hy, rfl⟩ z (rfl | ⟨w, hw, rfl⟩)
        · exact hbd.1 y hy
        · exact hB.2.2 _ ⟨y, hy, rfl⟩ _ ⟨w, hw, rfl⟩
    · rw [mem_keys_items, hit]
      rintro ⟨x, hx, rfl⟩
      rcases List.mem_append.1 hx with hx | hx
      · exact lt_irrefl _ (hbd.1 x hx)
      · exact lt_irrefl _ (hbd.2 x hx)

/-- One call of `insert` keeps the invariant; a new key adds one node. -/
theorem insert_inv (s : avlt) (t : Tree) (key value : Int) (h : Inv s t) :
    ∃ s1 t1, insert s key value = some s1 ∧ Inv s1 t1 ∧ s1.hasBegun = s.hasBegun ∧
      (s1.Root = s.Root ∨ s1.Root = s1.ogRoot) ∧ (s.Root = s.ogRoot → s1.Root = s1.ogRoot) ∧
      ((key ∈ t.keys ∧ s1 = s ∧ t1 = t) ∨
       (key ∉ t.keys ∧ s1.Size = s.Size + 1 ∧ s1.heap.length = s.heap.length + 1 ∧
         ∃ ctx, t.items = befI ctx ++ aftI ctx ∧
           t1.items = befI ctx ++ (s.heap.length, key, value) :: aftI ctx)) := by
  obtain ⟨hh, hA, hB⟩ := h
  obtain ⟨t1, e1, e2, e3, e4⟩ := insT_spec t key value s.heap.length hA hB
  obtain ⟨s1, f1, f2, f3, f4, f5, f6, f7⟩ := insert_sim s t key value t1 hh e1
  refine ⟨s1, t1, f1, ?_, f4, f5, f6, ?_⟩
  · rcases f7 with ⟨_, g2, g3⟩ | ⟨ctx, g1, g2, g3, g4, g5⟩
    · rw [g2, g3]; exact ⟨hh, hA, hB⟩
    · refine ⟨⟨f2, ?_, f3, ?_, ?_⟩, e2, e3⟩
      · rw [addrs_of_items g2]; exact g3
      · rcases e4 with ⟨_, _, g7⟩ | ⟨_, ctx1, g7, g8, g9⟩
        · rw [g7] at g1; cases g1
        · rw [g4, hh.len, size_items, size_items, g8, g9]
          simp only [List.length_append, List.length_cons]
          omega
      · rcases e4 with ⟨_, _, g7⟩ | ⟨_, ctx1, g7, g8, g9⟩
        · rw [g7] at g1; cases g1
        · rw [g5, hh.size, size_items, size_items, g8, g9]
          simp only [List.length_append, List.length_cons]
          push_cast
          omega
  · rcases e4 with ⟨g6, g7, g8⟩ | ⟨g6, ctx1, g7, g8, g9⟩
    · rcases f7 with ⟨_, g2, g3⟩ | ⟨ctx, g1, _⟩
      · exact Or.inl ⟨g6, g2, g3⟩
      · rw [g8] at g1; cases g1
    · rcases f7 with ⟨g1, _, _⟩ | ⟨ctx, g1, g2, g3, g4, g5⟩
      · rw [g7] at g1; cases g1
      · exact Or.inr ⟨g6, g5, g4, ctx1, g8, g9⟩

/-! ## The method `search` -/

theorem searchLoop_sim {H : Heap} {key value : Int} (t : Tree) :
    ∀ (succ : Option Nat) (fuel : Nat), Rep H succ t → t.size < fuel →
    searchLoop H key value fuel t.ptr =
      some (match lookupT key t with
        | some v => (true, v)
        | none => (false, value)) := by
  induction t with
  | nil =>
    intro succ fuel _ hf
    cases fuel with
    | zero => simp at hf
    | succ fuel => rfl
  | node a l k v h r ihl ihr =>
    intro succ fuel hrep hf
    cases fuel with
    | zero => simp at hf
    | succ fuel =>
      obtain ⟨hc, hl, hr⟩ := hrep
      simp only [Tree.size] at hf
      simp only [searchLoop, ptr_node, hc, lookupT, cell_Key, cell_Left, cell_Right,
        cell_isThreaded, cell_Value]
      by_cases h1 : key = k
      · simp only [h1, if_true]
      · simp only [h1, if_false]
        by_cases h2 : key < k
        · simp only [h2, if_true]
          exact ihl (some a) fuel hl (by omega)
        · simp only [h2, if_false]
          have h3 : key > k := by omega
          cases r with
          | nil =>
            cases succ with
            | none =>
              simp only [rflag_nil, Option.isSome_none, Bool.false_eq_true, if_false, h3, if_true,
                rlink_nil]
              exact ihr none fuel hr (by omega)
            | some b => simp [lookupT]
          | node rb rl rk rv rh rr =>
            simp only [rflag_node, Bool.false_eq_true, if_false, h3, if_true, rlink_node]
            exact ihr succ fuel hr (by omega)

theorem lookupT_none {key : Int} (t : Tree) (h : key ∉ t.keys) : lookupT key t = none := by
  induction t with
  | nil => rfl
  | node a l k v h0 r ihl ihr =>
    simp only [keys, List.mem_append, List.mem_cons, not_or] at h
    simp only [lookupT, h.2.1, if_false]
    split
    · exact ihl h.1
    · exact ihr h.2.2

theorem lookupT_iff {key : Int} (t : Tree) (hB : t.keys.Pairwise (fun x y => x < y)) (v : Int) :
    lookupT key t = some v ↔ (key, v) ∈ t.kvs := by
  induction t with
  | nil => simp [lookupT, kvs]
  | node a l k v0 h0 r ihl ihr =>
    simp only [keys, List.pairwise_append, List.pairwise_cons, List.mem_cons] at hB
    obtain ⟨b1, ⟨b2, b3⟩, b4⟩ := hB
    have kl : ∀ w, (key, w) ∈ l.kvs → key ∈ l.keys := by
      intro w hw
      rw [kvs_items] at hw
      rw [keys_items]
      simp only [List.mem_map] at hw ⊢
      obtain ⟨x, hx, he⟩ := hw
      exact ⟨x, hx, by rw [he]⟩
    have kr : ∀ w, (key, w) ∈ r.kvs → key ∈ r.keys := by
      intro w hw
      rw [kvs_items] at hw
      rw [keys_items]
      simp only [List.mem_map] at hw ⊢
      obtain ⟨x, hx, he⟩ := hw
      exact ⟨x, hx, by rw [he]⟩
    simp only [lookupT, kvs, List.mem_append, List.mem_cons, Prod.mk.injEq]
    by_cases h1 : key = k
    · subst h1
      simp only [if_true, Option.some.injEq, true_and]
      constructor
      · intro h; exact Or.inr (Or.inl h.symm)
      · rintro (h | h | h)
        · exact absurd (b4 _ (kl _ h) _ (Or.inl rfl)) (lt_irrefl _)
        · exact h.symm
        · exact absurd (b2 _ (kr _ h)) (lt_irrefl _)
    · simp only [h1, if_false, false_and, false_or]
      by_cases h2 : key < k
      · simp only [h2, if_true]
        rw [ihl b1]
        constructor
        · intro h; exact Or.inl h
        · rintro (h | h)
          · exact h
          · exact absurd (b2 _ (kr _ h)) (by omega)
      · simp only [h2, if_false]
        rw [ihr b3]
        constructor
        · intro h; exact Or.inr h
        · rintro (h | h)
          · have := b4 _ (kl _ h) _ (Or.inl rfl)
            omega
          · exact h

/-! ## Runs of `insert` -/

theorem mem_keys_kvs {t : Tree} {k : Int} : k ∈ t.keys ↔ ∃ v, (k, v) ∈ t.kvs := by
  rw [keys_items, kvs_items]
  simp only [List.mem_map]
  constructor
  · rintro ⟨x, hx, rfl⟩
    exact ⟨x.2.2, x, hx, rfl⟩
  · rintro ⟨v, x, hx, he⟩
    exact ⟨x, hx, by rw [he]⟩

theorem inv_empty : Inv empty nil :=
  ⟨⟨trivial, List.nodup_nil, rfl, rfl, rfl⟩, trivial, List.Pairwise.nil⟩

theorem insertAll_inv : ∀ (ops : List (Int × Int)) (s : avlt) (t : Tree), Inv s t →
    ∃ s1 t1, insertAll s ops = some s1 ∧ Inv s1 t1 ∧ s1.hasBegun = s.hasBegun ∧
      (s.Root = s.ogRoot → s1.Root = s1.ogRoot) ∧
      (∀ k v, (k, v) ∈ t1.kvs ↔
        ((k, v) ∈ t.kvs ∨ (k ∉ t.keys ∧ ops.find? (fun p => p.1 == k) = some (k, v)))) := by
  intro ops
  induction ops with
  | nil =>
    intro s t h
    exact ⟨s, t, rfl, h, rfl, fun h => h, by simp⟩
  | cons op rest ih =>
    intro s t h
    obtain ⟨k0, v0⟩ := op
    obtain ⟨s1, t1, e1, e2, e3, _, e5, e6⟩ := insert_inv s t k0 v0 h
    obtain ⟨s2, t2, f1, f2, f3, f4, f5⟩ := ih s1 t1 e2
    refine ⟨s2, t2, by simp [insertAll, e1, f1], f2, by rw [f3, e3], fun hr => f4 (e5 hr), ?_⟩
    intro k v
    rw [f5]
    rcases e6 with ⟨g1, g2, g3⟩ | ⟨g1, _, _, ctx, g4, g5⟩
    · subst g3
      by_cases hk : k0 = k
      · subst hk
        simp [g1]
      · rw [List.find?_cons_of_neg _ (by simpa using hk)]
    · have hkv : ∀ y, y ∈ t1.kvs ↔ y ∈ t.kvs ∨ y = (k0, v0) := by
        intro y
        rw [kvs_items, kvs_items, g4, g5]
        simp only [List.map_append, List.map_cons, List.mem_append, List.mem_cons]
        tauto
      have hks : ∀ y, y ∈ t1.keys ↔ y ∈ t.keys ∨ y = k0 := by
        intro y
        rw [keys_items, keys_items, g4, g5]
        simp only [List.map_append, List.map_cons, List.mem_append, List.mem_cons]
        tauto
      rw [hkv, hks]
      by_cases hk : k0 = k
      · subst hk
        rw [List.find?_cons_of_pos _ (by simp)]
        simp only [Prod.mk.injEq, true_and, Option.some.injEq, not_or, not_true_eq_false, and_false,
          false_and, or_false]
        constructor
        · rintro (h0 | h0)
          · exact absurd (mem_keys_kvs.2 ⟨v, h0⟩) g1
          · exact Or.inr ⟨g1, h0.symm⟩
        · rintro (h0 | h0)
          · exact Or.inl h0
          · exact Or.inr h0.2.symm
      · have hk' : ¬ k = k0 := fun h0 => hk h0.symm
        rw [List.find?_cons_of_neg _ (by simpa using hk)]
        simp [hk']

/-- The states built by a run of `insert` calls on the empty tree. -/
theorem build_inv (ops : List (Int × Int)) :
    ∃ s t, build ops = some s ∧ Inv s t ∧ s.hasBegun = false ∧ s.Root = s.ogRoot ∧
      (∀ k v, (k, v) ∈ t.kvs ↔ ops.find? (fun p => p.1 == k) = some (k, v)) := by
  obtain ⟨s, t, e1, e2, e3, e4, e5⟩ := insertAll_inv ops empty nil inv_empty
  refine ⟨s, t, e1, e2, e3, e4 rfl, ?_⟩
  intro k v
  rw [e5]
  simp [kvs, keys]

theorem find_fst_mem (ops : List (Int × Int)) (k : Int) :
    k ∈ ops.map Prod.fst ↔ ∃ v, ops.find? (fun p => p.1 == k) = some (k, v) := by
  induction ops with
  | nil => simp
  | cons op rest ih =>
    obtain ⟨k0, v0⟩ := op
    by_cases hk : k0 = k
    · subst hk
      rw [List.find?_cons_of_pos _ (by simp)]
      simp
    · have hk' : ¬ k = k0 := fun h0 => hk h0.symm
      rw [List.find?_cons_of_neg _ (by simpa using hk)]
      simp only [List.map_cons, List.mem_cons, hk', false_or, ih]

theorem build_keys (ops : List (Int × Int)) {t : Tree}
    (h : ∀ k v, (k, v) ∈ t.kvs ↔ ops.find? (fun p => p.1 == k) = some (k, v)) (k : Int) :
    k ∈ t.keys ↔ k ∈ ops.map Prod.fst := by
  rw [mem_keys_kvs, find_fst_mem]
  constructor
  · rintro ⟨v, hv⟩; exact ⟨v, (h k v).1 hv⟩
  · rintro ⟨v, hv⟩; exact ⟨v, (h k v).2 hv⟩

/-! ## Claims on runs of `insert` -/

theorem avl_ht_height {t : Tree} (h : Avl t) : t.ht = t.height := by
  induction t with
  | nil => rfl
  | node a l k v h0 r ihl ihr =>
    obtain ⟨h1, h2, h3, _, _⟩ := h
    simp only [ht_node, Tree.height, ← ihl h1, ← ihr h2, h3]

theorem avl_balanced {t : Tree} (h : Avl t) : t.Balanced := by
  induction t with
  | nil => trivial
  | node a l k v h0 r ihl ihr =>
    obtain ⟨h1, h2, _, h4, h5⟩ := h
    refine ⟨ihl h1, ihr h2, ?_, ?_⟩
    · rw [← avl_ht_height h1, ← avl_ht_height h2]; exact h4
    · rw [← avl_ht_height h1, ← avl_ht_height h2]; exact h5

theorem avl_heightsOk {t : Tree} (h : Avl t) : t.HeightsOk := by
  induction t with
  | nil => trivial
  | node a l k v h0 r ihl ihr =>
    have h0' := avl_ht_height h
    obtain ⟨h1, h2, h3, _, _⟩ := h
    exact ⟨ihl h1, ihr h2, h3, h0'⟩

/-- C1: after any run of `insert` calls on the empty tree, `search(k)` reports found
exactly when `k` is among the inserted keys, and the value it returns is the one
passed by the first `insert` call for `k`; when not found, `value` is left as it was. -/
theorem C1_search_first_insert (ops : List (Int × Int)) (k v0 : Int) :
    ∃ s, build ops = some s ∧
      search s k v0 = some (match ops.find? (fun p => p.1 == k) with
        | some p => (true, p.2)
        | none => (false, v0)) ∧
      ((search s k v0).map Prod.fst = some true ↔ k ∈ ops.map Prod.fst) := by
  obtain ⟨s, t, e1, e2, _, e4, e5⟩ := build_inv ops
  have hs : search s k v0 = some (match lookupT k t with
      | some v => (true, v)
      | none => (false, v0)) := by
    unfold search
    rw [e4, e2.holds.og]
    cases ht : t.ptr with
    | none =>
      cases t with
      | nil => rfl
      | node a l k1 v h r => cases ht
    | some a =>
      simp only []
      rw [← ht]
      exact searchLoop_sim t none _ e2.holds.rep (by rw [e2.holds.len]; omega)
  have hfind : (match lookupT k t with
      | some v => (true, v)
      | none => (false, v0)) = (match ops.find? (fun p => p.1 == k) with
        | some p => (true, p.2)
        | none => (false, v0)) := by
    cases hf : ops.find? (fun p => p.1 == k) with
    | none =>
      cases hl : lookupT k t with
      | none => rfl
      | some v =>
        have := (e5 k v).1 ((lookupT_iff t e2.bst v).1 hl)
        rw [hf] at this; cases this
    | some p =>
      have hp : p.1 = k := by simpa using List.find?_some hf
      obtain ⟨p1, p2⟩ := p
      simp only [] at hp
      subst hp
      rw [(lookupT_iff t e2.bst p2).2 ((e5 p1 p2).2 hf)]
  refine ⟨s, e1, by rw [hs, hfind], ?_⟩
  rw [hs, hfind, find_fst_mem]
  cases hf : ops.find? (fun p => p.1 == k) with
  | none => simp
  | some p =>
    have hp : p.1 = k := by simpa using List.find?_some hf
    obtain ⟨p1, p2⟩ := p
    simp only [] at hp
    subst hp
    simp

/-- C4: after any run of `insert` calls on the empty tree, the nodes reachable from
the structural root form a tree (an absent child and a threaded right pointer are
absent subtrees) in which every node has `|height(left) - height(right)| ≤ 1`, the
heights being the true heights of the subtrees. -/
theorem C4_balance (ops : List (Int × Int)) :
    ∃ s t, build ops = some s ∧ Tree.Rep s.heap none t ∧ s.ogRoot = t.ptr ∧ t.Balanced := by
  obtain ⟨s, t, e1, e2, _⟩ := build_inv ops
  exact ⟨s, t, e1, e2.holds.rep, e2.holds.og, avl_balanced e2.avl⟩

/-- C5: after any run of `insert` calls on the empty tree, the `Height` stored in every
node equals `1 + max` of the stored heights of its children (`-1` for an absent child
or a threaded right pointer), and equals the true height of the subtree. -/
theorem C5_stored_heights (ops : List (Int × Int)) :
    ∃ s t, build ops = some s ∧ Tree.Rep s.heap none t ∧ s.ogRoot = t.ptr ∧ t.HeightsOk := by
  obtain ⟨s, t, e1, e2, _⟩ := build_inv ops
  exact ⟨s, t, e1, e2.holds.rep, e2.holds.og, avl_heightsOk e2.avl⟩

/-- C6: on a structure built by insertions, `insert(k, v)` with a key `k` that is
present returns the state unchanged: storage (shape, heights, threads, values),
roots, `Size` and flag are all the same. -/
theorem C6_duplicate_insert (ops : List (Int × Int)) (k v : Int)
    (hk : k ∈ ops.map Prod.fst) :
    ∃ s, build ops = some s ∧ insert s k v = some s := by
  obtain ⟨s, t, e1, e2, _, _, e5⟩ := build_inv ops
  obtain ⟨s1, t1, f1, _, _, _, _, f6⟩ := insert_inv s t k v e2
  refine ⟨s, e1, ?_⟩
  rcases f6 with ⟨_, g2, _⟩ | ⟨g1, _⟩
  · rw [f1, g2]
  · exact absurd ((build_keys ops e5 k).2 hk) g1

theorem C6_duplicate_insert_witness :
    (1 : Int) ∈ [((1 : Int), (10 : Int)), (2, 20)].map Prod.fst ∧
      ∃ s, build [(1, 10), (2, 20)] = some s ∧ insert s 1 99 = some s :=
  ⟨by decide, C6_duplicate_insert [(1, 10), (2, 20)] 1 99 (by decide)⟩

/-- C8: after any run of `insert` calls on the empty tree, `size()` is the number of
distinct keys of the run, which is the number of nodes reachable from the structural
root; a further `insert` adds one for a new key and nothing for a present key. -/
theorem C8_size (ops : List (Int × Int)) :
    ∃ s t, build ops = some s ∧ Tree.Rep s.heap none t ∧ s.ogRoot = t.ptr ∧
      size s = t.size ∧ size s = (ops.map Prod.fst).dedup.length ∧
      ∀ k v, ∃ s1, insert s k v = some s1 ∧
        size s1 = if k ∈ ops.map Prod.fst then size s else size s + 1 := by
  obtain ⟨s, t, e1, e2, _, _, e5⟩ := build_inv ops
  have hperm : t.keys.Perm (ops.map Prod.fst).dedup := by
    rw [List.perm_ext_iff_of_nodup (e2.bst.imp (fun h => ne_of_lt h)) (List.nodup_dedup _)]
    intro k
    rw [List.mem_dedup]
    exact build_keys ops e5 k
  have hsz : t.size = (ops.map Prod.fst).dedup.length := by
    rw [← hperm.length_eq, keys_items, size_items, List.length_map]
  refine ⟨s, t, e1, e2.holds.rep, e2.holds.og, e2.holds.size, ?_, ?_⟩
  · unfold size; rw [e2.holds.size, hsz]
  · intro k v
    obtain ⟨s1, t1, f1, _, _, _, _, f6⟩ := insert_inv s t k v e2
    refine ⟨s1, f1, ?_⟩
    rcases f6 with ⟨g1, g2, _⟩ | ⟨g1, g2, _⟩
    · rw [if_pos ((build_keys ops e5 k).1 g1), g2]
    · rw [if_neg (fun h => g1 ((build_keys ops e5 k).2 h))]
      exact g2

/-! ## Following the threads -/

theorem size_le_len {H : Heap} {succ : Option Nat} {t : Tree} (h : Rep H succ t)
    (hnd : t.addrs.Nodup) : t.size ≤ H.length := by
  have hsub : t.addrs ⊆ List.range H.length := by
    intro b hb
    exact List.mem_range.2 (rep_lt h b hb)
  have := (List.subperm_of_subset hnd hsub).length_le
  rw [size_items, ← List.length_map t.items (fun x => x.1), ← addrs_items]
  simpa using this

theorem leftWhile_stop {H : Heap} {k : Int} {b : Nat} (h : StopAt H k b) (fuel : Nat) :
    leftWhile H k (fuel + 1) b = some b := by
  obtain ⟨n, hn, h1 | ⟨l, ln, h1, h2, h3⟩⟩ := h
  · simp [leftWhile, hn, h1]
  · simp [leftWhile, hn, h1, h2, h3]

theorem leftWhile_first {H : Heap} {k : Int} (t : Tree) :
    ∀ (succ : Option Nat) (fuel : Nat) (a : Nat), Rep H succ t → t.ptr = some a →
      (∀ x ∈ t.keys, k < x) → t.size ≤ fuel → leftWhile H k fuel a = t.addrs.head? := by
  induction t with
  | nil => intro succ fuel a _ hp; cases hp
  | node a0 l k0 v h r ihl _ =>
    intro succ fuel a hrep hp hk hf
    cases hp
    obtain ⟨hc, hl, _⟩ := hrep
    cases fuel with
    | zero => simp [Tree.size] at hf
    | succ fuel =>
      simp only [Tree.size] at hf
      cases l with
      | nil => simp [leftWhile, hc, addrs]
      | node la ll lk lv lh lr =>
        have hlk : k < lk := hk lk (by simp [keys])
        have := ihl (some a0) fuel la hl rfl (fun x hx => hk x (by simp [keys] at hx ⊢; tauto))
          (by omega)
        simp only [leftWhile, hc, cell_Left, ptr_node, hl.1, cell_Key, gt_iff_lt, hlk, if_true, this]
        simp [addrs]

theorem leftmost_first {H : Heap} (t : Tree) :
    ∀ (succ : Option Nat) (fuel : Nat) (a : Nat), Rep H succ t → t.ptr = some a →
      t.size ≤ fuel → leftmost H fuel a = t.addrs.head? := by
  induction t with
  | nil => intro succ fuel a _ hp; cases hp
  | node a0 l k0 v h r ihl _ =>
    intro succ fuel a hrep hp hf
    cases hp
    obtain ⟨hc, hl, _⟩ := hrep
    cases fuel with
    | zero => simp [Tree.size] at hf
    | succ fuel =>
      simp only [Tree.size] at hf
      cases l with
      | nil => simp [leftmost, hc, addrs]
      | node la ll lk lv lh lr =>
        have := ihl (some a0) fuel la hl rfl (by omega)
        simp only [leftmost, hc, cell_Left, ptr_node, this]
        simp [addrs]

theorem head_addrs (t : Tree) : t.addrs.head? = (t.items.map (fun x => x.1)).head? := by
  rw [addrs_items]

theorem head_map_some {α : Type} (L M : List α) (h : L ≠ []) :
    L.head?.map some = some ((L ++ M).head?) := by
  cases L with
  | nil => exact absurd rfl h
  | cons x L1 => rfl

theorem nextRange_spec {H : Heap} (t : Tree) :
    ∀ (succ : Option Nat), Rep H succ t → t.addrs.Nodup →
      t.keys.Pairwise (fun x y => x < y) →
      (∀ b, succ = some b → ∀ pre x, t.items = pre ++ [x] → StopAt H x.2.1 b) →
      ∀ pre x post, t.items = pre ++ x :: post →
        nextRange H (some x.1) = some ((post.map (fun y => y.1) ++ succ.toList).head?) := by
  induction t with
  | nil =>
    intro succ _ _ _ _ pre x post he
    simp [items] at he
  | node a l k v h r ihl ihr =>
    intro succ hrep hnd hB hexit pre x post he
    obtain ⟨hc, hl, hr⟩ := hrep
    have hnd1 := hnd
    rw [nodup_node] at hnd1
    obtain ⟨n1, n2, n3, n4, n5⟩ := hnd1
    simp only [keys, List.pairwise_append, List.pairwise_cons, List.mem_cons] at hB
    obtain ⟨b1, ⟨b2, b3⟩, b4⟩ := hB
    have hsz : r.size ≤ H.length := size_le_len hr n2
    -- the node itself
    have hself : nextRange H (some a) =
        some ((r.items.map (fun y => y.1) ++ succ.toList).head?) := by
      simp only [nextRange, hc, cell_Right, cell_Key]
      cases r with
      | nil =>
        cases succ with
        | none => rfl
        | some b =>
          have := hexit b rfl l.items (a, k, v) (by simp [items])
          simp [leftWhile_stop this, items]
      | node rb rl rk rv rh rr =>
        simp only [rlink_node]
        rw [leftWhile_first _ succ _ rb hr rfl b2 (by omega), head_addrs]
        exact head_map_some _ _ (by simp [items])
    -- exit condition of the left subtree
    have hexl : ∀ b, some a = some b → ∀ pre x, l.items = pre ++ [x] → StopAt H x.2.1 b := by
      intro b hb pre0 x0 he0
      cases hb
      refine ⟨_, hc, ?_⟩
      cases l with
      | nil => simp [items] at he0
      | node la ll lk lv lh lr =>
        refine Or.inr ⟨la, _, rfl, hl.1, ?_⟩
        simp only [cell_Key, gt_iff_lt, not_lt]
        have hmem : lk ∈ (node la ll lk lv lh lr).keys := by simp [keys]
        rw [keys_items, he0] at hmem b1
        simp only [List.map_append, List.map_cons, List.map_nil, List.mem_append,
          List.mem_singleton, List.pairwise_append] at hmem b1
        rcases hmem with hm | hm
        · exact le_of_lt (b1.2.2 _ hm _ (by simp))
        · exact le_of_eq hm
    have hexr : ∀ b, succ = some b → ∀ pre x, r.items = pre ++ [x] → StopAt H x.2.1 b := by
      intro b hb pre0 x0 he0
      exact hexit b hb (l.items ++ (a, k, v) :: pre0) x0 (by simp [items, he0])
    simp only [items] at he
    rcases List.append_eq_append_iff.1 he with ⟨u, hu1, hu2⟩ | ⟨u, hu1, hu2⟩
    · cases u with
      | nil =>
        simp only [List.nil_append, List.cons.injEq] at hu2
        obtain ⟨rfl, rfl⟩ := hu2
        exact hself
      | cons y u1 =>
        simp only [List.cons_append, List.cons.injEq] at hu2
        exact ihr succ hr n2 b3 hexr u1 x post hu2.2
    · cases u with
      | nil =>
        simp only [List.nil_append, List.cons.injEq] at hu2
        obtain ⟨rfl, rfl⟩ := hu2
        exact hself
      | cons y u1 =>
        simp only [List.cons_append, List.cons.injEq] at hu2
        obtain ⟨rfl, rfl⟩ := hu2
        have := ihl (some a) hl n1 b1 hexl pre x u1 hu1
        rw [this]
        cases u1 <;> simp

/-! ## The methods `begin` and `next` -/

theorem next_eq {s : avlt} {a : Nat} {n : NODE} {nx : Option Nat} (key : Int)
    (hr : s.Root = some a) (hb : s.hasBegun = true) (hn : s.heap[a]? = some n)
    (hx : nextRange s.heap (some a) = some nx) :
    next s key = some ({ s with Root := nx }, true, n.Key) := by
  unfold next
  unfold nextRange at hx
  simp only [hr, hb, hn] at hx ⊢
  cases hR : n.Right with
  | none =>
    rw [hR] at hx
    simp only [Option.some.injEq] at hx
    simp [← hx]
  | some r =>
    rw [hR] at hx
    simp only [] at hx ⊢
    cases hw : leftWhile s.heap n.Key (s.heap.length + 1) r with
    | none => rw [hw] at hx; cases hx
    | some c =>
      rw [hw] at hx
      simp only [Option.map_some', Option.some.injEq] at hx
      simp [← hx]

theorem rep_mem_cell {H : Heap} (t : Tree) :
    ∀ (succ : Option Nat), Rep H succ t → ∀ x ∈ t.items,
      ∃ n, H[x.1]? = some n ∧ n.Key = x.2.1 ∧ n.Value = x.2.2 := by
  induction t with
  | nil => intro succ _ x hx; simp [items] at hx
  | node a l k v h r ihl ihr =>
    intro succ hrep x hx
    obtain ⟨hc, hl, hr⟩ := hrep
    simp only [items, List.mem_append, List.mem_cons] at hx
    rcases hx with hx | rfl | hx
    · exact ihl _ hl x hx
    · exact ⟨_, hc, rfl, rfl⟩
    · exact ihr _ hr x hx

/-- Calling `next` along the rest of the inorder sequence. -/
theorem takeNext_spec {t : Tree} :
    ∀ (post pre : List (Nat × Int × Int)) (s : avlt), Rep s.heap none t → t.addrs.Nodup →
      t.keys.Pairwise (fun x y => x < y) → s.hasBegun = true →
      t.items = pre ++ post → s.Root = (post.map (fun x => x.1)).head? →
      takeNext post.length s = some (post.map (fun x => x.2.1), { s with Root := none }) := by
  intro post
  induction post with
  | nil =>
    intro pre s _ _ _ _ _ hroot
    simp only [List.map_nil, List.head?_nil] at hroot
    simp only [List.length_nil, takeNext, List.map_nil, ← hroot]
  | cons x post ih =>
    intro pre s hrep hnd hB hbg he hroot
    simp only [List.map_cons, List.head?_cons] at hroot
    obtain ⟨n, hn, hk, _⟩ := rep_mem_cell t none hrep x (by rw [he]; simp)
    have hx := nextRange_spec t none hrep hnd hB (by intro b hb; cases hb) pre x post he
    simp only [Option.toList, List.append_nil] at hx
    have hnext := next_eq 0 hroot hbg hn hx
    have := ih (pre ++ [x]) { s with Root := (post.map (fun y => y.1)).head? } hrep hnd hB hbg
      (by simp [he]) rfl
    simp only [List.length_cons, takeNext, hnext, this, Option.map_some', List.map_cons, hk]

theorem begin_spec {s : avlt} {t : Tree} (h : Holds s t) :
    begin s = some (if t = nil then s
      else { s with Root := t.addrs.head?, hasBegun := true }) := by
  unfold begin
  rw [h.og]
  cases t with
  | nil => rfl
  | node a l k v h0 r =>
    simp only [ptr_node, reduceCtorEq, if_false]
    rw [leftmost_first _ none _ a h.rep rfl (by have := size_le_len h.rep h.nodup; omega)]
    simp [addrs]
    cases l.addrs <;> simp

/-! ## Runs of `insert`, `begin` and `next` -/

theorem holds_cursor_update {s : avlt} {t : Tree} (h : Inv s t) (r : Option Nat) (b : Bool) :
    Inv { s with Root := r, hasBegun := b } t :=
  ⟨⟨h.holds.rep, h.holds.nodup, h.holds.og, h.holds.len, h.holds.size⟩, h.avl, h.bst⟩

theorem head_mem_addrs {t : Tree} {a : Nat} (h : t.addrs.head? = some a) : a ∈ t.addrs :=
  List.mem_of_mem_head? h

theorem step_inv (s : avlt) (t : Tree) (op : Op) (h : Inv s t) (hc : Cursor s t) :
    ∃ s1 t1, step s op = some s1 ∧ Inv s1 t1 ∧ Cursor s1 t1 ∧
      (∀ k, k ∈ t1.keys ↔ k ∈ t.keys ∨ k ∈ insKeys [op]) := by
  cases op with
  | ins key value =>
    obtain ⟨s1, t1, e1, e2, _, e4, _, e6⟩ := insert_inv s t key value h
    have hsub : ∀ b, b ∈ t.addrs → b ∈ t1.addrs := by
      intro b hb
      rcases e6 with ⟨_, _, g⟩ | ⟨_, _, _, ctx, g1, g2⟩
      · rw [g]; exact hb
      · rw [addrs_items] at hb ⊢
        rw [g1] at hb
        rw [g2]
        simp only [List.map_append, List.map_cons, List.mem_append, List.mem_cons] at hb ⊢
        tauto
    refine ⟨s1, t1, e1, e2, ?_, ?_⟩
    · rcases e4 with h4 | h4
      · rcases hc with h0 | ⟨a, ha, h0⟩
        · exact Or.inl (by rw [h4, h0])
        · exact Or.inr ⟨a, hsub a ha, by rw [h4, h0]⟩
      · unfold Cursor
        rw [h4, e2.holds.og]
        cases t1 with
        | nil => exact Or.inl rfl
        | node a l k v h0 r => exact Or.inr ⟨a, by simp [addrs], rfl⟩
    · intro k
      rcases e6 with ⟨g0, _, g⟩ | ⟨_, _, _, ctx, g1, g2⟩
      · rw [g]
        simp only [insKeys, List.mem_singleton]
        constructor
        · exact Or.inl
        · rintro (h0 | h0)
          · exact h0
          · rw [h0]; exact g0
      · rw [keys_items, keys_items, g1, g2]
        simp only [List.map_append, List.map_cons, List.mem_append, List.mem_cons, insKeys,
          List.mem_singleton]
        tauto
  | beg =>
    refine ⟨_, t, begin_spec h.holds, ?_, ?_, by simp [insKeys]⟩
    · split
      · exact h
      · exact holds_cursor_update h _ _
    · split
      · exact hc
      · cases hh : t.addrs.head? with
        | none => exact Or.inl rfl
        | some a => exact Or.inr ⟨a, head_mem_addrs hh, rfl⟩
  | nxt =>
    rcases hc with h0 | ⟨a, ha, h0⟩
    · exact ⟨s, t, by simp [step, next, h0], h, Or.inl h0, by simp [insKeys]⟩
    · by_cases hb : s.hasBegun = true
      · rw [addrs_items, List.mem_map] at ha
        obtain ⟨x, hx, rfl⟩ := ha
        obtain ⟨pre, post, he⟩ := List.append_of_mem hx
        obtain ⟨n, hn, _, _⟩ := rep_mem_cell t none h.holds.rep x hx
        have hnx := nextRange_spec t none h.holds.rep h.holds.nodup h.bst
          (by intro b hb0; cases hb0) pre x post he
        simp only [Option.toList, List.append_nil] at hnx
        refine ⟨{ s with Root := (post.map (fun y => y.1)).head? }, t,
          by rw [step, next_eq 0 h0 hb hn hnx]; rfl, ?_, ?_, by simp [insKeys]⟩
        · exact ⟨⟨h.holds.rep, h.holds.nodup, h.holds.og, h.holds.len, h.holds.size⟩, h.avl, h.bst⟩
        · cases hh : (post.map (fun y => y.1)).head? with
          | none => exact Or.inl rfl
          | some c =>
            refine Or.inr ⟨c, ?_, rfl⟩
            have := List.mem_of_mem_head? hh
            rw [addrs_items, he]
            simp only [List.map_append, List.map_cons, List.mem_append, List.mem_cons]
            exact Or.inr (Or.inr this)
      · have hb' : s.hasBegun = false := by simpa using hb
        exact ⟨s, t, by simp [step, next, h0, hb'], h, Or.inr ⟨a, ha, h0⟩, by simp [insKeys]⟩

theorem insKeys_cons (op : Op) (rest : List Op) (k : Int) :
    k ∈ insKeys (op :: rest) ↔ k ∈ insKeys [op] ∨ k ∈ insKeys rest := by
  cases op <;> simp [insKeys]

theorem run_inv : ∀ (ops : List Op) (s : avlt) (t : Tree), Inv s t → Cursor s t →
    ∃ s1 t1, run s ops = some s1 ∧ Inv s1 t1 ∧ Cursor s1 t1 ∧
      (∀ k, k ∈ t1.keys ↔ k ∈ t.keys ∨ k ∈ insKeys ops) := by
  intro ops
  induction ops with
  | nil =>
    intro s t h hc
    exact ⟨s, t, rfl, h, hc, by simp [insKeys]⟩
  | cons op rest ih =>
    intro s t h hc
    obtain ⟨s1, t1, e1, e2, e3, e4⟩ := step_inv s t op h hc
    obtain ⟨s2, t2, f1, f2, f3, f4⟩ := ih s1 t1 e2 e3
    refine ⟨s2, t2, by simp [run, e1, f1], f2, f3, ?_⟩
    intro k
    rw [f4, e4, insKeys_cons op rest k]
    tauto

/-- C3: in every state reached by `insert`, `begin` and `next` calls, `begin()` followed
by `size()` calls of `next()` returns `true` each time and yields the inserted keys, each
once, in strictly ascending order; the call of `next()` after that returns `false` and
leaves the key parameter as it was. -/
theorem C3_traversal (ops : List Op) (key0 : Int) :
    ∃ s s1 L s2, run empty ops = some s ∧ begin s = some s1 ∧
      takeNext (size s).toNat s1 = some (L, s2) ∧
      L.Pairwise (fun x y => x < y) ∧ (∀ k, k ∈ L ↔ k ∈ insKeys ops) ∧
      next s2 key0 = some (s2, false, key0) := by
  obtain ⟨s, t, e1, e2, e3, e4⟩ := run_inv ops empty nil inv_empty (Or.inl rfl)
  have hsz : (size s).toNat = t.items.length := by
    unfold size
    rw [e2.holds.size, size_items]
    simp
  have hbegin := begin_spec e2.holds
  by_cases ht : t = nil
  · subst ht
    rw [if_pos rfl] at hbegin
    have hroot : s.Root = none := by
      rcases e3 with h0 | ⟨a, ha, _⟩
      · exact h0
      · simp [addrs] at ha
    refine ⟨s, s, [], s, e1, hbegin, by rw [hsz]; rfl, List.Pairwise.nil, ?_, by simp [next, hroot]⟩
    intro k
    have h0 : k ∉ insKeys ops := by simpa [keys] using e4 k
    simp [h0]
  · rw [if_neg ht] at hbegin
    have htk := takeNext_spec (t := t) t.items [] { s with Root := t.addrs.head?, hasBegun := true }
      e2.holds.rep e2.holds.nodup e2.bst rfl rfl (by rw [addrs_items])
    refine ⟨s, _, _, _, e1, hbegin, by rw [hsz]; exact htk, ?_, ?_, by simp [next]⟩
    · rw [← keys_items]; exact e2.bst
    · intro k
      rw [← keys_items, e4]
      simp [keys]

/-! ## The methods `findLower` and `range_search` -/

theorem findLowerLoop_sim {H : Heap} {key : Int} (t : Tree) :
    ∀ (succ : Option Nat) (sk : Option (Nat × Int)) (fuel : Nat), Rep H succ t →
      t.size < fuel → succ = sk.map (fun x => x.1) →
      (∀ b bk, sk = some (b, bk) → ∃ n, H[b]? = some n ∧ n.Key = bk) →
      findLowerLoop H key fuel t.ptr = some (lowerT key t sk) := by
  induction t with
  | nil =>
    intro succ sk fuel _ hf _ _
    cases fuel with
    | zero => simp at hf
    | succ fuel => rfl
  | node a l k v h r ihl ihr =>
    intro succ sk fuel hrep hf hs hsk
    cases fuel with
    | zero => simp at hf
    | succ fuel =>
      obtain ⟨hc, hl, hr⟩ := hrep
      simp only [Tree.size] at hf
      simp only [findLowerLoop, ptr_node, hc, lowerT, cell_Key, cell_Left, cell_Right,
        cell_isThreaded]
      by_cases h1 : key = k
      · simp only [h1, if_true]
      · simp only [h1, if_false]
        by_cases h2 : key < k
        · simp only [h2, if_true]
          cases l with
          | nil => simp [goesLeft]
          | node la ll lk lv lh lr =>
            simp only [ptr_node, hl.1, cell_Key, cell_isThreaded, goesLeft]
            have := ihl (some a) (some (a, k)) fuel hl (by omega) rfl
              (by intro b bk hb; cases hb; exact ⟨_, hc, rfl⟩)
            rw [ptr_node] at this
            cases lr with
            | nil =>
              by_cases h3 : lk ≥ key
              · simp [h3, this]
              · simp [h3]
            | node x xl xk xv xh xr => simp [this]
        · simp only [h2, if_false]
          cases r with
          | nil =>
            cases sk with
            | none =>
              simp only [Option.map_none'] at hs
              subst hs
              simp
            | some p =>
              obtain ⟨b, bk⟩ := p
              simp only [Option.map_some'] at hs
              subst hs
              obtain ⟨n, hn, hk⟩ := hsk b bk rfl
              simp only [rflag_nil, Option.isSome_some, if_true, rlink_nil, rd_eq, hn, hk]
              split <;> rfl
          | node rb rl rk rv rh rr =>
            simp only [rflag_node, Bool.false_eq_true, if_false, rlink_node]
            exact ihr succ sk fuel hr (by omega) hs hsk

theorem find_skip {α : Type} (p : α → Bool) (L1 L2 : List α) (h : ∀ x ∈ L1, ¬ p x = true) :
    (L1 ++ L2).find? p = L2.find? p := by
  rw [List.find?_append, List.find?_eq_none.2 h]
  rfl

theorem find_stop {α : Type} (p : α → Bool) (L1 L2 : List α) (x : α) (h : p x = true) :
    (L1 ++ x :: L2).find? p = (L1 ++ [x]).find? p := by
  rw [List.find?_append, List.find?_append, List.find?_cons_of_pos _ h,
    List.find?_cons_of_pos _ h]

theorem keys_lt_of_sorted {l : Tree} {lk : Int} {a : Nat} {ll : Tree} {lv lh : Int}
    (hl : l = node a ll lk lv lh nil) (hB : l.keys.Pairwise (fun x y => x < y)) :
    ∀ x ∈ l.keys, x ≤ lk := by
  subst hl
  intro x hx
  simp only [keys, List.pairwise_append, List.mem_append, List.mem_cons, List.mem_singleton,
    List.append_nil, List.not_mem_nil, or_false] at hB hx
  rcases hx with hx | hx
  · exact le_of_lt (hB.2.2 x hx lk (by simp))
  · exact le_of_eq hx

/-- The result of `findLower` is the first node in inorder, the successor of the
subtree included, whose key is not below `key`. -/
theorem lowerT_spec {key : Int} (t : Tree) :
    ∀ (sk : Option (Nat × Int)), t.keys.Pairwise (fun x y => x < y) → (t = nil → sk = none) →
      lowerT key t sk =
        ((t.items.map (fun x => (x.1, x.2.1)) ++ sk.toList).find?
          (fun x => decide (key ≤ x.2))).map (fun x => x.1) := by
  induction t with
  | nil =>
    intro sk _ hs
    rw [hs rfl]
    rfl
  | node a l k v h r ihl ihr =>
    intro sk hB _
    simp only [keys, List.pairwise_append, List.pairwise_cons, List.mem_cons] at hB
    obtain ⟨b1, ⟨b2, b3⟩, b4⟩ := hB
    have hlk : ∀ x ∈ l.items.map (fun x => (x.1, x.2.1)), x.2 < k := by
      intro x hx
      simp only [List.mem_map] at hx
      obtain ⟨y, hy, rfl⟩ := hx
      exact b4 _ (mem_keys_items.2 ⟨y, hy, rfl⟩) k (Or.inl rfl)
    simp only [lowerT, items, List.map_append, List.map_cons, List.append_assoc,
      List.cons_append]
    by_cases h1 : key = k
    · subst h1
      simp only [if_true]
      rw [find_skip _ _ _ (by intro x hx; have := hlk x hx; simp; omega)]
      simp
    · simp only [h1, if_false]
      by_cases h2 : key < k
      · simp only [h2, if_true]
        rw [find_stop _ _ _ (a, k) (by simp; omega)]
        by_cases h3 : goesLeft key l = true
        · simp only [h3, if_true]
          rw [ihl (some (a, k)) b1 (by intro h0; subst h0; simp [goesLeft] at h3)]
          rfl
        · simp only [h3, if_false, Bool.false_eq_true]
          rw [find_skip _ _ _ ?_]
          · simp; omega
          · intro x hx
            cases l with
            | nil => simp [items] at hx
            | node la ll lk lv lh lr =>
              cases lr with
              | node _ _ _ _ _ _ => simp [goesLeft] at h3
              | nil =>
                simp only [goesLeft, Bool.or_false, decide_eq_true_eq, not_le, ge_iff_le] at h3
                simp only [List.mem_map] at hx
                obtain ⟨y, hy, rfl⟩ := hx
                have := keys_lt_of_sorted rfl b1 _ (mem_keys_items.2 ⟨y, hy, rfl⟩)
                simp only [decide_eq_true_eq, not_le]
                omega
      · simp only [h2, if_false]
        have h3 : k < key := by omega
        rw [find_skip _ _ _ (by intro x hx; have := hlk x hx; simp; omega)]
        rw [List.find?_cons_of_neg _ (by simp; omega)]
        cases r with
        | nil =>
          cases sk with
          | none => rfl
          | some p =>
            obtain ⟨b, bk⟩ := p
            simp only [items, List.map_nil, List.nil_append, Option.toList, ge_iff_le]
            by_cases h4 : key ≤ bk
            · simp [h4]
            · simp [h4]
        | node rb rl rk rv rh rr =>
          simp only []
          rw [ihr sk b3 (by intro h0; cases h0)]

theorem rangeLoop_spec {H : Heap} {t : Tree} (upper : Int) (hrep : Rep H none t)
    (hnd : t.addrs.Nodup) (hB : t.keys.Pairwise (fun x y => x < y)) :
    ∀ (post pre : List (Nat × Int × Int)) (fuel : Nat) (acc : List Int),
      t.items = pre ++ post → post.length < fuel →
      rangeLoop H upper fuel (post.map (fun x => x.1)).head? acc =
        some (acc ++ (post.map (fun x => x.2.1)).takeWhile (fun k => decide (k ≤ upper))) := by
  intro post
  induction post with
  | nil =>
    intro pre fuel acc _ hf
    cases fuel with
    | zero => simp at hf
    | succ fuel => simp [rangeLoop]
  | cons x post ih =>
    intro pre fuel acc he hf
    cases fuel with
    | zero => simp at hf
    | succ fuel =>
      obtain ⟨n, hn, hk, _⟩ := rep_mem_cell t none hrep x (by rw [he]; simp)
      have hx := nextRange_spec t none hrep hnd hB (by intro b hb; cases hb) pre x post he
      simp only [Option.toList, List.append_nil] at hx
      simp only [List.map_cons, List.head?_cons, rangeLoop, hn, hk, hx]
      by_cases h1 : x.2.1 ≤ upper
      · simp only [h1, if_true]
        rw [ih (pre ++ [x]) fuel (acc ++ [x.2.1]) (by simp [he])
          (by simp only [List.length_cons] at hf; omega)]
        simp [List.takeWhile_cons, h1]
      · simp [h1, List.takeWhile_cons]

theorem find_dropWhile (lo : Int) :
    ∀ (L : List (Nat × Int × Int)),
      ((L.map (fun x => (x.1, x.2.1))).find? (fun x => decide (lo ≤ x.2))).map (fun x => x.1) =
        ((L.dropWhile (fun x => decide (x.2.1 < lo))).map (fun x => x.1)).head? := by
  intro L
  induction L with
  | nil => rfl
  | cons x L ih =>
    by_cases h : x.2.1 < lo
    · rw [List.map_cons, List.find?_cons_of_neg _ (by simp; omega), ih,
        List.dropWhile_cons_of_pos (by simpa using h)]
    · rw [List.map_cons, List.find?_cons_of_pos _ (by simp; omega),
        List.dropWhile_cons_of_neg (by simpa using h)]
      rfl

theorem dropWhile_map_key (lo : Int) :
    ∀ (L : List (Nat × Int × Int)),
      (L.dropWhile (fun x => decide (x.2.1 < lo))).map (fun x => x.2.1) =
        (L.map (fun x => x.2.1)).dropWhile (fun k => decide (k < lo)) := by
  intro L
  induction L with
  | nil => rfl
  | cons x L ih =>
    by_cases h : x.2.1 < lo
    · rw [List.dropWhile_cons_of_pos (by simpa using h), List.map_cons,
        List.dropWhile_cons_of_pos (by simpa using h), ih]
    · rw [List.dropWhile_cons_of_neg (by simpa using h), List.map_cons,
        List.dropWhile_cons_of_neg (by simpa using h)]

theorem mem_dropWhile_sorted (lo : Int) :
    ∀ (L : List Int), L.Pairwise (fun x y => x < y) →
      ∀ k, k ∈ L.dropWhile (fun k => decide (k < lo)) ↔ k ∈ L ∧ lo ≤ k := by
  intro L
  induction L with
  | nil => intro _ k; simp
  | cons x L ih =>
    intro hs k
    rw [List.pairwise_cons] at hs
    by_cases h : x < lo
    · rw [List.dropWhile_cons_of_pos (by simpa using h), ih hs.2, List.mem_cons]
      constructor
      · rintro ⟨h1, h2⟩; exact ⟨Or.inr h1, h2⟩
      · rintro ⟨h1 | h1, h2⟩
        · omega
        · exact ⟨h1, h2⟩
    · rw [List.dropWhile_cons_of_neg (by simpa using h), List.mem_cons]
      constructor
      · rintro (h1 | h1)
        · exact ⟨Or.inl h1, by omega⟩
        · exact ⟨Or.inr h1, by have := hs.1 k h1; omega⟩
      · rintro ⟨h1, _⟩; exact h1

theorem mem_takeWhile_sorted (hi : Int) :
    ∀ (L : List Int), L.Pairwise (fun x y => x < y) →
      ∀ k, k ∈ L.takeWhile (fun k => decide (k ≤ hi)) ↔ k ∈ L ∧ k ≤ hi := by
  intro L
  induction L with
  | nil => intro _ k; simp
  | cons x L ih =>
    intro hs k
    rw [List.pairwise_cons] at hs
    by_cases h : x ≤ hi
    · rw [List.takeWhile_cons_of_pos (by simpa using h), List.mem_cons, ih hs.2, List.mem_cons]
      constructor
      · rintro (h1 | ⟨h1, h2⟩)
        · exact ⟨Or.inl h1, by omega⟩
        · exact ⟨Or.inr h1, h2⟩
      · rintro ⟨h1 | h1, h2⟩
        · exact Or.inl h1
        · exact Or.inr ⟨h1, h2⟩
    · rw [List.takeWhile_cons_of_neg (by simpa using h), List.mem_cons]
      constructor
      · intro h1; simp at h1
      · rintro ⟨h1 | h1, h2⟩
        · omega
        · have := hs.1 k h1; omega

theorem rangeOf_spec (lo hi : Int) (L : List Int) (hs : L.Pairwise (fun x y => x < y)) :
    (rangeOf lo hi L).Pairwise (fun x y => x < y) ∧
      ∀ k, k ∈ rangeOf lo hi L ↔ k ∈ L ∧ lo ≤ k ∧ k ≤ hi := by
  have h1 : (L.dropWhile (fun k => decide (k < lo))).Pairwise (fun x y => x < y) :=
    hs.sublist (List.dropWhile_sublist _)
  refine ⟨h1.sublist (List.takeWhile_sublist _), ?_⟩
  intro k
  unfold rangeOf
  rw [mem_takeWhile_sorted hi _ h1, mem_dropWhile_sorted lo _ hs, and_assoc]

theorem range_search_spec {s : avlt} {t : Tree} (h : Inv s t) (hr : s.Root = s.ogRoot)
    (lo hi : Int) : range_search s lo hi = some (rangeOf lo hi t.keys) := by
  unfold range_search
  cases t with
  | nil =>
    rw [hr, h.holds.og]
    rfl
  | node a l k v h0 r =>
    have hlen := h.holds.len
    have e1 : findLower s lo = some (lowerT lo (node a l k v h0 r) none) := by
      unfold findLower
      rw [hr, h.holds.og]
      exact findLowerLoop_sim (node a l k v h0 r) none none _ h.holds.rep (by omega) rfl
        (by intro b bk hb; cases hb)
    rw [hr, h.holds.og, ptr_node]
    simp only [e1]
    rw [lowerT_spec (node a l k v h0 r) none h.bst (by intro h0; cases h0)]
    simp only [Option.toList, List.append_nil]
    rw [find_dropWhile]
    have hsplit := List.takeWhile_append_dropWhile (fun x => decide (x.2.1 < lo))
      (node a l k v h0 r).items
    have hkeys : rangeOf lo hi (node a l k v h0 r).keys =
        (((node a l k v h0 r).items.dropWhile (fun x => decide (x.2.1 < lo))).map
          (fun x => x.2.1)).takeWhile (fun k => decide (k ≤ hi)) := by
      rw [dropWhile_map_key, ← keys_items]
      rfl
    rw [hkeys]
    generalize hpost : (node a l k v h0 r).items.dropWhile (fun x => decide (x.2.1 < lo)) = post
      at hsplit
    cases post with
    | nil => rfl
    | cons x post =>
      obtain ⟨n, hn, hk, _⟩ := rep_mem_cell _ none h.holds.rep x (by rw [← hsplit]; simp)
      have hx : ¬ x.2.1 < lo := by
        have := List.head_dropWhile_not (fun x => decide (x.2.1 < lo))
          (node a l k v h0 r).items (by rw [hpost]; simp)
        simp only [hpost, List.head_cons] at this
        simpa using this
      simp only [List.map_cons, List.head?_cons, hn, hk, hx, if_false]
      have := rangeLoop_spec hi h.holds.rep h.holds.nodup h.bst (x :: post) _
        (s.heap.length + 1) [] hsplit.symm
        (by
          have h1 : ((node a l k v h0 r).items).length = s.heap.length := by
            rw [hlen, size_items]
          rw [← hsplit, List.length_append] at h1
          omega)
      simpa using this

/-- The example of the specification: after inserting 5, 3, 8, 1, 4, 7, 9 the call
`range_search(4, 8)` returns `[4, 5, 7, 8]`. -/
theorem range_search_example :
    (build [(5, 0), (3, 0), (8, 0), (1, 0), (4, 0), (7, 0), (9, 0)]).bind
      (fun s => range_search s 4 8) = some [4, 5, 7, 8] := by
  rfl

/-- Claim C2 (range search): on a structure built by insertions, for all bounds
`lo` and `hi` (in particular for `lo ≤ hi`), `range_search lo hi` returns a strictly
ascending list that holds exactly the inserted keys `k` with `lo ≤ k ≤ hi`; it is
empty when the structure is empty. -/
theorem C2_range_search (ops : List (Int × Int)) (lo hi : Int) :
    ∃ s L, build ops = some s ∧ range_search s lo hi = some L ∧
      L.Pairwise (fun x y => x < y) ∧
      (∀ k, k ∈ L ↔ (k ∈ ops.map Prod.fst ∧ lo ≤ k ∧ k ≤ hi)) ∧
      (ops = [] → L = []) := by
  obtain ⟨s, t, e1, e2, _, e4, e5⟩ := build_inv ops
  have hspec := rangeOf_spec lo hi t.keys e2.bst
  refine ⟨s, _, e1, range_search_spec e2 e4 lo hi, hspec.1, ?_, ?_⟩
  · intro k
    rw [hspec.2, build_keys ops e5]
  · intro h0
    subst h0
    have : ∀ k, k ∉ rangeOf lo hi t.keys := by
      intro k hk
      have := (hspec.2 k).1 hk
      rw [build_keys [] e5] at this
      simp at this
    exact List.eq_nil_iff_forall_not_mem.2 this

/-! ## The copy constructor and the assignment -/

theorem inOrder_shapeOf (H : Heap) :
    ∀ (fuel : Nat) (p : Option Nat), inOrder H fuel p = (shapeOf H fuel p).map linesOf := by
  intro fuel
  induction fuel with
  | zero => intro p; rfl
  | succ fuel ih =>
    intro p
    cases p with
    | none => rfl
    | some a =>
      simp only [inOrder, shapeOf]
      cases H[a]? with
      | none => rfl
      | some n =>
        simp only [ih]
        cases shapeOf H fuel n.Left with
        | none => rfl
        | some ls =>
          by_cases ht : n.isThreaded = true
          · simp only [ht, if_true, Option.map_some', Option.bind_eq_bind, Option.some_bind]
            cases rd H n.Right with
            | none => rfl
            | some r => simp [linesOf]
          · simp only [ht, if_false, Option.map_some', Option.bind_eq_bind, Option.some_bind,
              Bool.false_eq_true]
            cases shapeOf H fuel n.Right with
            | none => rfl
            | some rs => simp [linesOf]

theorem shapeOf_rep {H : Heap} (t : Tree) :
    ∀ (succ : Option Nat) (sk : Option (Nat × Int)) (fuel : Nat), Rep H succ t →
      t.size < fuel → succ = sk.map (fun x => x.1) →
      (∀ b bk, sk = some (b, bk) → ∃ n, H[b]? = some n ∧ n.Key = bk) →
      shapeOf H fuel t.ptr = some (t.shape (sk.map (fun x => x.2))) := by
  induction t with
  | nil =>
    intro succ sk fuel _ hf _ _
    cases fuel with
    | zero => simp at hf
    | succ fuel => rfl
  | node a l k v h r ihl ihr =>
    intro succ sk fuel hrep hf hs hsk
    cases fuel with
    | zero => simp at hf
    | succ fuel =>
      obtain ⟨hc, hl, hr⟩ := hrep
      simp only [Tree.size] at hf
      have h1 := ihl (some a) (some (a, k)) fuel hl (by omega) rfl
        (by intro b bk hb; cases hb; exact ⟨_, hc, rfl⟩)
      have h2 := ihr succ sk fuel hr (by omega) hs hsk
      simp only [shapeOf, ptr_node, hc, cell_Key, cell_Left, cell_Right, cell_isThreaded,
        cell_Value, cell_Height, h1, Tree.shape, Option.map_some', Option.bind_eq_bind,
        Option.some_bind]
      cases r with
      | node rb rl rk rv rh rr =>
        simp only [rflag_node, Bool.false_eq_true, if_false, rlink_node]
        rw [ptr_node] at h2
        simp [h2]
      | nil =>
        cases sk with
        | none =>
          simp only [Option.map_none'] at hs
          subst hs
          simp only [rflag_nil, Option.isSome_none, Bool.false_eq_true, if_false, rlink_nil,
            Option.map_none']
          cases fuel with
          | zero => omega
          | succ fuel => simp [shapeOf, Tree.shape]
        | some p =>
          obtain ⟨b, bk⟩ := p
          simp only [Option.map_some'] at hs
          subst hs
          obtain ⟨n, hn, hk⟩ := hsk b bk rfl
          simp [rd_eq, hn, hk]

theorem shape_relabel (t : Tree) : ∀ (n : Nat) (sk : Option Int), (relabel n t).shape sk = t.shape sk := by
  induction t with
  | nil => intro n sk; rfl
  | node a l k v h r ihl ihr =>
    intro n sk
    simp only [relabel, Tree.shape, ihl, ihr]
    cases r <;> rfl

theorem size_relabel (t : Tree) : ∀ (n : Nat), (relabel n t).size = t.size := by
  induction t with
  | nil => intro n; rfl
  | node a l k v h r ihl ihr => intro n; simp only [relabel, Tree.size, ihl, ihr]

theorem ht_relabel (t : Tree) (n : Nat) : (relabel n t).ht = t.ht := by
  cases t <;> rfl

theorem keys_relabel (t : Tree) : ∀ (n : Nat), (relabel n t).keys = t.keys := by
  induction t with
  | nil => intro n; rfl
  | node a l k v h r ihl ihr => intro n; simp only [relabel, keys, ihl, ihr]

theorem avl_relabel (t : Tree) : ∀ (n : Nat), Avl (relabel n t) ↔ Avl t := by
  induction t with
  | nil => intro n; rfl
  | node a l k v h r ihl ihr =>
    intro n
    simp only [relabel, Avl, ihl, ihr, ht_relabel]

theorem pathT_routed {key : Int} (ctx : List Frame) :
    ∀ (t : Tree), Routes key ctx → pathT key (plugAll ctx t) [] = pathT key t ctx := by
  induction ctx with
  | nil => intro t _; rfl
  | cons f rest ih =>
    intro t hr
    have hrest : Routes key rest := fun g hg => hr g (List.mem_cons_of_mem _ hg)
    have hkf := hr f (List.mem_cons_self _ _)
    rw [plugAll, ih _ hrest]
    obtain ⟨fl, fa, fk, fv, fh, fs⟩ := f
    cases fl with
    | true =>
      simp only [if_true] at hkf
      simp only [Frame.plug, if_true, pathT, hkf, ne_of_lt hkf, if_false]
    | false =>
      simp only [if_false, Bool.false_eq_true] at hkf
      simp only [Frame.plug, if_false, Bool.false_eq_true, pathT, not_lt_of_gt hkf,
        (ne_of_lt hkf).symm, if_false]

theorem copy_insert_sim (d : avlt) (key value h : Int) (ctx : List Frame)
    (hd : Holds d (plugAll ctx nil)) (hr : Routes key ctx) (hroot : d.Root = d.ogRoot) :
    ∃ d1, copy_insert d key value h = some d1 ∧
      Holds d1 (plugAll ctx (node d.heap.length nil key value h nil)) ∧
      d1.heap.length = d.heap.length + 1 ∧ d1.Root = d1.ogRoot := by
  obtain ⟨hrep, hnd, hog, hlen, hsz⟩ := hd
  have hp : pathT key (plugAll ctx nil) [] = some ctx := by
    rw [pathT_routed ctx nil hr]; rfl
  have hloop := @insertLoop_sim d.heap key (plugAll ctx nil) none [] (d.heap.length + 1)
    false false hrep (by omega) (by cases (plugAll ctx nil) <;> simp [flagsOf])
  rw [← hog, hp] at hloop
  simp only [stackOf_nil, stackTop_nil] at hloop
  obtain ⟨s1, e1, r1, l1, z1, b1, o1, o2⟩ := linkNew_sim d key value h ctx hrep hnd
  have hnew : d.heap.length ∉ (plugAll ctx nil).addrs :=
    fun hc => Nat.lt_irrefl _ (rep_lt hrep _ hc)
  have hnd1 : (plugAll ctx (node d.heap.length nil key value h nil)).addrs.Nodup := by
    rw [addrs_items, items_plugAll] at hnd hnew
    rw [addrs_items, items_plugAll]
    simp only [items, List.nil_append, List.append_nil, List.map_append, List.map_cons,
      List.map_nil, List.append_assoc, List.singleton_append] at hnd hnew ⊢
    rw [List.nodup_middle]
    exact List.nodup_cons.2 ⟨hnew, hnd⟩
  have hsize : (plugAll ctx (node d.heap.length nil key value h nil)).size =
      (plugAll ctx nil).size + 1 := by
    rw [size_items, size_items, items_plugAll, items_plugAll]
    simp [items]
    omega
  refine ⟨s1, ?_, ⟨r1, hnd1, ?_, ?_, ?_⟩, l1, ?_⟩
  · simp [copy_insert, hloop, e1]
  · cases ctx with
    | nil => exact (o1 rfl).2
    | cons f rest =>
      rw [(o2 (by simp)).2, hog]
      exact ptr_plugAll_cons f rest _ _
  · rw [l1, hsize, ← hlen]
  · rw [z1, hsz, hsize]; push_cast; rfl
  · cases ctx with
    | nil => rw [(o1 rfl).1, (o1 rfl).2]
    | cons f rest => rw [(o2 (by simp)).1, (o2 (by simp)).2, hroot]

theorem insertCopy_sim {src : Heap} (t : Tree) :
    ∀ (succ : Option Nat) (ctx : List Frame) (fuel : Nat) (d : avlt), Rep src succ t →
      t.size < fuel → t.keys.Pairwise (fun x y => x < y) → (∀ x ∈ t.keys, Routes x ctx) →
      Holds d (plugAll ctx nil) → d.Root = d.ogRoot →
      ∃ d1, insertCopy src fuel t.ptr d = some d1 ∧
        Holds d1 (plugAll ctx (relabel d.heap.length t)) ∧
        d1.heap.length = d.heap.length + t.size ∧ d1.Root = d1.ogRoot := by
  induction t with
  | nil =>
    intro succ ctx fuel d _ hf _ _ hd hroot
    cases fuel with
    | zero => simp at hf
    | succ fuel => exact ⟨d, rfl, hd, rfl, hroot⟩
  | node a l k v h r ihl ihr =>
    intro succ ctx fuel d hrep hf hB hR hd hroot
    cases fuel with
    | zero => simp at hf
    | succ fuel =>
      obtain ⟨hc, hl, hr⟩ := hrep
      simp only [Tree.size] at hf
      simp only [keys, List.pairwise_append, List.pairwise_cons, List.mem_cons] at hB
      obtain ⟨b1, ⟨b2, b3⟩, b4⟩ := hB
      obtain ⟨d1, e1, hd1, l1, r1⟩ := copy_insert_sim d k v h ctx hd
        (hR k (by simp [keys])) hroot
      obtain ⟨d2, e2, hd2, l2, r2⟩ := ihl (some a)
        ({ left := true, a := d.heap.length, k := k, v := v, h := h, sib := nil } :: ctx)
        fuel d1 hl (by omega) b1
        (by
          intro x hx f hf
          rcases List.mem_cons.1 hf with rfl | hf
          · simpa using b4 x hx k (Or.inl rfl)
          · exact hR x (by simp [keys, hx]) f hf)
        hd1 r1
      rw [l1] at hd2
      obtain ⟨d3, e3, hd3, l3, r3⟩ := ihr succ
        ({ left := false, a := d.heap.length, k := k, v := v, h := h,
           sib := relabel (d.heap.length + 1) l } :: ctx)
        fuel d2 hr (by omega) b3
        (by
          intro x hx f hf
          rcases List.mem_cons.1 hf with rfl | hf
          · simpa using b2 x hx
          · exact hR x (by simp [keys, hx]) f hf)
        hd2 r2
      rw [l2, l1] at hd3
      simp only [insertCopy, ptr_node, hc, cell_Key, cell_Value, cell_Height, cell_Left,
        cell_Right, cell_isThreaded, e1, e2, Option.bind_eq_bind, Option.some_bind]
      cases r with
      | node rb rl rk rv rh rr =>
        simp only [rflag_node, if_true, rlink_node]
        rw [ptr_node] at e3
        refine ⟨d3, e3, ?_, ?_, r3⟩
        · exact hd3
        · rw [l3, l2, l1]; simp only [Tree.size]; omega
      | nil =>
        refine ⟨d2, ?_, ?_, ?_, r2⟩
        · cases hs : succ.isSome with
          | true => simp [rflag_nil, hs]
          | false =>
            simp only [rflag_nil, hs, if_true, rlink_nil]
            have : succ = none := by cases succ <;> simp_all
            rw [this]
            cases fuel with
            | zero => omega
            | succ fuel => rfl
        · exact hd2
        · rw [l2, l1]; simp only [Tree.size]; omega

theorem clearTree_sim {H : Heap} (t : Tree) :
    ∀ (succ : Option Nat) (fuel : Nat), Rep H succ t → t.size < fuel →
      ∃ L, clearTree H fuel t.ptr = some L := by
  induction t with
  | nil =>
    intro succ fuel _ hf
    cases fuel with
    | zero => simp at hf
    | succ fuel => exact ⟨[], rfl⟩
  | node a l k v h r ihl ihr =>
    intro succ fuel hrep hf
    cases fuel with
    | zero => simp at hf
    | succ fuel =>
      obtain ⟨hc, hl, hr⟩ := hrep
      simp only [Tree.size] at hf
      obtain ⟨L1, e1⟩ := ihl (some a) fuel hl (by omega)
      obtain ⟨L2, e2⟩ := ihr succ fuel hr (by omega)
      simp only [clearTree, ptr_node, hc, cell_Left, cell_Right, cell_isThreaded, e1,
        Option.bind_eq_bind, Option.some_bind]
      cases r with
      | node rb rl rk rv rh rr =>
        rw [ptr_node] at e2
        simp [e2]
      | nil =>
        cases succ with
        | some b => simp
        | none =>
          cases fuel with
          | zero => omega
          | succ fuel => simp [clearTree]

theorem replay_spec {s : avlt} {t : Tree} (hs : Inv s t) (hr : s.Root = s.ogRoot) (d0 : avlt)
    (h0 : d0.heap = []) (h1 : d0.Root = none) (h2 : d0.ogRoot = none) (h3 : d0.Size = 0) :
    ∃ d, insertCopy s.heap (s.heap.length + 1) s.Root d0 = some d ∧
      Rep d.heap none (relabel 0 t) ∧ d.Root = (relabel 0 t).ptr ∧
      d.heap.length = t.size := by
  have hd0 : Holds d0 (plugAll [] nil) :=
    ⟨trivial, List.nodup_nil, h2, by rw [h0]; rfl, by rw [h3]; rfl⟩
  obtain ⟨d, e1, e2, e3, e4⟩ := insertCopy_sim t none [] (s.heap.length + 1) d0 hs.holds.rep
    (by rw [hs.holds.len]; omega) hs.bst (by intro x _ f hf; cases hf) hd0 (by rw [h1, h2])
  rw [h0] at e2 e3
  refine ⟨d, ?_, e2.rep, ?_, ?_⟩
  · rw [hr, hs.holds.og]; exact e1
  · rw [e4]; exact e2.og
  · simpa using e3

theorem height_spec {s : avlt} {t : Tree} (hrep : Rep s.heap none t) (hroot : s.Root = t.ptr) :
    height s = some t.ht := by
  unfold height
  rw [hroot]
  cases t with
  | nil => rfl
  | node a l k v h r => simp [hrep.1]

theorem dump_spec {s : avlt} {t : Tree} (hrep : Rep s.heap none t) (hroot : s.Root = t.ptr)
    (hog : s.ogRoot = t.ptr) (hlen : s.heap.length = t.size) :
    shapeOf s.heap (s.heap.length + 1) s.ogRoot = some (t.shape none) ∧
    dump s = some (["**************************************************",
         "********************* AVLT ***********************",
         "** size: " ++ toString s.Size,
         "** height: " ++ toString t.ht] ++ linesOf (t.shape none) ++
        ["**************************************************"]) := by
  have hsh : shapeOf s.heap (s.heap.length + 1) s.ogRoot = some (t.shape none) := by
    rw [hog]
    exact shapeOf_rep t none none _ hrep (by omega) rfl (by intro b bk hb; cases hb)
  refine ⟨hsh, ?_⟩
  unfold dump
  rw [height_spec hrep hroot, inOrder_shapeOf, hsh]
  rfl

/-- Copy fidelity between two objects: for a structure `s` built by insertions, the
copy constructor, and the assignment to another object `dst` left in any state by
earlier `insert`, `begin` and `next` calls, both return a structure in which the same
observation is made as in `s`: the same shape and at every node the same key, value,
stored height, threaded flag and thread target key. The size is the one of `s`,
`dump` writes the same lines, and the copy, built by `copy_insert` alone (which has
no call of `checkBalance`, hence no rotation), is balanced with correct heights. -/
theorem copy_assign_distinct (ops : List (Int × Int)) (ops2 : List Op) :
    ∃ s dst c a sh lines, build ops = some s ∧ run empty ops2 = some dst ∧
      copy s = some c ∧ assign dst (some s) = some a ∧
      shapeOf s.heap (s.heap.length + 1) s.ogRoot = some sh ∧
      shapeOf c.heap (c.heap.length + 1) c.ogRoot = some sh ∧
      shapeOf a.heap (a.heap.length + 1) a.ogRoot = some sh ∧
      size c = size s ∧ size a = size s ∧
      dump s = some lines ∧ dump c = some lines ∧ dump a = some lines ∧
      (∃ t, Tree.Rep c.heap none t ∧ c.ogRoot = t.ptr ∧ t.Balanced ∧ t.HeightsOk) ∧
      (∃ t, Tree.Rep a.heap none t ∧ a.ogRoot = t.ptr ∧ t.Balanced ∧ t.HeightsOk) := by
  obtain ⟨s, t, e1, e2, _, e4, _⟩ := build_inv ops
  obtain ⟨dst, t2, f1, f2, _, _⟩ := run_inv ops2 empty nil inv_empty (Or.inl rfl)
  obtain ⟨L, hL⟩ := clearTree_sim t2 none (dst.heap.length + 1) f2.holds.rep
    (by rw [f2.holds.len]; omega)
  rw [← f2.holds.og] at hL
  obtain ⟨d, g1, g2, g3, g4⟩ := replay_spec e2 e4
    { heap := [], Root := none, ogRoot := none, Size := 0, hasBegun := false } rfl rfl rfl rfl
  obtain ⟨d2, k1, k2, k3, k4⟩ := replay_spec e2 e4
    { heap := [], Root := none, ogRoot := none, Size := 0, hasBegun := dst.hasBegun }
    rfl rfl rfl rfl
  have hc : copy s = some { d with ogRoot := d.Root, Size := s.Size, hasBegun := s.hasBegun } := by
    simp [copy, g1]
  have ha : assign dst (some s) =
      some { d2 with ogRoot := d2.Root, Size := s.Size, hasBegun := s.hasBegun } := by
    simp [assign, clear, hL, k1]
  have hs := dump_spec e2.holds.rep (e4.trans e2.holds.og) e2.holds.og e2.holds.len
  have hcd := @dump_spec { d with ogRoot := d.Root, Size := s.Size, hasBegun := s.hasBegun }
    (relabel 0 t) g2 g3 g3 (by rw [size_relabel]; exact g4)
  have had := @dump_spec { d2 with ogRoot := d2.Root, Size := s.Size, hasBegun := s.hasBegun }
    (relabel 0 t) k2 k3 k3 (by rw [size_relabel]; exact k4)
  rw [shape_relabel, ht_relabel] at hcd had
  have hav : Avl (relabel 0 t) := (avl_relabel t 0).2 e2.avl
  exact ⟨s, dst, _, _, _, _, e1, f1, hc, ha, hs.1, hcd.1, had.1, rfl, rfl, hs.2, hcd.2, had.2,
    ⟨_, g2, g3, avl_balanced hav, avl_heightsOk hav⟩,
    ⟨_, k2, k3, avl_balanced hav, avl_heightsOk hav⟩⟩

/-- The copy of the tree built from 2, 1, 3 writes the same lines as the original. -/
theorem copy_example :
    (build [(2, 20), (1, 10), (3, 30)]).bind (fun s => (copy s).bind dump) =
      (build [(2, 20), (1, 10), (3, 30)]).bind dump := by
  rfl

/-- Self-assignment in any state reached by `insert`, `begin` and `next` calls:
`clear()` has emptied the object before `other.Root` is read, so nothing is copied;
the object is left empty, with `Size` 0 and `hasBegun` as it was. -/
theorem assign_self_spec (ops : List Op) :
    ∃ s, run empty ops = some s ∧
      assign s none = some { empty with hasBegun := s.hasBegun } := by
  obtain ⟨s, t, e1, e2, _, _⟩ := run_inv ops empty nil inv_empty (Or.inl rfl)
  obtain ⟨L, hL⟩ := clearTree_sim t none (s.heap.length + 1) e2.holds.rep
    (by rw [e2.holds.len]; omega)
  rw [← e2.holds.og] at hL
  refine ⟨s, e1, ?_⟩
  simp [assign, clear, hL, insertCopy, empty]

/-- Claim C7: after inserting 10, 20, 30 into `t`, the self-assignment `t = t` leaves
no node, a null root and `Size` 0, and `dump` writes only the header with size 0 and
height -1, while `dump` of `t` before wrote the three node lines; assigning `t` to
another (new) object gives the lines of `t`. -/
theorem C7_self_assignment :
    (build [(10, 1), (20, 2), (30, 3)]).bind (fun s => (assign s none).map
      (fun a => (a.heap.map (fun n => n.Key), a.ogRoot, size a))) = some ([], none, 0) ∧
    (build [(10, 1), (20, 2), (30, 3)]).bind (fun s => (assign s none).bind dump) =
      some ["**************************************************",
        "********************* AVLT ***********************",
        "** size: 0", "** height: -1",
        "**************************************************"] ∧
    (build [(10, 1), (20, 2), (30, 3)]).bind dump =
      some ["**************************************************",
        "********************* AVLT ***********************",
        "** size: 3", "** height: 1", "(10,1,0,20)", "(20,2,1)", "(30,3,0)",
        "**************************************************"] ∧
    (build [(10, 1), (20, 2), (30, 3)]).bind (fun s => (assign empty (some s)).bind dump) =
      (build [(10, 1), (20, 2), (30, 3)]).bind dump :=
  ⟨rfl, rfl, rfl, rfl⟩

/-! ## Threads -/

theorem holeSucc_head (ctx : List Frame) :
    holeSucc ctx = ((aftI ctx).map (fun x => x.1)).head? := by
  induction ctx with
  | nil => rfl
  | cons f rest ih =>
    unfold holeSucc aftI
    by_cases hl : f.left = true
    · simp [hl]
    · simp [hl, ih]

theorem last_key_max {t : Tree} (hB : t.keys.Pairwise (fun x y => x < y))
    (pre : List (Nat × Int × Int)) (x : Nat × Int × Int) (he : t.items = pre ++ [x]) :
    ∀ y ∈ t.keys, y ≤ x.2.1 := by
  rw [keys_items, he] at hB
  intro y hy
  rw [keys_items, he] at hy
  simp only [List.map_append, List.map_cons, List.map_nil, List.pairwise_append,
    List.mem_append, List.mem_singleton, List.mem_map] at hB hy
  rcases hy with ⟨z, hz, rfl⟩ | rfl
  · exact le_of_lt (hB.2.2 _ ⟨z, hz, rfl⟩ _ rfl)
  · exact le_refl _

/-- Claim C9, counterexample: in the structure that holds the single key 1, the node
has no right subtree, its right pointer is null and `isThreaded` is false. -/
theorem C9_counterexample :
    ∃ s n, build [(1, 0)] = some s ∧
      Tree.Rep s.heap none (Tree.node 0 Tree.nil 1 0 0 Tree.nil) ∧ s.ogRoot = some 0 ∧
      s.heap[0]? = some n ∧ n.Right = none ∧ n.isThreaded = false :=
  ⟨_, _, rfl, ⟨rfl, trivial, trivial⟩, rfl, rfl, rfl, rfl⟩

/-- Claim C9, amended: after a run of insertions, for every node of the tree (a node
`a` with subtrees `l`, `r` below the path `ctx`): with a right subtree it is not
threaded and `Right` is the child; without a right subtree and with a successor in
inorder it is threaded and `Right` points to that successor; without a right subtree
and without a successor (the node of the largest key, so also the single node of a
one-element structure) it is not threaded and `Right` is null. -/
theorem C9_threading (ops : List (Int × Int)) :
    ∃ s t, build ops = some s ∧ Tree.Rep s.heap none t ∧ s.ogRoot = t.ptr ∧
      ∀ ctx a l k v h r, t = plugAll ctx (Tree.node a l k v h r) →
        ∃ n, s.heap[a]? = some n ∧ n.Key = k ∧
          (r ≠ Tree.nil → n.isThreaded = false ∧ n.Right = r.ptr) ∧
          (r = Tree.nil → ∀ b rest, aftI ctx = b :: rest →
            n.isThreaded = true ∧ n.Right = some b.1) ∧
          (r = Tree.nil → aftI ctx = [] →
            n.isThreaded = false ∧ n.Right = none ∧ ∀ x ∈ ops.map Prod.fst, x ≤ k) := by
  obtain ⟨s, t, e1, e2, _, _, e5⟩ := build_inv ops
  refine ⟨s, t, e1, e2.holds.rep, e2.holds.og, ?_⟩
  intro ctx a l k v h r ht
  have hrep := e2.holds.rep
  rw [ht] at hrep
  have hc := (rep_hole ctx _ hrep).1
  refine ⟨_, hc, rfl, ?_, ?_, ?_⟩
  · intro hr
    cases r with
    | nil => exact absurd rfl hr
    | node rb rl rk rv rh rr => exact ⟨rfl, rfl⟩
  · intro hr b rest hb
    subst hr
    simp [cell, rflag, rlink, holeSucc_head, hb]
  · intro hr hb
    subst hr
    refine ⟨by simp [cell, rflag, holeSucc_head, hb], by simp [cell, rlink, holeSucc_head, hb], ?_⟩
    intro x hx
    have hi : t.items = (befI ctx ++ l.items) ++ [(a, k, v)] := by
      rw [ht, items_plugAll, hb]
      simp [items]
    exact last_key_max e2.bst _ _ hi x ((build_keys ops e5 x).2 hx)

/-! ## The method `height` -/

/-- Claim C10: after inserting 10, 20, 30 the method `height` returns 1, the stored
height of the root (key 20); after `begin()` it returns 0, the stored height of the
node of key 10 the cursor stands on. -/
theorem C10_height_after_begin :
    (build [(10, 1), (20, 2), (30, 3)]).bind height = some 1 ∧
    (build [(10, 1), (20, 2), (30, 3)]).bind (fun s => (begin s).bind height) = some 0 ∧
    (build [(10, 1), (20, 2), (30, 3)]).bind
      (fun s => (begin s).bind (fun s1 => assignHeight s1.heap s1.ogRoot)) = some 1 :=
  ⟨rfl, rfl, rfl⟩

/-! ## Methods that read the cursor `Root` -/

/-- Claim C11: after inserting 10, 20, 30 the call `search(30)` reports found with the
stored value 3; after `begin()`, which moves `Root` to the node of key 10,
`search(30)` reports not found and leaves the value parameter as it was. -/
theorem C11_search_after_begin :
    (run empty [Op.ins 10 1, Op.ins 20 2, Op.ins 30 3]).bind (fun s => search s 30 0) =
      some (true, 3) ∧
    (run empty [Op.ins 10 1, Op.ins 20 2, Op.ins 30 3, Op.beg]).bind
      (fun s => search s 30 0) = some (false, 0) :=
  ⟨rfl, rfl⟩

/-- Claim C12: after inserting 10, 20, 30 the call `range_search(10, 30)` returns
`[10, 20, 30]`, also in the middle of a traversal; once `next()` has run past the
last key (`Root` is null) it returns the empty list. -/
theorem C12_range_search_after_traversal :
    (run empty [Op.ins 10 1, Op.ins 20 2, Op.ins 30 3]).bind
      (fun s => range_search s 10 30) = some [10, 20, 30] ∧
    (run empty [Op.ins 10 1, Op.ins 20 2, Op.ins 30 3, Op.beg, Op.nxt]).bind
      (fun s => range_search s 10 30) = some [10, 20, 30] ∧
    (run empty [Op.ins 10 1, Op.ins 20 2, Op.ins 30 3, Op.beg, Op.nxt, Op.nxt, Op.nxt,
      Op.nxt]).bind (fun s => range_search s 10 30) = some [] :=
  ⟨rfl, rfl, rfl⟩

/-- Claim C13: after inserting 10, 20, 30 and `begin()`, the copy constructor and the
assignment build a structure whose only node holds the key 10, with `Size` 3; with
the traversal exhausted the copy has no node at all, with `Size` 3. -/
theorem C13_copy_during_traversal :
    (run empty [Op.ins 10 1, Op.ins 20 2, Op.ins 30 3, Op.beg]).bind
      (fun s => (copy s).map (fun c => (c.heap.map (fun n => n.Key), size c))) =
      some ([10], 3) ∧
    (run empty [Op.ins 10 1, Op.ins 20 2, Op.ins 30 3, Op.beg]).bind
      (fun s => (assign empty (some s)).map
        (fun c => (c.heap.map (fun n => n.Key), size c))) =
      some ([10], 3) ∧
    (run empty [Op.ins 10 1, Op.ins 20 2, Op.ins 30 3, Op.beg]).bind
      (fun s => (copy s).bind (fun c => (begin c).bind (fun c1 =>
        (takeNext 1 c1).bind (fun r => (next r.2 0).map (fun q => (r.1, q.2.1)))))) =
      some ([10], false) ∧
    (run empty [Op.ins 10 1, Op.ins 20 2, Op.ins 30 3, Op.beg, Op.nxt, Op.nxt,
      Op.nxt]).bind
      (fun s => (copy s).map (fun c => (c.heap.map (fun n => n.Key), size c))) =
      some ([], 3) :=
  ⟨rfl, rfl, rfl, rfl⟩

/-! ## The method `operator[]` -/

theorem indexLoop_search (H : Heap) (key value : Int) :
    ∀ (fuel : Nat) (p : Option Nat),
      indexLoop H key fuel p =
        (searchLoop H key value fuel p).map (fun r => if r.1 then r.2 else 0) := by
  intro fuel
  induction fuel with
  | zero => intro p; rfl
  | succ fuel ih =>
    intro p
    cases p with
    | none => rfl
    | some c =>
      simp only [indexLoop, searchLoop]
      cases H[c]? with
      | none => rfl
      | some n =>
        simp only []
        by_cases h1 : key = n.Key
        · simp [h1]
        · by_cases h2 : key < n.Key
          · simp only [h1, h2, if_true, if_false, ih]
          · by_cases h3 : n.isThreaded = true
            · simp [h1, h2, h3]
            · have h4 : key > n.Key := by omega
              simp only [h1, h2, h3, h4, if_true, if_false, ih, Bool.false_eq_true]

/-- Claim C15: on a structure built by insertions `operator[]` returns a result for
every key: the value `search` returns when `search` reports found, and the default
value `0` when `search` reports not found. -/
theorem C15_index_agrees_with_search (ops : List (Int × Int)) (k v0 : Int) :
    ∃ s b v, build ops = some s ∧ search s k v0 = some (b, v) ∧
      operatorIndex s k = some (if b then v else 0) ∧
      (b = true ↔ k ∈ ops.map Prod.fst) := by
  obtain ⟨s, t, e1, e2, _, e4, e5⟩ := build_inv ops
  have hl : searchLoop s.heap k v0 (s.heap.length + 1) s.ogRoot =
      some (match lookupT k t with
        | some v => (true, v)
        | none => (false, v0)) := by
    rw [e2.holds.og]
    exact searchLoop_sim t none _ e2.holds.rep (by rw [e2.holds.len]; omega)
  have hs : search s k v0 = searchLoop s.heap k v0 (s.heap.length + 1) s.ogRoot := by
    unfold search
    rw [e4]
    cases h0 : s.ogRoot with
    | none => rfl
    | some a => rfl
  have hi : operatorIndex s k = (searchLoop s.heap k v0 (s.heap.length + 1) s.ogRoot).map
      (fun r => if r.1 then r.2 else 0) := indexLoop_search s.heap k v0 _ _
  rw [hl] at hs hi
  cases hq : lookupT k t with
  | none =>
    rw [hq] at hs hi
    refine ⟨s, false, v0, e1, hs, hi, ?_⟩
    constructor
    · intro h0; cases h0
    · intro hk
      rw [← build_keys ops e5, mem_keys_kvs] at hk
      obtain ⟨v, hv⟩ := hk
      rw [(lookupT_iff t e2.bst v).2 hv] at hq
      cases hq
  | some v =>
    rw [hq] at hs hi
    refine ⟨s, true, v, e1, hs, hi, ?_⟩
    constructor
    · intro _
      rw [← build_keys ops e5, mem_keys_kvs]
      exact ⟨v, (lookupT_iff t e2.bst v).1 hq⟩
    · intro _; rfl

/-! ## Calls of `next` out of a traversal -/

theorem nextTimes_false {s : avlt} {key : Int} (h : next s key = some (s, false, key)) :
    ∀ (n : Nat), nextTimes n s key = some (List.replicate n false, s, key) := by
  intro n
  induction n with
  | zero => rfl
  | succ n ih => simp [nextTimes, h, ih, List.replicate_succ]

theorem traverse_spec {s : avlt} {t : Tree} (h : Inv s t) (hc : Cursor s t) :
    ∃ s1 s2, begin s = some s1 ∧ takeNext (size s).toNat s1 = some (t.keys, s2) ∧
      s2.Root = none := by
  have hsz : (size s).toNat = t.items.length := by
    unfold size
    rw [h.holds.size, size_items]
    simp
  have hbegin := begin_spec h.holds
  by_cases ht : t = nil
  · subst ht
    rw [if_pos rfl] at hbegin
    have hroot : s.Root = none := by
      rcases hc with h0 | ⟨a, ha, _⟩
      · exact h0
      · simp [addrs] at ha
    exact ⟨s, s, hbegin, by rw [hsz]; rfl, hroot⟩
  · rw [if_neg ht] at hbegin
    have htk := takeNext_spec (t := t) t.items [] { s with Root := t.addrs.head?, hasBegun := true }
      h.holds.rep h.holds.nodup h.bst rfl rfl (by rw [addrs_items])
    rw [← keys_items] at htk
    exact ⟨_, _, hbegin, by rw [hsz]; exact htk, rfl⟩

/-- Claim C16: on a structure built by insertions (the new structure included), on
which `begin()` was never called, `next()` returns false and leaves the structure
and the key parameter as they were, however often it is called; and once a
traversal has returned all keys, `next()` returns false again and again, leaving
the structure and the key parameter as they were. -/
theorem C16_next_misuse (ops : List (Int × Int)) (ops2 : List Op) (key0 : Int) (n : Nat) :
    (∃ s, build ops = some s ∧ next s key0 = some (s, false, key0) ∧
      nextTimes n s key0 = some (List.replicate n false, s, key0)) ∧
    (∃ s s1 L s2, run empty ops2 = some s ∧ begin s = some s1 ∧
      takeNext (size s).toNat s1 = some (L, s2) ∧
      next s2 key0 = some (s2, false, key0) ∧
      nextTimes n s2 key0 = some (List.replicate n false, s2, key0)) := by
  constructor
  · obtain ⟨s, t, e1, _, e3, _, _⟩ := build_inv ops
    have hn : next s key0 = some (s, false, key0) := by
      unfold next
      cases s.Root with
      | none => rfl
      | some a => simp [e3]
    exact ⟨s, e1, hn, nextTimes_false hn n⟩
  · obtain ⟨s, t, e1, e2, e3, _⟩ := run_inv ops2 empty nil inv_empty (Or.inl rfl)
    obtain ⟨s1, s2, f1, f2, f3⟩ := traverse_spec e2 e3
    have hn : next s2 key0 = some (s2, false, key0) := by simp [next, f3]
    exact ⟨s, s1, _, s2, e1, f1, f2, hn, nextTimes_false hn n⟩

/-! ## The method `clear` -/

/-- Claim C17: in every state reached by `insert`, `begin` and `next` calls, `clear()`
returns, and afterwards `size()` is 0, `height()` is -1, `search` reports not found
for every key (leaving the value parameter as it was), `range_search` returns the
empty list for all bounds, `begin()` changes nothing and `next()` returns false.
All members are those of a new structure except `hasBegun`, which keeps its value. -/
theorem C17_clear (ops : List Op) :
    ∃ s c, run empty ops = some s ∧ clear s = some c ∧
      c = { empty with hasBegun := s.hasBegun } ∧
      size c = 0 ∧ height c = some (-1) ∧
      (∀ k v0, search c k v0 = some (false, v0)) ∧
      (∀ lo hi, range_search c lo hi = some []) ∧
      begin c = some c ∧
      (∀ key0, next c key0 = some (c, false, key0)) := by
  obtain ⟨s, t, e1, e2, _, _⟩ := run_inv ops empty nil inv_empty (Or.inl rfl)
  obtain ⟨L, hL⟩ := clearTree_sim t none (s.heap.length + 1) e2.holds.rep
    (by rw [e2.holds.len]; omega)
  rw [← e2.holds.og] at hL
  refine ⟨s, { empty with hasBegun := s.hasBegun }, e1, ?_, rfl, rfl, rfl, ?_, ?_, rfl, ?_⟩
  · simp [clear, hL, empty]
  · intro k v0; rfl
  · intro lo hi; rfl
  · intro key0; rfl

/-! ## The method `operator()` -/

theorem callLoop_sim {H : Heap} {key : Int} (t : Tree) :
    ∀ (succ : Option Nat) (sk : Option (Nat × Int)) (fuel : Nat), Rep H succ t →
      t.size < fuel → succ = sk.map (fun x => x.1) →
      (∀ b bk, sk = some (b, bk) → ∃ n, H[b]? = some n ∧ n.Key = bk) →
      callLoop H key fuel t.ptr = some (callT key t (sk.map (fun x => x.2))) := by
  induction t with
  | nil =>
    intro succ sk fuel _ hf _ _
    cases fuel with
    | zero => simp at hf
    | succ fuel => rfl
  | node a l k v h r ihl ihr =>
    intro succ sk fuel hrep hf hs hsk
    cases fuel with
    | zero => simp at hf
    | succ fuel =>
      obtain ⟨hc, hl, hr⟩ := hrep
      simp only [Tree.size] at hf
      simp only [callLoop, ptr_node, hc, callT, cell_Key, cell_Left, cell_Right,
        cell_isThreaded]
      by_cases h1 : key = k
      · simp only [h1, if_true]
        cases r with
        | node rb rl rk rv rh rr => simp [rlink_node, hr.1]
        | nil =>
          cases sk with
          | none =>
            simp only [Option.map_none'] at hs
            subst hs
            simp
          | some p =>
            obtain ⟨b, bk⟩ := p
            simp only [Option.map_some'] at hs
            subst hs
            obtain ⟨n, hn, hk⟩ := hsk b bk rfl
            simp [hn, hk]
      · simp only [h1, if_false]
        by_cases h2 : key < k
        · simp only [h2, if_true]
          exact ihl (some a) (some (a, k)) fuel hl (by omega) rfl
            (by intro b bk hb; cases hb; exact ⟨_, hc, rfl⟩)
        · simp only [h2, if_false]
          cases r with
          | node rb rl rk rv rh rr =>
            simp only [rflag_node, Bool.false_eq_true, if_false, rlink_node]
            exact ihr succ sk fuel hr (by omega) hs hsk
          | nil =>
            cases sk with
            | none =>
              simp only [Option.map_none'] at hs
              subst hs
              simp only [rflag_nil, Option.isSome_none, Bool.false_eq_true, if_false, rlink_nil]
              cases fuel with
              | zero => omega
              | succ fuel => rfl
            | some p =>
              simp only [Option.map_some'] at hs
              subst hs
              simp

theorem routes_of_sorted (ctx : List Frame) :
    ∀ (t : Tree), (plugAll ctx t).keys.Pairwise (fun x y => x < y) →
      ∀ x ∈ t.keys, Routes x ctx := by
  induction ctx with
  | nil => intro t _ x _ f hf; cases hf
  | cons f rest ih =>
    intro t hB x hx g hg
    have hin : (f.plug t).keys.Pairwise (fun x y => x < y) := by
      have := hB
      rw [plugAll, keys_items, items_plugAll] at this
      rw [keys_items]
      simp only [List.map_append, List.pairwise_append] at this
      exact this.1.2.1
    have hxp : x ∈ (f.plug t).keys := by
      rw [plug_eq_node]
      by_cases hl : f.left = true <;> simp [hl, keys, hx]
    rcases List.mem_cons.1 hg with rfl | hg
    · rw [plug_eq_node] at hin
      by_cases hl : g.left = true
      · simp only [hl, if_true, keys, List.pairwise_append, List.mem_cons] at hin ⊢
        exact hin.2.2 x hx g.k (Or.inl rfl)
      · simp only [hl, if_false, Bool.false_eq_true, keys, List.pairwise_append,
          List.pairwise_cons] at hin ⊢
        exact hin.2.1.1 x hx
    · exact ih (f.plug t) hB x hxp g hg

theorem callT_routed {key : Int} (ctx : List Frame) :
    ∀ (t : Tree), Routes key ctx →
      callT key (plugAll ctx t) none =
        callT key t (((aftI ctx).map (fun x => x.2.1)).head?) := by
  induction ctx with
  | nil => intro t _; rfl
  | cons f rest ih =>
    intro t hr
    have hrest : Routes key rest := fun g hg => hr g (List.mem_cons_of_mem _ hg)
    have hkf := hr f (List.mem_cons_self _ _)
    rw [plugAll, ih _ hrest]
    obtain ⟨fl, fa, fk, fv, fh, fs⟩ := f
    cases fl with
    | true =>
      simp only [if_true] at hkf
      simp [Frame.plug, callT, hkf, ne_of_lt hkf, aftI]
    | false =>
      simp only [if_false, Bool.false_eq_true] at hkf
      simp only [Frame.plug, if_false, Bool.false_eq_true, callT, not_lt_of_gt hkf,
        (ne_of_lt hkf).symm, aftI, List.nil_append]
      cases t with
      | nil => rfl
      | node a l k v h r => rfl

theorem callT_absent {key : Int} (t : Tree) :
    ∀ (sk : Option Int), key ∉ t.keys → callT key t sk = 0 := by
  induction t with
  | nil => intro sk _; rfl
  | node a l k v h r ihl ihr =>
    intro sk hk
    simp only [keys, List.mem_append, List.mem_cons, not_or] at hk
    simp only [callT, hk.2.1, if_false]
    split
    · exact ihl _ hk.1
    · cases r with
      | nil => rfl
      | node rb rl rk rv rh rr => exact ihr _ hk.2.2

theorem operatorCall_spec {s : avlt} {t : Tree} (h : Inv s t) (key : Int) :
    operatorCall s key = some (callT key t none) := by
  unfold operatorCall
  rw [h.holds.og]
  cases t with
  | nil => rfl
  | node a l k v h0 r =>
    exact callLoop_sim (node a l k v h0 r) none none _ h.holds.rep
      (by rw [h.holds.len]; omega) rfl (by intro b bk hb; cases hb)

/-- Example: in the tree built from 5, 3, 8, 7 the call `operator()` returns 8 for 5
(the right child, while the next key is 7), 5 for 3 (the thread), 8 for 7 (the thread),
and the default 0 for the largest key 8 and for the absent key 6. -/
theorem operatorCall_example :
    (build [(5, 0), (3, 0), (8, 0), (7, 0)]).bind (fun s =>
      [5, 3, 7, 8, 6].mapM (operatorCall s)) = some [8, 5, 8, 0, 0] := by
  rfl

/-- Claim C14: on a structure built by insertions, `operator()` returns for a stored
key `k` (the node `a` with subtrees `l`, `r` below the path `ctx`): the key of the
right child when there is a right subtree; the key of the inorder successor (the
first node after the subtree in inorder) when there is no right subtree and there is a
successor, which is when the right pointer is a thread; the default key `0` when
there is neither (the largest key). For a key that is not stored it returns `0`. -/
theorem C14_right_neighbor (ops : List (Int × Int)) :
    ∃ s t, build ops = some s ∧ Tree.Rep s.heap none t ∧ s.ogRoot = t.ptr ∧
      (∀ k, k ∉ ops.map Prod.fst → operatorCall s k = some 0) ∧
      ∀ ctx a l k v h r, t = plugAll ctx (Tree.node a l k v h r) →
        k ∈ ops.map Prod.fst ∧
        (∃ n, s.heap[a]? = some n ∧ n.Key = k ∧
          (n.isThreaded = true ↔ r = Tree.nil ∧ aftI ctx ≠ [])) ∧
        (∀ rb rl rk rv rh rr, r = Tree.node rb rl rk rv rh rr →
          operatorCall s k = some rk) ∧
        (r = Tree.nil → ∀ b rest, aftI ctx = b :: rest →
          operatorCall s k = some b.2.1 ∧ k < b.2.1 ∧
          ∀ x ∈ ops.map Prod.fst, k < x → b.2.1 ≤ x) ∧
        (r = Tree.nil → aftI ctx = [] →
          operatorCall s k = some 0 ∧ ∀ x ∈ ops.map Prod.fst, x ≤ k) := by
  obtain ⟨s, t, e1, e2, _, _, e5⟩ := build_inv ops
  refine ⟨s, t, e1, e2.holds.rep, e2.holds.og, ?_, ?_⟩
  · intro k hk
    rw [operatorCall_spec e2, callT_absent t none (by rw [build_keys ops e5]; exact hk)]
  · intro ctx a l k v h r ht
    have hB := e2.bst
    rw [ht] at hB
    have hroute : Routes k ctx := routes_of_sorted ctx _ hB k (by simp [keys])
    have hcall : operatorCall s k =
        some (callT k (Tree.node a l k v h r) (((aftI ctx).map (fun x => x.2.1)).head?)) := by
      rw [operatorCall_spec e2, ht, callT_routed ctx _ hroute]
    have hitems : t.items = befI ctx ++ l.items ++ (a, k, v) :: (r.items ++ aftI ctx) := by
      rw [ht, items_plugAll]; simp [items]
    have hsorted := e2.bst
    rw [keys_items, hitems] at hsorted
    have hmem : ∀ x, x ∈ ops.map Prod.fst ↔ x ∈ t.items.map (fun y => y.2.1) := by
      intro x; rw [← build_keys ops e5, keys_items]
    refine ⟨?_, ?_, ?_, ?_, ?_⟩
    · rw [hmem, hitems]; simp
    · have hrep := e2.holds.rep
      rw [ht] at hrep
      refine ⟨_, (rep_hole ctx _ hrep).1, rfl, ?_⟩
      cases r with
      | node rb rl rk rv rh rr => simp [cell, rflag]
      | nil =>
        cases haft : aftI ctx with
        | nil => simp [cell, rflag, holeSucc_head, haft]
        | cons b rest => simp [cell, rflag, holeSucc_head, haft]
    · intro rb rl rk rv rh rr hr
      subst hr
      rw [hcall]; simp [callT]
    · intro hr b rest hb
      subst hr
      rw [hb] at hcall hsorted hitems
      simp only [items, List.nil_append, List.map_append, List.map_cons, List.pairwise_append,
        List.pairwise_cons, List.mem_cons, List.mem_map, List.mem_append] at hsorted
      refine ⟨by rw [hcall]; simp [callT], hsorted.2.1.1 _ (Or.inl rfl), ?_⟩
      intro x hx hkx
      rw [hmem, hitems] at hx
      simp only [items, List.nil_append, List.map_append, List.map_cons, List.mem_append,
        List.mem_cons, List.mem_map] at hx
      rcases hx with (⟨y, hy, rfl⟩ | ⟨y, hy, rfl⟩) | rfl | rfl | ⟨y, hy, rfl⟩
      · have := hsorted.2.2 y.2.1 (Or.inl ⟨y, hy, rfl⟩) k (Or.inl rfl); omega
      · have := hsorted.2.2 y.2.1 (Or.inr ⟨y, hy, rfl⟩) k (Or.inl rfl); omega
      · omega
      · exact le_refl _
      · exact le_of_lt (hsorted.2.1.2.1 _ ⟨y, hy, rfl⟩)
    · intro hr hb
      subst hr
      rw [hb] at hcall hitems
      refine ⟨by rw [hcall]; simp [callT], ?_⟩
      intro x hx
      rw [hmem] at hx
      have hi : t.items = (befI ctx ++ l.items) ++ [(a, k, v)] := by
        rw [hitems]; simp [items]
      rw [← keys_items] at hx
      exact last_key_max e2.bst _ _ hi x hx

/-! ## The lines of `dump` -/

theorem dumpRows_append (A B : List (Int × Int × Int × Bool)) (sk : Option Int) :
    dumpRows (A ++ B) sk =
      dumpRows A (match B with
        | [] => sk
        | y :: _ => some y.1) ++ dumpRows B sk := by
  induction A with
  | nil => rfl
  | cons x A ih =>
    cases A with
    | nil => cases B <;> rfl
    | cons y A =>
      show rowLine x (some y.1) :: dumpRows (y :: A ++ B) sk =
        rowLine x (some y.1) :: (dumpRows (y :: A) _ ++ dumpRows B sk)
      rw [ih]

theorem lines_nodes (t : Tree) :
    ∀ (sk : Option Int), linesOf (t.shape sk) = dumpRows (t.nodes sk.isSome) sk := by
  induction t with
  | nil => intro sk; rfl
  | node a l k v h r ihl ihr =>
    intro sk
    simp only [Tree.shape, Tree.nodes, dumpRows_append, dumpRows]
    cases r with
    | node rb rl rk rv rh rr =>
      have h1 := ihl (some k)
      have h2 := ihr sk
      simp only [Option.isSome_some] at h1
      simp only [rflag_node, Bool.false_eq_true, if_false, linesOf, h1, h2, rowLine]
      simp [Tree.nodes]
    | nil =>
      have h1 := ihl (some k)
      simp only [Option.isSome_some] at h1
      cases sk with
      | none =>
        simp [rflag_nil, linesOf, h1, rowLine, Tree.nodes, Tree.shape, dumpRows]
      | some x =>
        simp [rflag_nil, linesOf, h1, rowLine, Tree.nodes, dumpRows]

theorem nodes_kvs (t : Tree) :
    ∀ (b : Bool), (t.nodes b).map (fun x => (x.1, x.2.1)) = t.kvs := by
  induction t with
  | nil => intro b; rfl
  | node a l k v h r ihl ihr =>
    intro b
    simp [Tree.nodes, kvs, ihl, ihr]

theorem nodes_keys (t : Tree) (b : Bool) : (t.nodes b).map (fun x => x.1) = t.keys := by
  have h := congrArg (List.map Prod.fst) (nodes_kvs t b)
  rw [List.map_map] at h
  rw [keys_items, kvs_items, List.map_map] at *
  simpa [Function.comp] using h

theorem nodes_last (t : Tree) :
    ∀ x, (t.nodes false).getLast? = some x → x.2.2.2 = false := by
  induction t with
  | nil => intro x hx; simp [Tree.nodes] at hx
  | node a l k v h r _ ihr =>
    intro x hx
    cases r with
    | nil =>
      simp [Tree.nodes, List.getLast?_append] at hx
      rw [← hx]
    | node rb rl rk rv rh rr =>
      apply ihr x
      have hne : (Tree.nodes (node rb rl rk rv rh rr) false) ≠ [] := by simp [Tree.nodes]
      rw [Tree.nodes, ← List.singleton_append, ← List.append_assoc,
        List.getLast?_append_of_ne_nil _ hne] at hx
      exact hx

theorem nodes_rep {H : Heap} (t : Tree) :
    ∀ (succ : Option Nat), Rep H succ t → ∀ x ∈ t.nodes succ.isSome,
      ∃ (a : Nat) (n : NODE), H[a]? = some n ∧ n.Key = x.1 ∧ n.Value = x.2.1 ∧ n.Height = x.2.2.1 ∧
        n.isThreaded = x.2.2.2 := by
  induction t with
  | nil => intro succ _ x hx; simp [Tree.nodes] at hx
  | node a l k v h r ihl ihr =>
    intro succ hrep x hx
    obtain ⟨hc, hl, hr⟩ := hrep
    simp only [Tree.nodes, List.mem_append, List.mem_cons] at hx
    rcases hx with hx | rfl | hx
    · exact ihl (some a) hl x hx
    · refine ⟨a, _, hc, rfl, rfl, rfl, ?_⟩
      cases r <;> rfl
    · exact ihr succ hr x hx

/-- Claim C18: on a structure built by insertions `dump` writes the banner, the title,
the size line, the height line, then the lines of the nodes, then the banner. The
node lines are the lines of the stored nodes in strictly ascending key order, one
per inserted key: `(key,value,height,threadKey)` with the key listed next for a
threaded node, `(key,value,height)` for the others, among them the node of the
largest key. -/
theorem C18_dump_lines (ops : List (Int × Int)) :
    ∃ s nodes h, build ops = some s ∧ height s = some h ∧
      dump s = some (["**************************************************",
         "********************* AVLT ***********************",
         "** size: " ++ toString (size s),
         "** height: " ++ toString h] ++ dumpRows nodes none ++
        ["**************************************************"]) ∧
      (dumpRows nodes none).length = nodes.length ∧
      (nodes.map (fun x => x.1)).Pairwise (fun x y => x < y) ∧
      (∀ k, k ∈ nodes.map (fun x => x.1) ↔ k ∈ ops.map Prod.fst) ∧
      (∀ x ∈ nodes, ∃ (a : Nat) (n : NODE), s.heap[a]? = some n ∧ n.Key = x.1 ∧ n.Value = x.2.1 ∧
        n.Height = x.2.2.1 ∧ n.isThreaded = x.2.2.2) ∧
      (∀ pre x, nodes = pre ++ [x] → x.2.2.2 = false) := by
  obtain ⟨s, t, e1, e2, _, e4, e5⟩ := build_inv ops
  have hd := dump_spec e2.holds.rep (e4.trans e2.holds.og) e2.holds.og e2.holds.len
  have hlen : ∀ (L : List (Int × Int × Int × Bool)) (sk : Option Int),
      (dumpRows L sk).length = L.length := by
    intro L sk
    induction L with
    | nil => rfl
    | cons x L ih => simp [dumpRows, ih]
  refine ⟨s, t.nodes false, t.ht, e1, height_spec e2.holds.rep (e4.trans e2.holds.og), ?_,
    hlen _ _, ?_, ?_, ?_, ?_⟩
  · rw [hd.2, lines_nodes]; rfl
  · rw [nodes_keys]; exact e2.bst
  · intro k; rw [nodes_keys, build_keys ops e5]
  · exact nodes_rep t none e2.holds.rep
  · intro pre x hx
    exact nodes_last t x (by rw [hx]; simp)

/-- Example: the lines `dump` writes for the tree built from 2, 1, 3. -/
theorem dump_example :
    (build [(2, 20), (1, 10), (3, 30)]).bind dump =
      some ["**************************************************",
        "********************* AVLT ***********************",
        "** size: 3", "** height: 1", "(1,10,0,2)", "(2,20,1)", "(3,30,0)",
        "**************************************************"] := by
  rfl

/-! ## Every node with its path -/

theorem plugAll_append (c1 c2 : List Frame) (t : Tree) :
    plugAll (c1 ++ c2) t = plugAll c2 (plugAll c1 t) := by
  induction c1 generalizing t with
  | nil => rfl
  | cons f c1 ih => exact ih (f.plug t)

theorem mem_zipper (t : Tree) :
    ∀ a ∈ t.addrs, ∃ ctx l k v h r, t = plugAll ctx (node a l k v h r) := by
  induction t with
  | nil => intro a ha; simp [addrs] at ha
  | node a0 l0 k0 v0 h0 r0 ihl ihr =>
    intro a ha
    simp only [addrs, List.mem_append, List.mem_cons] at ha
    rcases ha with ha | rfl | ha
    · obtain ⟨ctx, l, k, v, h, r, he⟩ := ihl a ha
      refine ⟨ctx ++ [{ left := true, a := a0, k := k0, v := v0, h := h0, sib := r0 }],
        l, k, v, h, r, ?_⟩
      rw [plugAll_append, ← he]
      rfl
    · exact ⟨[], l0, k0, v0, h0, r0, rfl⟩
    · obtain ⟨ctx, l, k, v, h, r, he⟩ := ihr a ha
      refine ⟨ctx ++ [{ left := false, a := a0, k := k0, v := v0, h := h0, sib := l0 }],
        l, k, v, h, r, ?_⟩
      rw [plugAll_append, ← he]
      rfl

theorem all_addrs {s : avlt} {t : Tree} (h : Holds s t) :
    ∀ a, a < s.heap.length → a ∈ t.addrs := by
  have hsub : t.addrs ⊆ List.range s.heap.length := by
    intro b hb
    exact List.mem_range.2 (rep_lt h.rep b hb)
  have hlen : (List.range s.heap.length).length ≤ t.addrs.length := by
    rw [List.length_range, h.len, size_items, addrs_items, List.length_map]
  have hp := (List.subperm_of_subset h.nodup hsub).perm_of_length_le hlen
  intro a ha
  exact hp.mem_iff.2 (List.mem_range.2 ha)

theorem cell_key_mem {s : avlt} {t : Tree} (h : Holds s t) (c : Nat) (p : NODE)
    (hp : s.heap[c]? = some p) : ∃ x ∈ t.items, x.1 = c ∧ x.2.1 = p.Key := by
  have hc := all_addrs h c (get_lt hp)
  rw [addrs_items, List.mem_map] at hc
  obtain ⟨x, hx, hxc⟩ := hc
  obtain ⟨n, hn, hk, _⟩ := rep_mem_cell t none h.rep x hx
  rw [hxc, hp] at hn
  cases hn
  exact ⟨x, hx, hxc, hk.symm⟩

/-- Claim C19: on a structure built by insertions, every node with `isThreaded = true`
has a non-null `Right` pointer, and the node it points to holds the smallest key
greater than the key of the node; `dump` and `findLower`, which dereference the
`Right` pointer of threaded nodes, return (no null pointer is dereferenced). -/
theorem C19_threads (ops : List (Int × Int)) :
    ∃ s, build ops = some s ∧
      (∀ (a : Nat) (n : NODE), s.heap[a]? = some n → n.isThreaded = true →
        ∃ (b : Nat) (m : NODE), n.Right = some b ∧ s.heap[b]? = some m ∧ n.Key < m.Key ∧
          ∀ (c : Nat) (p : NODE), s.heap[c]? = some p → n.Key < p.Key → m.Key ≤ p.Key) ∧
      (∃ lines, dump s = some lines) ∧
      (∀ key, ∃ r, findLower s key = some r) := by
  obtain ⟨s, t, e1, e2, _, e4, e5⟩ := build_inv ops
  refine ⟨s, e1, ?_, ?_, ?_⟩
  · intro a n hn hthr
    obtain ⟨ctx, l, k, v, h, r, ht⟩ := mem_zipper t a (all_addrs e2.holds a (get_lt hn))
    have hrep := e2.holds.rep
    rw [ht] at hrep
    have hc := (rep_hole ctx _ hrep).1
    rw [hn] at hc
    cases hc
    cases r with
    | node rb rl rk rv rh rr => simp [cell, rflag] at hthr
    | nil =>
      cases haft : aftI ctx with
      | nil => simp [cell, rflag, holeSucc_head, haft] at hthr
      | cons b rest =>
        have hitems : t.items = befI ctx ++ l.items ++ (a, k, v) :: b :: rest := by
          rw [ht, items_plugAll, haft]; simp [items]
        obtain ⟨m, hm, hmk, _⟩ := rep_mem_cell t none e2.holds.rep b (by rw [hitems]; simp)
        have hsorted := e2.bst
        rw [keys_items, hitems] at hsorted
        simp only [List.map_append, List.map_cons, List.pairwise_append,
          List.pairwise_cons, List.mem_cons, List.mem_map, List.mem_append] at hsorted
        refine ⟨b.1, m, by simp [cell, rlink, holeSucc_head, haft], hm, ?_, ?_⟩
        · rw [hmk]; exact hsorted.2.1.1 _ (Or.inl rfl)
        · intro c p hp hlt
          obtain ⟨x, hx, _, hxk⟩ := cell_key_mem e2.holds c p hp
          rw [hmk, ← hxk]
          simp only [cell_Key] at hlt
          rw [← hxk] at hlt
          rw [hitems] at hx
          simp only [List.mem_append, List.mem_cons] at hx
          rcases hx with (hx | hx) | rfl | rfl | hx
          · have := hsorted.2.2 x.2.1 (Or.inl ⟨x, hx, rfl⟩) k (Or.inl rfl); omega
          · have := hsorted.2.2 x.2.1 (Or.inr ⟨x, hx, rfl⟩) k (Or.inl rfl); omega
          · simp at hlt
          · exact le_refl _
          · exact le_of_lt (hsorted.2.1.2.1 _ ⟨x, hx, rfl⟩)
  · exact ⟨_, (dump_spec e2.holds.rep (e4.trans e2.holds.og) e2.holds.og e2.holds.len).2⟩
  · intro key
    unfold findLower
    cases s.Root with
    | none => exact ⟨_, rfl⟩
    | some a0 =>
      simp only []
      rw [e2.holds.og]
      exact ⟨_, findLowerLoop_sim t none none _ e2.holds.rep (by rw [e2.holds.len]; omega) rfl
        (by intro b bk hb; cases hb)⟩

/-! ## The rotations in the whole structure -/

theorem stateTwo_built : build [(2, 0), (1, 0)] = some stateTwo := by
  rfl

/-- The facts on the parent of the subtree at the end of a path. -/
theorem parent_facts {s : avlt} (ctx : List Frame) (a : Nat) (l : Tree) (k v h : Int) (r : Tree)
    (hrep : Rep s.heap none (plugAll ctx (node a l k v h r)))
    (hnd : (plugAll ctx (node a l k v h r)).addrs.Nodup) :
    ∀ g rest1, ctx = g :: rest1 → g.a ∉ (node a l k v h r).addrs ∧
      s.heap[g.a]? = some (g.cellOf (node a l k v h r) (holeSucc rest1)) ∧
      g.sib.ptr ≠ some a ∧ rlink g.sib (holeSucc rest1) ≠ some a := by
  intro g rest1 he
  subst he
  have hg : Rep s.heap (holeSucc rest1) (g.plug (node a l k v h r)) := rep_hole rest1 _ hrep
  have hng := nodup_plug (nodup_hole rest1 _ hnd)
  have ha : a ∈ (node a l k v h r).addrs := mem_addrs_node.2 (Or.inr (Or.inl rfl))
  have hsa : a ∉ g.sib.addrs := hng.2.2.2.2 a ha
  refine ⟨hng.2.2.1, rep_plug_cell hg, ptr_ne_of_not_mem hsa, ?_⟩
  cases hsib : g.sib with
  | nil =>
    intro h0
    simp only [rlink_nil] at h0
    exact holeSucc_not_mem (t := g.plug (node a l k v h r)) hnd h0
      ((addrs_plug g _ a).2 (Or.inl ha))
  | node sa sl sk sv sh0 sr =>
    rw [hsib] at hsa
    simp only [rlink_node, ne_eq, Option.some.injEq]
    exact (root_ne hsa).1

theorem parent_ok {s : avlt} (ctx : List Frame) (a : Nat) (l : Tree) (k v h : Int) (r : Tree)
    (hrep : Rep s.heap none (plugAll ctx (node a l k v h r)))
    (hnd : (plugAll ctx (node a l k v h r)).addrs.Nodup) :
    ∀ p, stackTop (stackOf ctx) = some p →
      p ∉ (node a l k v h r).addrs ∧ ∃ pc, s.heap[p]? = some pc := by
  intro p hp
  cases ctx with
  | nil => cases hp
  | cons g rest1 =>
    simp only [stackOf_cons, stackTop_cons, Option.some.injEq] at hp
    subst hp
    obtain ⟨g1, g2, _, _⟩ := parent_facts (g :: rest1) a l k v h r hrep hnd g rest1 rfl
    exact ⟨g1, _, g2⟩

theorem step_whole {s s1 : avlt} (ctx : List Frame) (a : Nat) (l : Tree) (k v h : Int)
    (r : Tree) (T1 : Tree)
    (hrep : Rep s.heap none (plugAll ctx (node a l k v h r)))
    (hnd : (plugAll ctx (node a l k v h r)).addrs.Nodup)
    (hog : s.ogRoot = (plugAll ctx (node a l k v h r)).ptr)
    (hB : (plugAll ctx (node a l k v h r)).keys.Pairwise (fun x y => x < y))
    (st : StepOk s s1 (holeSucc ctx) (stackTop (stackOf ctx)) a (node a l k v h r) T1)
    (hit : T1.items = (node a l k v h r).items) :
    ∃ top, T1.ptr = some top ∧ Rotated s1 ctx (node a l k v h r) T1 top := by
  obtain ⟨top, htop⟩ := ptr_of_items hit ⟨a, rfl⟩
  have hparc := parent_facts ctx a l k v h r hrep hnd
  have hrep2 : Rep s1.heap none (plugAll ctx T1) := by
    refine rep_replace ctx (node a l k v h r) T1 hrep st.rep ?_ ?_ hnd
    · intro g rest1 he
      obtain ⟨g1, g2, g3, g4⟩ := hparc g rest1 he
      subst he
      obtain ⟨top1, htop1, hcell⟩ := st.parent g.a _ rfl g2
      rw [hcell, reparent_cellOf g a top1 l k v h r T1 _ htop1 g3 g4]
    · intro b _ hb2 hb3
      refine st.frame b hb2 ?_
      cases ctx with
      | nil => simp
      | cons g rest1 =>
        simp only [stackOf_cons, stackTop_cons, ne_eq, Option.some.injEq]
        exact hb3 g rest1 rfl
  have hog2 : s1.ogRoot = (plugAll ctx T1).ptr := by
    cases ctx with
    | nil =>
      rcases st.roots with h0 | h0
      · rw [h0.2.1]
        simp only [plugAll] at hog ⊢
        rw [hog, h0.2.2 rfl]; rfl
      · exact h0.2.2
    | cons g rest1 =>
      rcases st.roots with h0 | h0
      · rw [h0.2.1, hog]
        exact ptr_plugAll_cons g rest1 _ _
      · cases h0.1
  have hitems : (plugAll ctx T1).items = (plugAll ctx (node a l k v h r)).items := by
    rw [items_plugAll, items_plugAll, hit]
  refine ⟨top, htop, hrep2, hog2, htop, ?_, ?_, hitems, ?_, ?_⟩
  · intro f rest he
    subst he
    have hc := rep_plug_cell (rep_hole rest _ hrep2)
    obtain ⟨tl, tk, tv, th, tr, rfl⟩ := ptr_some_cases htop
    refine ⟨_, hc, ?_⟩
    by_cases hl : f.left = true
    · simp [hl, cell]
    · simp [hl, cell, rlink, rflag]
  · intro he
    subst he
    rw [hog2]; exact htop
  · rw [kvs_items, kvs_items, hitems]
  · rw [keys_items, hitems, ← keys_items]; exact hB

/-- Claim C20: in a structure that holds a tree with strictly ascending keys, at a node
`c` below any path `ctx` (`prev` is the parent, the top of the stack, or null):
`right_rotate(c, prev)` when `c` has a left child `l`, `left_rotate(c, prev)` when `c`
has a right child `r`, the double rotation `left_rotate(c->Left, c); right_rotate(c, prev)`
when the left child has a right child `m`, and the double rotation
`right_rotate(c->Right, c); left_rotate(c, prev)` when the right child has a left child
`m`, all return and leave the structure `Rotated`: the inorder sequence of the nodes
and of the (key, value) pairs of the whole tree is the same, the keys are ascending in
inorder, and the node that moved up (`l`, `r`, `m`, `m`) hangs in the child slot of
the parent where `c` was, or is the structural root. -/
theorem C20_rotations (s : avlt) (ctx : List Frame) (c : Nat) (L : Tree) (kc vc hc : Int)
    (R : Tree)
    (hrep : Tree.Rep s.heap none (plugAll ctx (Tree.node c L kc vc hc R)))
    (hnd : (plugAll ctx (Tree.node c L kc vc hc R)).addrs.Nodup)
    (hog : s.ogRoot = (plugAll ctx (Tree.node c L kc vc hc R)).ptr)
    (hB : (plugAll ctx (Tree.node c L kc vc hc R)).keys.Pairwise (fun x y => x < y)) :
    (∀ l ll kl vl hl lr, L = Tree.node l ll kl vl hl lr →
      ∃ s1 T1, right_rotate s (some c) (stackTop (stackOf ctx)) = some s1 ∧
        Rotated s1 ctx (Tree.node c L kc vc hc R) T1 l) ∧
    (∀ r rl kr vr hr rr, R = Tree.node r rl kr vr hr rr →
      ∃ s1 T1, left_rotate s (some c) (stackTop (stackOf ctx)) = some s1 ∧
        Rotated s1 ctx (Tree.node c L kc vc hc R) T1 r) ∧
    (∀ l ll kl vl hl m ml km vm hm mr,
      L = Tree.node l ll kl vl hl (Tree.node m ml km vm hm mr) →
      ∃ s1 s2 T1, left_rotate s (some l) (some c) = some s1 ∧
        right_rotate s1 (some c) (stackTop (stackOf ctx)) = some s2 ∧
        Rotated s2 ctx (Tree.node c L kc vc hc R) T1 m) ∧
    (∀ r m ml km vm hm mr kr vr hr rr,
      R = Tree.node r (Tree.node m ml km vm hm mr) kr vr hr rr →
      ∃ s1 s2 T1, right_rotate s (some r) (some c) = some s1 ∧
        left_rotate s1 (some c) (stackTop (stackOf ctx)) = some s2 ∧
        Rotated s2 ctx (Tree.node c L kc vc hc R) T1 m) := by
  have hin : Rep s.heap (holeSucc ctx) (node c L kc vc hc R) := rep_hole ctx _ hrep
  have hndn : (node c L kc vc hc R).addrs.Nodup := nodup_hole ctx _ hnd
  have hpar := parent_ok ctx c L kc vc hc R hrep hnd
  have hsucc : ∀ b, holeSucc ctx = some b → b ∉ (node c L kc vc hc R).addrs :=
    fun b hb => holeSucc_not_mem hnd hb
  have hsh : assignHeight s.heap (holeSucc ctx) = some (succH ctx) := succH_spec ctx _ hrep
  have hfin : ∀ (s1 : avlt) (T1 : Tree) (top : Nat),
      StepOk s s1 (holeSucc ctx) (stackTop (stackOf ctx)) c (node c L kc vc hc R) T1 →
      T1.items = (node c L kc vc hc R).items → T1.ptr = some top →
      Rotated s1 ctx (node c L kc vc hc R) T1 top := by
    intro s1 T1 top st hit htop
    obtain ⟨top1, h1, h2⟩ := step_whole ctx c L kc vc hc R T1 hrep hnd hog hB st hit
    rw [htop] at h1
    cases h1
    exact h2
  have hcc := hin.1
  have hnd1 := hndn
  rw [nodup_node] at hnd1
  obtain ⟨n1, n2, n3, n4, n5⟩ := hnd1
  refine ⟨?_, ?_, ?_, ?_⟩
  · intro l ll kl vl hl lr hL
    subst hL
    obtain ⟨s1, t1, e1, e2, st⟩ := right_rotate_sim s c l ll lr R kc vc hc kl vl hl
      (holeSucc ctx) (stackTop (stackOf ctx)) hin hndn hpar
    refine ⟨s1, t1, e2, hfin s1 t1 l st (rotR_items e1) ?_⟩
    simp only [rotR, Option.some.injEq] at e1
    rw [← e1]; rfl
  · intro r rl kr vr hr rr hR
    subst hR
    obtain ⟨s1, t1, e1, e2, st⟩ := left_rotate_sim s c r L rl rr kc vc hc kr vr hr
      (holeSucc ctx) (stackTop (stackOf ctx)) (succH ctx) hin hndn hsh hsucc hpar
    refine ⟨s1, t1, e2, hfin s1 t1 r st (rotL_items e1) ?_⟩
    simp only [rotL, Option.some.injEq] at e1
    rw [← e1]; rfl
  · intro l ll kl vl hl m ml km vm hm mr hL
    subst hL
    have hah : assignHeight s.heap (some c) = some hc := by
      simp [assignHeight_some, hcc]
    obtain ⟨s1, l1, e1, e2, st1⟩ := left_rotate_sim s l m ll ml mr kl vl hl km vm hm
      (some c) (some c) hc hin.2.1 n1 hah
      (by intro b hb0; cases hb0; exact n3)
      (by intro p hp; cases hp; exact ⟨n3, _, hcc⟩)
    have hit1 := rotL_items e1
    obtain ⟨g1, g2, g3, g4, g5, g6⟩ := inner_left hin hndn rfl hsucc hpar st1 hit1
    simp only [rotL, Option.some.injEq] at e1
    subst e1
    obtain ⟨s2, t2, f1, f2, st2⟩ := right_rotate_sim s1 c m _ _ R kc vc hc _ _ _
      (holeSucc ctx) (stackTop (stackOf ctx)) g1 g2 g4
    refine ⟨s1, s2, t2, e2, f2, hfin s2 t2 m ?_ ?_ ?_⟩
    · refine StepOk.comp g6 g5 (fun p hp => (hpar p hp).1)
        ⟨st1.len, st1.size, st1.begun, ?_⟩ st2
      rcases st1.roots with h0 | h0
      · exact ⟨h0.1, h0.2.1⟩
      · cases h0.1
    · rw [rotR_items f1]
      simp [items]
    · simp only [rotR, Option.some.injEq] at f1
      rw [← f1]; rfl
  · intro r m ml km vm hm mr kr vr hr rr hR
    subst hR
    obtain ⟨s1, r1, e1, e2, st1⟩ := right_rotate_sim s r m ml mr rr kr vr hr km vm hm
      (holeSucc ctx) (some c) hin.2.2 n2
      (by intro p hp; cases hp; exact ⟨n4, _, hcc⟩)
    have hit1 := rotR_items e1
    obtain ⟨g1, g2, g3, g4, g5, g6⟩ := inner_right hin hndn rfl hsucc hpar st1 hit1
    simp only [rotR, Option.some.injEq] at e1
    subst e1
    have hsh1 : assignHeight s1.heap (holeSucc ctx) = some (succH ctx) := by
      rw [assignHeight_congr (fun b hb0 => g5 b (hsucc b hb0)), hsh]
    obtain ⟨s2, t2, f1, f2, st2⟩ := left_rotate_sim s1 c m L _ _ kc vc hc _ _ _
      (holeSucc ctx) (stackTop (stackOf ctx)) (succH ctx) g1 g2 hsh1 g3 g4
    refine ⟨s1, s2, t2, e2, f2, hfin s2 t2 m ?_ ?_ ?_⟩
    · refine StepOk.comp g6 g5 (fun p hp => (hpar p hp).1)
        ⟨st1.len, st1.size, st1.begun, ?_⟩ st2
      rcases st1.roots with h0 | h0
      · exact ⟨h0.1, h0.2.1⟩
      · cases h0.1
    · rw [rotL_items f1]
      simp [items]
    · simp only [rotL, Option.some.injEq] at f1
      rw [← f1]; rfl

theorem C20_rotations_witness :
    Tree.Rep stateTwo.heap none
        (plugAll [] (Tree.node 0 (Tree.node 1 Tree.nil 1 0 0 Tree.nil) 2 0 1 Tree.nil)) ∧
      (plugAll [] (Tree.node 0 (Tree.node 1 Tree.nil 1 0 0 Tree.nil) 2 0 1 Tree.nil)).addrs.Nodup ∧
      stateTwo.ogRoot =
        (plugAll [] (Tree.node 0 (Tree.node 1 Tree.nil 1 0 0 Tree.nil) 2 0 1 Tree.nil)).ptr ∧
      (plugAll [] (Tree.node 0 (Tree.node 1 Tree.nil 1 0 0 Tree.nil) 2 0 1 Tree.nil)).keys.Pairwise
        (fun x y => x < y) ∧
      ∃ s1 T1, right_rotate stateTwo (some 0) none = some s1 ∧
        Rotated s1 [] (Tree.node 0 (Tree.node 1 Tree.nil 1 0 0 Tree.nil) 2 0 1 Tree.nil) T1 1 := by
  have h1 : Tree.Rep stateTwo.heap none
      (plugAll [] (Tree.node 0 (Tree.node 1 Tree.nil 1 0 0 Tree.nil) 2 0 1 Tree.nil)) :=
    ⟨rfl, ⟨rfl, trivial, trivial⟩, trivial⟩
  have h2 : (plugAll [] (Tree.node 0 (Tree.node 1 Tree.nil 1 0 0 Tree.nil) 2 0 1
      Tree.nil)).addrs.Nodup := by decide
  have h4 : (plugAll [] (Tree.node 0 (Tree.node 1 Tree.nil 1 0 0 Tree.nil) 2 0 1
      Tree.nil)).keys.Pairwise (fun x y => x < y) := by
    simp [plugAll, keys]
  exact ⟨h1, h2, rfl, h4,
    (C20_rotations stateTwo [] 0 _ 2 0 1 Tree.nil h1 h2 rfl h4).1 1 Tree.nil 1 0 0 Tree.nil rfl⟩

/-! ## The result of `findLower` -/

theorem findLower_spec {s : avlt} {t : Tree} (h : Inv s t) (hr : s.Root = s.ogRoot)
    (target : Int) :
    findLower s target =
      some (((t.items.map (fun x => (x.1, x.2.1))).find?
        (fun x => decide (target ≤ x.2))).map (fun x => x.1)) := by
  have hl := @lowerT_spec target t none h.bst (fun _ => rfl)
  simp only [Option.toList, List.append_nil] at hl
  rw [← hl]
  unfold findLower
  rw [hr, h.holds.og]
  cases t with
  | nil => rfl
  | node a l k v h0 r =>
    exact findLowerLoop_sim (node a l k v h0 r) none none _ h.holds.rep
      (by rw [h.holds.len]; omega) rfl (by intro b bk hb; cases hb)

/-- Claim C21: on a structure built by insertions (empty or not), `findLower(target)`
returns the node that holds the smallest stored key that is not below `target`, and
returns null exactly when every stored key is below `target`; the key of the node
returned is never below `target`, so the guard `current->Key < lower` of
`range_search` is false. -/
theorem C21_findLower (ops : List (Int × Int)) (target : Int) :
    ∃ s r, build ops = some s ∧ findLower s target = some r ∧
      (r = none ↔ ∀ k ∈ ops.map Prod.fst, k < target) ∧
      (∀ a, r = some a → ∃ (n : NODE), s.heap[a]? = some n ∧
        n.Key ∈ ops.map Prod.fst ∧ target ≤ n.Key ∧ ¬ (n.Key < target) ∧
        ∀ k ∈ ops.map Prod.fst, target ≤ k → n.Key ≤ k) := by
  obtain ⟨s, t, e1, e2, _, e4, e5⟩ := build_inv ops
  have hf := findLower_spec e2 e4 target
  have hmem : ∀ k, k ∈ ops.map Prod.fst ↔
      k ∈ (t.items.map (fun x => (x.1, x.2.1))).map (fun x => x.2) := by
    intro k
    rw [← build_keys ops e5, keys_items, List.map_map]
    rfl
  have hsorted : ((t.items.map (fun x => (x.1, x.2.1))).map (fun x => x.2)).Pairwise
      (fun x y => x < y) := by
    have := e2.bst
    rw [keys_items] at this
    rw [List.map_map]
    exact this
  cases hq : (t.items.map (fun x => (x.1, x.2.1))).find? (fun x => decide (target ≤ x.2)) with
  | none =>
    rw [hq] at hf
    refine ⟨s, none, e1, hf, ?_, ?_⟩
    · constructor
      · intro _ k hk
        rw [hmem, List.mem_map] at hk
        obtain ⟨x, hx, rfl⟩ := hk
        have := List.find?_eq_none.1 hq x hx
        simpa using this
      · intro _; rfl
    · intro a ha; cases ha
  | some x =>
    rw [hq] at hf
    obtain ⟨hp, as, bs, hsplit, has⟩ := List.find?_eq_some.1 hq
    have hpx : target ≤ x.2 := by simpa using hp
    have hxm : x.2 ∈ ops.map Prod.fst := by
      rw [hmem, hsplit]; simp
    refine ⟨s, some x.1, e1, hf, ?_, ?_⟩
    · constructor
      · intro h0; cases h0
      · intro hall
        have := hall x.2 hxm
        omega
    · intro a ha
      cases ha
      have hxi : x ∈ t.items.map (fun x => (x.1, x.2.1)) := by rw [hsplit]; simp
      rw [List.mem_map] at hxi
      obtain ⟨y, hy, hyx⟩ := hxi
      obtain ⟨n, hn, hk, _⟩ := rep_mem_cell t none e2.holds.rep y hy
      have h1 : x.1 = y.1 := by rw [← hyx]
      have h2 : x.2 = y.2.1 := by rw [← hyx]
      rw [h1]
      refine ⟨n, hn, by rw [hk, ← h2]; exact hxm, by rw [hk, ← h2]; exact hpx,
        by rw [hk, ← h2]; omega, ?_⟩
      intro k hk0 hle
      rw [hk, ← h2]
      rw [hmem, hsplit] at hk0
      rw [hsplit] at hsorted
      simp only [List.map_append, List.map_cons, List.pairwise_append, List.pairwise_cons,
        List.mem_map, List.mem_append, List.mem_cons] at hk0 hsorted
      rcases hk0 with ⟨z, hz, rfl⟩ | rfl | ⟨z, hz, rfl⟩
      · have := has z hz
        simp at this
        omega
      · exact le_refl _
      · exact le_of_lt (hsorted.2.1.1 _ ⟨z, hz, rfl⟩)

/-- Example: in the tree built from 5, 3, 8, 1, 4, 7, 9 the node `findLower(6)` returns
holds the key 7, and `findLower(10)` returns null. -/
theorem findLower_example :
    (build [(5, 0), (3, 0), (8, 0), (1, 0), (4, 0), (7, 0), (9, 0)]).bind (fun s =>
      (findLower s 6).map (fun r => r.bind (fun a => (s.heap[a]?).map (fun n => n.Key)))) =
      some (some 7) ∧
    (build [(5, 0), (3, 0), (8, 0), (1, 0), (4, 0), (7, 0), (9, 0)]).bind (fun s =>
      findLower s 10) = some none := by
  exact ⟨rfl, rfl⟩

/-! ## `range_search` with the bounds in the wrong order -/

/-- Claim C22: on a structure built by insertions, `range_search(lower, upper)` with
`lower > upper` returns, and the list it returns is empty. -/
theorem C22_range_search_reversed (ops : List (Int × Int)) (lower upper : Int)
    (h : upper < lower) :
    ∃ s, build ops = some s ∧ range_search s lower upper = some [] := by
  obtain ⟨s, t, e1, e2, _, e4, _⟩ := build_inv ops
  refine ⟨s, e1, ?_⟩
  rw [range_search_spec e2 e4 lower upper]
  have hspec := rangeOf_spec lower upper t.keys e2.bst
  have : rangeOf lower upper t.keys = [] := by
    apply List.eq_nil_iff_forall_not_mem.2
    intro k hk
    have := (hspec.2 k).1 hk
    omega
  rw [this]

theorem C22_range_search_reversed_witness :
    (3 : Int) < 8 ∧
      ∃ s, build [(5, 0), (3, 0), (8, 0), (1, 0), (4, 0), (7, 0), (9, 0)] = some s ∧
        range_search s 8 3 = some [] :=
  ⟨by decide, C22_range_search_reversed _ 8 3 (by decide)⟩

/-! ## Size against height -/

theorem avl_size_fib {t : Tree} (h : Avl t) : Nat.fib (t.ht + 3).toNat ≤ t.size + 1 := by
  induction t with
  | nil => simp [ht, Tree.size]
  | node a l k v h0 r ihl ihr =>
    obtain ⟨h1, h2, h3, h4, h5⟩ := h
    have gl := avl_ht_ge h1
    have gr := avl_ht_ge h2
    have il := ihl h1
    have ir := ihr h2
    obtain ⟨x, hx⟩ : ∃ x : Nat, l.ht = (x : Int) - 1 := ⟨(l.ht + 1).toNat, by omega⟩
    obtain ⟨y, hy⟩ : ∃ y : Nat, r.ht = (y : Int) - 1 := ⟨(r.ht + 1).toNat, by omega⟩
    have e1 : (l.ht + 3).toNat = x + 2 := by omega
    have e2 : (r.ht + 3).toNat = y + 2 := by omega
    rw [e1] at il
    rw [e2] at ir
    simp only [ht_node, Tree.size]
    rcases le_total l.ht r.ht with hle | hle
    · have e3 : (h0 + 3).toNat = y + 3 := by omega
      rw [e3]
      have hf : Nat.fib (y + 3) = Nat.fib (y + 1) + Nat.fib (y + 2) := Nat.fib_add_two
      have hm : Nat.fib (y + 1) ≤ Nat.fib (x + 2) := Nat.fib_mono (by omega)
      omega
    · have e3 : (h0 + 3).toNat = x + 3 := by omega
      rw [e3]
      have hf : Nat.fib (x + 3) = Nat.fib (x + 1) + Nat.fib (x + 2) := Nat.fib_add_two
      have hm : Nat.fib (x + 1) ≤ Nat.fib (y + 2) := Nat.fib_mono (by omega)
      omega

theorem fib_pow_two : ∀ (m : Nat), 2 ^ (m / 2) ≤ Nat.fib (m + 2) ∧
    2 ^ ((m + 1) / 2) ≤ Nat.fib (m + 3) := by
  intro m
  induction m with
  | zero => decide
  | succ m ih =>
    refine ⟨ih.2, ?_⟩
    have e : (m + 1 + 1) / 2 = m / 2 + 1 := by omega
    rw [e, pow_succ]
    have hf : Nat.fib (m + 1 + 3) = Nat.fib (m + 2) + Nat.fib (m + 3) := Nat.fib_add_two
    have hm : Nat.fib (m + 2) ≤ Nat.fib (m + 3) := Nat.fib_mono (by omega)
    have := ih.1
    omega

theorem height_ge (t : Tree) : -1 ≤ t.height := by
  induction t with
  | nil => simp [Tree.height]
  | node a l k v h r ihl _ => simp only [Tree.height]; omega

/-! ## The loops visit at most height + 1 nodes -/

theorem searchLoop_height {H : Heap} {key value : Int} (t : Tree) :
    ∀ (succ : Option Nat) (fuel : Nat), Rep H succ t → t.height + 1 < (fuel : Int) →
    searchLoop H key value fuel t.ptr =
      some (match lookupT key t with
        | some v => (true, v)
        | none => (false, value)) := by
  induction t with
  | nil =>
    intro succ fuel _ hf
    cases fuel with
    | zero => simp [Tree.height] at hf
    | succ fuel => rfl
  | node a l k v h r ihl ihr =>
    intro succ fuel hrep hf
    have gl := height_ge l
    have gr := height_ge r
    simp only [Tree.height] at hf
    cases fuel with
    | zero => omega
    | succ fuel =>
      obtain ⟨hc, hl, hr⟩ := hrep
      simp only [searchLoop, ptr_node, hc, lookupT, cell_Key, cell_Left, cell_Right,
        cell_isThreaded, cell_Value]
      by_cases h1 : key = k
      · simp only [h1, if_true]
      · simp only [h1, if_false]
        by_cases h2 : key < k
        · simp only [h2, if_true]
          exact ihl (some a) fuel hl (by omega)
        · simp only [h2, if_false]
          have h3 : key > k := by omega
          cases r with
          | nil =>
            cases succ with
            | none =>
              simp only [rflag_nil, Option.isSome_none, Bool.false_eq_true, if_false, h3, if_true,
                rlink_nil]
              exact ihr none fuel hr (by simp only [Tree.height]; omega)
            | some b => simp [lookupT]
          | node rb rl rk rv rh rr =>
            simp only [rflag_node, Bool.false_eq_true, if_false, h3, if_true, rlink_node]
            exact ihr succ fuel hr (by omega)

theorem insertLoop_height {H : Heap} {key : Int} (t : Tree) :
    ∀ (succ : Option Nat) (ctx : List Frame) (fuel : Nat) (gl gr : Bool),
    Rep H succ t → t.height + 1 < (fuel : Int) →
    (gl, gr) = (if t = nil then flagsOf ctx else (false, false)) →
    insertLoop H key fuel t.ptr (stackTop (stackOf ctx)) (stackOf ctx) gl gr =
      match pathT key t ctx with
      | none => some Descent.found
      | some ctx1 => some (Descent.fell (stackTop (stackOf ctx1)) (stackOf ctx1)
          (flagsOf ctx1).1 (flagsOf ctx1).2) := by
  induction t with
  | nil =>
    intro succ ctx fuel gl gr _ hf hfl
    cases fuel with
    | zero => simp [Tree.height] at hf
    | succ fuel =>
      simp only [if_true] at hfl
      simp [insertLoop, ptr, pathT, ← hfl]
  | node a l k v h r ihl ihr =>
    intro succ ctx fuel gl gr hrep hf hfl
    have hgl := height_ge l
    have hgr := height_ge r
    simp only [Tree.height] at hf
    cases fuel with
    | zero => omega
    | succ fuel =>
      obtain ⟨hc, hl, hr⟩ := hrep
      simp only [if_false, Prod.mk.injEq, reduceCtorEq] at hfl
      obtain ⟨rfl, rfl⟩ := hfl
      simp only [insertLoop, ptr_node, hc, pathT, cell_Key, cell_Left, cell_Right,
        cell_isThreaded]
      by_cases h1 : key = k
      · simp only [h1, if_true]
      · simp only [h1, if_false]
        by_cases h2 : key < k
        · simp only [h2, if_true]
          have := ihl (some a) ({ left := true, a := a, k := k, v := v, h := h, sib := r } :: ctx)
            fuel (if l.ptr = none then true else false) false hl (by omega)
            (by cases l <;> simp [flagsOf])
          simpa only [stackOf_cons, stackTop_cons] using this
        · simp only [h2, if_false]
          cases r with
          | nil =>
            cases succ with
            | none =>
              have := ihr none ({ left := false, a := a, k := k, v := v, h := h, sib := l } :: ctx)
                fuel false true hr (by simp only [Tree.height]; omega) (by simp [flagsOf])
              simpa using this
            | some b =>
              simp [pathT, flagsOf]
          | node b rl rk rv rh rr =>
            have := ihr succ ({ left := false, a := a, k := k, v := v, h := h, sib := l } :: ctx)
              fuel false false hr (by omega) (by simp)
            simpa using this

theorem findLowerLoop_height {H : Heap} {key : Int} (t : Tree) :
    ∀ (succ : Option Nat) (sk : Option (Nat × Int)) (fuel : Nat), Rep H succ t →
      t.height + 1 < (fuel : Int) → succ = sk.map (fun x => x.1) →
      (∀ b bk, sk = some (b, bk) → ∃ n, H[b]? = some n ∧ n.Key = bk) →
      findLowerLoop H key fuel t.ptr = some (lowerT key t sk) := by
  induction t with
  | nil =>
    intro succ sk fuel _ hf _ _
    cases fuel with
    | zero => simp [Tree.height] at hf
    | succ fuel => rfl
  | node a l k v h r ihl ihr =>
    intro succ sk fuel hrep hf hs hsk
    have hgl := height_ge l
    have hgr := height_ge r
    simp only [Tree.height] at hf
    cases fuel with
    | zero => omega
    | succ fuel =>
      obtain ⟨hc, hl, hr⟩ := hrep
      simp only [findLowerLoop, ptr_node, hc, lowerT, cell_Key, cell_Left, cell_Right,
        cell_isThreaded]
      by_cases h1 : key = k
      · simp only [h1, if_true]
      · simp only [h1, if_false]
        by_cases h2 : key < k
        · simp only [h2, if_true]
          cases l with
          | nil => simp [goesLeft]
          | node la ll lk lv lh lr =>
            simp only [ptr_node, hl.1, cell_Key, cell_isThreaded, goesLeft]
            have := ihl (some a) (some (a, k)) fuel hl (by omega) rfl
              (by intro b bk hb; cases hb; exact ⟨_, hc, rfl⟩)
            rw [ptr_node] at this
            cases lr with
            | nil =>
              by_cases h3 : lk ≥ key
              · simp [h3, this]
              · simp [h3]
            | node x xl xk xv xh xr => simp [this]
        · simp only [h2, if_false]
          cases r with
          | nil =>
            cases sk with
            | none =>
              simp only [Option.map_none'] at hs
              subst hs
              simp
            | some p =>
              obtain ⟨b, bk⟩ := p
              simp only [Option.map_some'] at hs
              subst hs
              obtain ⟨n, hn, hk⟩ := hsk b bk rfl
              simp only [rflag_nil, Option.isSome_some, if_true, rlink_nil, rd_eq, hn, hk]
              split <;> rfl
          | node rb rl rk rv rh rr =>
            simp only [rflag_node, Bool.false_eq_true, if_false, rlink_node]
            exact ihr succ sk fuel hr (by omega) hs hsk

/-- Claim C23: on a structure built by insertions, with `n = size()` and
`h = height()`: `n ≥ Fib(h + 3) - 1` (`Nat.fib`, with `fib 1 = fib 2 = 1`; the empty
structure has `h = -1`, `n = 0`), hence `2 ^ ((h + 1) / 2) ≤ n + 1`; and the loops of
`search`, `insert` and `findLower` return within `h + 2` rounds, that is after at
most `h + 1` nodes, with the result of the method. -/
theorem C23_size_height (ops : List (Int × Int)) :
    ∃ s h, build ops = some s ∧ height s = some h ∧ -1 ≤ h ∧
      (Nat.fib (h + 3).toNat : Int) - 1 ≤ size s ∧
      (2 : Int) ^ ((h + 1).toNat / 2) ≤ size s + 1 ∧
      (∀ k v0, ∃ r, searchLoop s.heap k v0 (h + 2).toNat s.Root = some r ∧
        search s k v0 = some r) ∧
      (∀ k, ∃ d, insertLoop s.heap k (h + 2).toNat s.ogRoot none [] false false = some d ∧
        insertLoop s.heap k (s.heap.length + 1) s.ogRoot none [] false false = some d) ∧
      (∀ k, ∃ r, findLowerLoop s.heap k (h + 2).toNat s.ogRoot = some r ∧
        findLower s k = some r) := by
  obtain ⟨s, t, e1, e2, _, e4, _⟩ := build_inv ops
  have hge := avl_ht_ge e2.avl
  have hht := avl_ht_height e2.avl
  have hfuel : t.height + 1 < (((t.ht + 2).toNat : Nat) : Int) := by omega
  have hsz : size s = (t.size : Int) := e2.holds.size
  have hfib : (Nat.fib (t.ht + 3).toNat : Int) ≤ (t.size : Int) + 1 := by
    exact_mod_cast avl_size_fib e2.avl
  have hpow : (2 : Int) ^ ((t.ht + 1).toNat / 2) ≤ (Nat.fib (t.ht + 3).toNat : Int) := by
    have e : (t.ht + 3).toNat = (t.ht + 1).toNat + 2 := by omega
    rw [e]
    exact_mod_cast (fib_pow_two (t.ht + 1).toNat).1
  refine ⟨s, t.ht, e1, height_spec e2.holds.rep (e4.trans e2.holds.og), hge,
    by rw [hsz]; omega, by rw [hsz]; omega, ?_, ?_, ?_⟩
  · intro k v0
    have h1 := @searchLoop_height s.heap k v0 t none _ e2.holds.rep hfuel
    have h2 : search s k v0 = some (match lookupT k t with
        | some v => (true, v)
        | none => (false, v0)) := by
      unfold search
      rw [e4, e2.holds.og]
      cases t with
      | nil => rfl
      | node a l k1 v h r =>
        exact searchLoop_sim (node a l k1 v h r) none _ e2.holds.rep
          (by rw [e2.holds.len]; omega)
    rw [← e2.holds.og, ← e4] at h1
    exact ⟨_, h1, h2⟩
  · intro k
    have h1 := @insertLoop_height s.heap k t none [] (t.ht + 2).toNat false false
      e2.holds.rep hfuel (by cases t <;> simp [flagsOf])
    have h2 := @insertLoop_sim s.heap k t none [] (s.heap.length + 1) false false
      e2.holds.rep (by rw [e2.holds.len]; omega) (by cases t <;> simp [flagsOf])
    rw [← e2.holds.og] at h1 h2
    simp only [stackOf_nil, stackTop_nil] at h1 h2
    cases hp : pathT k t [] with
    | none =>
      rw [hp] at h1 h2
      exact ⟨_, h1, h2⟩
    | some ctx =>
      rw [hp] at h1 h2
      exact ⟨_, h1, h2⟩
  · intro k
    have h1 := @findLowerLoop_height s.heap k t none none _ e2.holds.rep hfuel rfl
      (by intro b bk hb; cases hb)
    have h2 : findLower s k = some (lowerT k t none) := by
      unfold findLower
      rw [e4, e2.holds.og]
      cases t with
      | nil => rfl
      | node a l k1 v h r =>
        exact findLowerLoop_sim (node a l k1 v h r) none none _ e2.holds.rep
          (by rw [e2.holds.len]; omega) rfl (by intro b bk hb; cases hb)
    rw [← e2.holds.og] at h1
    exact ⟨_, h1, h2⟩

/-- Example: the seven keys 4, 2, 6, 1, 3, 5, 7 give height 2 and size 7
(`fib 5 - 1 = 4 ≤ 7`), the four keys 2, 1, 3, 4 give height 2 and size 4. -/
theorem size_height_example :
    (build [(4, 0), (2, 0), (6, 0), (1, 0), (3, 0), (5, 0), (7, 0)]).bind
      (fun s => (height s).map (fun h => (h, size s))) = some (2, 7) ∧
    (build [(2, 0), (1, 0), (3, 0), (4, 0)]).bind
      (fun s => (height s).map (fun h => (h, size s))) = some (2, 4) ∧
    Nat.fib 5 - 1 = 4 := by
  exact ⟨rfl, rfl, rfl⟩

end AVLT
